import Mathlib

/-!
# Limit order book (`lob/lob.go`): shallow embedding and verified properties

The Go engine keeps `*Order` and `*Limit` objects on the heap and links them by
pointers.  The embedding makes the heap explicit: an arena of orders and an arena
of limits, each a list addressed by position, and a pointer is an `Option Nat`
(`none` is Go's `nil`).  Every function of `lob.go` is translated statement by
statement over that state.  A run-time panic (nil dereference) and a `Lock()` on a
held mutex (which never returns) are the two ways a call can fail to return; both
are results of type `Fault`.

The file has the definitions first (the embedding, then the notions the properties
are stated with), then the lemmas on the price index, the ID table and the arenas,
the description of what each function returns, the proof that every run keeps the
invariant `Inv`, and last the properties of the specification, `C1` to `C20`.  The
properties from `C11` on come with the lemmas they need: the scenario step by step,
what a call that returns has done in any state, the cancel of a cached best order, the
invariant on volumes `VolInv`, and the calls on a book whose lock was left held.
-/

namespace lob

/-! ## Machine integers -/

/-- Go `int` arithmetic on a 64-bit target wraps in two's complement. -/
def wrapInt (x : Int) : Int := (x + 2 ^ 63) % 2 ^ 64 - 2 ^ 63

/-! ## Data model -/

/-- The struct `Order`; the three pointer fields are arena addresses. -/
structure Order where
  ID : Int
  UID : Int
  Price : Int
  Quantity : Int
  IsSell : Bool
  NextOrder : Option Nat
  PrevOrder : Option Nat
  ParentLimit : Option Nat
deriving DecidableEq, Repr

/-- The struct `Limit`.  `Size` is a count of orders and is kept unbounded: it
would need `2 ^ 63` resting orders to overflow.  `TotalVolume` wraps. -/
structure Limit where
  Price : Int
  Size : Int
  TotalVolume : Int
  HeadOrder : Option Nat
  TailOrder : Option Nat
deriving DecidableEq, Repr

/-- The struct `treeKey`. -/
structure treeKey where
  val : Int
deriving DecidableEq, Repr

/-- The method `treeKey.Compare`. -/
def treeKey.Compare (k k2 : treeKey) : Int :=
  if k.val = k2.val then 0 else if k.val > k2.val then 1 else -1

/-- The method `treeKey.String` (`strconv.Itoa`). -/
def treeKey.String (k : treeKey) : String := toString k.val

/-- Modelled from the spec: the ordered price index (§4.3), the external
balanced tree `github.com/bitmark-inc/bitmarkd/avl` that is not part of the
repository.  It is the in-order sequence of (key, `*Limit`) pairs, ascending by
`treeKey.Compare`; a node is a position in that sequence. -/
abbrev Tree := List (treeKey × Nat)

/-- Modelled from the spec: `search(key) → node-or-absent` of the price index. -/
def Tree.Search : Tree → treeKey → Option Nat
  | [], _ => none
  | (k, _) :: t, key =>
    if key.Compare k = 0 then some 0 else (Tree.Search t key).map (· + 1)

/-- Modelled from the spec: `insert(key, level)` of the price index; an existing
key keeps its place and takes the new value. -/
def Tree.Insert : Tree → treeKey → Nat → Tree
  | [], key, v => [(key, v)]
  | (k, w) :: t, key, v =>
    if key.Compare k = 0 then (k, v) :: t
    else if key.Compare k = -1 then (key, v) :: (k, w) :: t
    else (k, w) :: Tree.Insert t key v

/-- Modelled from the spec: `delete(key)` of the price index. -/
def Tree.Delete : Tree → treeKey → Tree
  | [], _ => []
  | (k, w) :: t, key =>
    if key.Compare k = 0 then t else (k, w) :: Tree.Delete t key

/-- Modelled from the spec: `successor() → node-or-none` of a node. -/
def Tree.Next (tree : Tree) (node : Nat) : Option Nat :=
  if node + 1 < tree.length then some (node + 1) else none

/-- Modelled from the spec: `predecessor() → node-or-none` of a node. -/
def Tree.Prev (_tree : Tree) (node : Nat) : Option Nat :=
  if 0 < node then some (node - 1) else none

/-- Modelled from the spec: the level stored at a node (`node.Value().(*Limit)`). -/
def Tree.Value (tree : Tree) (node : Nat) : Option Nat :=
  (tree[node]?).map (·.2)

/-- The struct `LimitOrderBook`, with the heap it points into.  `Lock` is the
mutex as a held/free flag; `orders` and `limits` are the two arenas. -/
structure LimitOrderBook where
  BuyTree : Tree
  SellTree : Tree
  LowestSell : Option Nat
  HighestBuy : Option Nat
  OrdersByID : List (Int × Nat)
  Lock : Bool
  orders : List Order
  limits : List Limit
deriving DecidableEq, Repr

/-- The ways a call fails to return: a nil-pointer panic, or `Lock()` on a mutex
that nobody will release. -/
inductive Fault where
  | nilDeref
  | deadlock
deriving DecidableEq, Repr

/-- What a call returns: the state after it, the output lines and the error. -/
abbrev Ret := LimitOrderBook × List String × Option String

/-! ## Heap and map primitives -/

/-- Read through an `*Order`. -/
def derefOrder (orders : List Order) : Option Nat → Except Fault Order
  | none => .error .nilDeref
  | some p =>
    match orders[p]? with
    | some o => .ok o
    | none => .error .nilDeref

/-- Read through a `*Limit`. -/
def derefLimit (limits : List Limit) : Option Nat → Except Fault Limit
  | none => .error .nilDeref
  | some p =>
    match limits[p]? with
    | some l => .ok l
    | none => .error .nilDeref

/-- Write one field of the order behind a pointer. -/
def updOrder (lob : LimitOrderBook) (p : Option Nat) (f : Order → Order) :
    Except Fault LimitOrderBook :=
  match p with
  | none => .error .nilDeref
  | some a =>
    match lob.orders[a]? with
    | some o => .ok { lob with orders := lob.orders.set a (f o) }
    | none => .error .nilDeref

/-- Write one field of the limit behind a pointer. -/
def updLimit (lob : LimitOrderBook) (p : Option Nat) (f : Limit → Limit) :
    Except Fault LimitOrderBook :=
  match p with
  | none => .error .nilDeref
  | some a =>
    match lob.limits[a]? with
    | some l => .ok { lob with limits := lob.limits.set a (f l) }
    | none => .error .nilDeref

/-- Map read `m[id]`. -/
def mapGet (m : List (Int × Nat)) (id : Int) : Option Nat :=
  (m.find? (fun e => e.1 = id)).map (·.2)

/-- Map `delete(m, id)`. -/
def mapDelete (m : List (Int × Nat)) (id : Int) : List (Int × Nat) :=
  m.filter (fun e => e.1 ≠ id)

/-- Map write `m[id] = p`. -/
def mapSet (m : List (Int × Nat)) (id : Int) (p : Nat) : List (Int × Nat) :=
  (id, p) :: mapDelete m id

/-- The call `lob.Lock.Lock()`: it returns only when the mutex is free. -/
def lockLock (lob : LimitOrderBook) : Except Fault LimitOrderBook :=
  if lob.Lock then .error .deadlock else .ok { lob with Lock := true }

/-- The call `lob.Lock.Unlock()`. -/
def lockUnlock (lob : LimitOrderBook) : LimitOrderBook := { lob with Lock := false }

/-! ## The engine -/

/-- The constructor `NewLimitOrderBook`. -/
def NewLimitOrderBook : LimitOrderBook :=
  { BuyTree := [], SellTree := [], LowestSell := none, HighestBuy := none,
    OrdersByID := [], Lock := false, orders := [], limits := [] }

/-- The method `CheckBookCrossed`; `&&` short-circuits, so the cached pointer is
read only when it is not nil. -/
def CheckBookCrossed (lob : LimitOrderBook) (o : Order) : Except Fault Bool := do
  let c1 ←
    if o.IsSell && lob.HighestBuy.isSome then do
      let hb ← derefOrder lob.orders lob.HighestBuy
      pure (decide (o.Price ≤ hb.Price))
    else pure false
  if c1 then
    return true
  else
    let c2 ←
      if !o.IsSell && lob.LowestSell.isSome then do
        let ls ← derefOrder lob.orders lob.LowestSell
        pure (decide (o.Price ≥ ls.Price))
      else pure false
    if c2 then
      return true
    return false

/-- The method `getOrderOutput`. -/
def getOrderOutput (accepted : Bool) (o : Order) : String :=
  let sym := if !accepted then "R" else "A"
  sym ++ ", " ++ toString o.UID ++ ", " ++ toString o.ID

/-- The method `getTobOutput`. -/
def getTobOutput (lob : LimitOrderBook) (isSell : Bool) : Except Fault String := do
  let mut sym := "B"
  let mut price := "-"
  let mut volume := "-"
  let mut limit : Option Nat := none
  if isSell then
    sym := "S"
    if lob.LowestSell.isSome then
      limit := (← derefOrder lob.orders lob.LowestSell).ParentLimit
  else if lob.HighestBuy.isSome then
    limit := (← derefOrder lob.orders lob.HighestBuy).ParentLimit
  if limit.isSome then
    let l ← derefLimit lob.limits limit
    price := toString l.Price
    volume := toString l.TotalVolume
  return "B, " ++ sym ++ ", " ++ price ++ ", " ++ volume

/-- The method `getOrderTree`. -/
def getOrderTree (lob : LimitOrderBook) (o : Order) : Tree :=
  if o.IsSell then lob.SellTree else lob.BuyTree

/-- Store back the tree that `getOrderTree` handed out by reference. -/
def setOrderTree (lob : LimitOrderBook) (o : Order) (t : Tree) : LimitOrderBook :=
  if o.IsSell then { lob with SellTree := t } else { lob with BuyTree := t }

/-- The method `newOrderIndexes`; `po` is the pointer `o`. -/
def newOrderIndexes (lob : LimitOrderBook) (output : List String) (po : Nat) :
    Except Fault (LimitOrderBook × List String) := do
  let o ← derefOrder lob.orders (some po)
  if o.IsSell then
    let lower ←
      if lob.LowestSell.isNone then pure true
      else do pure (decide (o.Price < (← derefOrder lob.orders lob.LowestSell).Price))
    if lower then
      let lob := { lob with LowestSell := some po }
      return (lob, output ++ [← getTobOutput lob o.IsSell])
    else if o.Price = (← derefOrder lob.orders lob.LowestSell).Price then
      return (lob, output ++ [← getTobOutput lob o.IsSell])
    return (lob, output)
  else
    let higher ←
      if lob.HighestBuy.isNone then pure true
      else do pure (decide (o.Price > (← derefOrder lob.orders lob.HighestBuy).Price))
    if higher then
      let lob := { lob with HighestBuy := some po }
      return (lob, output ++ [← getTobOutput lob o.IsSell])
    else if o.Price = (← derefOrder lob.orders lob.HighestBuy).Price then
      return (lob, output ++ [← getTobOutput lob o.IsSell])
    return (lob, output)

/-- The method `NewOrder`.  The fresh `Order` is a value until the crossing
check has passed and enters the arena, at the next free address, on the accepting
path only: on the rejecting path nothing refers to it. -/
def NewOrder (lob : LimitOrderBook) (uid price qty : Int) (isSell : Bool) (id : Int) :
    Except Fault Ret := do
  let lob ← lockLock lob
  let o : Order :=
    { ID := id, UID := uid, Price := price, Quantity := qty, IsSell := isSell,
      NextOrder := none, PrevOrder := none, ParentLimit := none }
  if (← CheckBookCrossed lob o) then
    let lob := lockUnlock lob
    return (lob, [getOrderOutput false o], none)
  let po := lob.orders.length
  let lob := { lob with orders := lob.orders ++ [o] }
  let tree := getOrderTree lob o
  let key : treeKey := ⟨price⟩
  let node := tree.Search key
  let (lob, limit) ←
    match node with
    | none =>
      let pl := lob.limits.length
      let lob := { lob with limits := lob.limits ++
        [{ Price := price, Size := 1, TotalVolume := o.Quantity,
           HeadOrder := some po, TailOrder := some po }] }
      let lob := setOrderTree lob o (tree.Insert key pl)
      pure (lob, some pl)
    | some n => do
      let limit := tree.Value n
      let l ← derefLimit lob.limits limit
      let lob ← updOrder lob l.TailOrder (fun t => { t with NextOrder := some po })
      let lob ← updLimit lob limit (fun l => { l with TailOrder := some po })
      let lob ← updLimit lob limit (fun l => { l with Size := l.Size + 1 })
      let lob ← updLimit lob limit
        (fun l => { l with TotalVolume := wrapInt (l.TotalVolume + o.Quantity) })
      pure (lob, limit)
  let lob ← updOrder lob (some po) (fun x => { x with ParentLimit := limit })
  let lob := { lob with OrdersByID := mapSet lob.OrdersByID id po }
  let output := [getOrderOutput true o]
  let (lob, output) ← newOrderIndexes lob output po
  let lob := lockUnlock lob
  return (lob, output, none)

/-- The method `cancelOrderIndexes`; `po` is the pointer `o`.  The fields of `o` are
read once: the function writes to the limit and to the two neighbours of `o`, never
to a field of `o` that it reads afterwards.  The limit is read again at each use. -/
def cancelOrderIndexes (lob : LimitOrderBook) (po : Nat) :
    Except Fault (LimitOrderBook × Bool) := do
  let o ← derefOrder lob.orders (some po)
  let tree := getOrderTree lob o
  let limit := o.ParentLimit
  let key : treeKey := ⟨(← derefLimit lob.limits limit).Price⟩
  let node := tree.Search key
  if (← derefLimit lob.limits limit).Size = 1 then
    let (lob, tobChanged) ←
      if some po = lob.LowestSell then do
        let n ← match node with
          | none => throw Fault.nilDeref
          | some n => pure n
        match tree.Next n with
        | some higherSellNode =>
          let l ← derefLimit lob.limits (tree.Value higherSellNode)
          pure ({ lob with LowestSell := l.HeadOrder }, true)
        | none => pure ({ lob with LowestSell := none }, true)
      else if some po = lob.HighestBuy then do
        let n ← match node with
          | none => throw Fault.nilDeref
          | some n => pure n
        match tree.Prev n with
        | some lowerBuyNode =>
          let l ← derefLimit lob.limits (tree.Value lowerBuyNode)
          pure ({ lob with HighestBuy := l.HeadOrder }, true)
        | none => pure ({ lob with HighestBuy := none }, true)
      else pure (lob, false)
    let lob := setOrderTree lob o (tree.Delete key)
    return (lob, tobChanged)
  else
    let lob ← updLimit lob limit (fun l => { l with Size := l.Size - 1 })
    let lob ← updLimit lob limit
      (fun l => { l with TotalVolume := wrapInt (l.TotalVolume - o.Quantity) })
    let lob ←
      if some po = (← derefLimit lob.limits limit).HeadOrder then
        updLimit lob limit
          (fun l => { l with HeadOrder := o.NextOrder })
      else pure lob
    let lob ←
      if some po = (← derefLimit lob.limits limit).TailOrder then
        updLimit lob limit
          (fun l => { l with TailOrder := o.PrevOrder })
      else pure lob
    let lob ←
      if o.PrevOrder.isSome then
        updOrder lob o.PrevOrder (fun x => { x with NextOrder := o.NextOrder })
      else pure lob
    let lob ←
      if o.NextOrder.isSome then
        updOrder lob o.NextOrder (fun x => { x with PrevOrder := o.PrevOrder })
      else pure lob
    if o.IsSell then
      if o.Price = (← derefOrder lob.orders lob.LowestSell).Price then
        return (lob, true)
      return (lob, false)
    else
      if o.Price = (← derefOrder lob.orders lob.HighestBuy).Price then
        return (lob, true)
      return (lob, false)

/-- The text of the error `CancelOrder` returns for an unknown id. -/
def notFound (id : Int) : String := "Order " ++ toString id ++ " doesnt exist"

/-- The method `CancelOrder`.  The not-found return comes before any `Unlock`. -/
def CancelOrder (lob : LimitOrderBook) (id : Int) : Except Fault Ret := do
  let lob ← lockLock lob
  match mapGet lob.OrdersByID id with
  | none => return (lob, [], some (notFound id))
  | some po =>
    let o ← derefOrder lob.orders (some po)
    let (lob, tobChanged) ← cancelOrderIndexes lob po
    let lob := { lob with OrdersByID := mapDelete lob.OrdersByID id }
    let output := [getOrderOutput true o]
    let output ← if tobChanged then do pure (output ++ [← getTobOutput lob o.IsSell])
      else pure output
    let lob := lockUnlock lob
    return (lob, output, none)

/-! ## Runs -/

/-- One call on the engine. -/
inductive Cmd where
  | submit (uid price qty : Int) (isSell : Bool) (id : Int)
  | cancel (id : Int)
deriving DecidableEq, Repr

/-- Perform one call. -/
def step (lob : LimitOrderBook) : Cmd → Except Fault Ret
  | .submit uid price qty isSell id => NewOrder lob uid price qty isSell id
  | .cancel id => CancelOrder lob id

/-- Perform the calls in order; the run exists only if every call returns. -/
def run (lob : LimitOrderBook) : List Cmd → Except Fault LimitOrderBook
  | [] => .ok lob
  | c :: cs =>
    match step lob c with
    | .ok r => run r.1 cs
    | .error e => .error e

/-- The order IDs the submit calls of a run use. -/
def submittedIDs : List Cmd → List Int
  | [] => []
  | .submit _ _ _ _ id :: cs => id :: submittedIDs cs
  | .cancel _ :: cs => submittedIDs cs

/-- A state reachable from the empty book by submit and cancel calls with
distinct order IDs. -/
def Reachable (lob : LimitOrderBook) : Prop :=
  ∃ cmds, (submittedIDs cmds).Nodup ∧ run NewLimitOrderBook cmds = .ok lob

/-- Walk a FIFO chain from a pointer along `NextOrder`, at most `fuel` orders. -/
def chainFrom (orders : List Order) : Nat → Option Nat → List Nat
  | 0, _ => []
  | _ + 1, none => []
  | fuel + 1, some p =>
    match orders[p]? with
    | none => []
    | some o => p :: chainFrom orders fuel o.NextOrder

/-! ## Properties of the heap that every run keeps -/

/-- The tree of one side (`true` is the sell side), as `getOrderTree` chooses it. -/
def sideTree (lob : LimitOrderBook) (s : Bool) : Tree :=
  if s then lob.SellTree else lob.BuyTree

/-- The level an order refers back to (`ParentLimit`). -/
def levelOf (orders : List Order) (p : Nat) : Option Nat :=
  (orders[p]?).bind (·.ParentLimit)

/-- How many entries of the ID table are orders of level `l`. -/
def restingAt (lob : LimitOrderBook) (l : Nat) : Nat :=
  lob.OrdersByID.countP (fun e => decide (levelOf lob.orders e.2 = some l))

/-- The order at `q` is met when following `NextOrder` from the order at `p`. -/
inductive InChain (orders : List Order) : Nat → Nat → Prop
  | here {p : Nat} {o : Order} : orders[p]? = some o → InChain orders p p
  | next {p n q : Nat} {o : Order} :
      orders[p]? = some o → o.NextOrder = some n → InChain orders n q → InChain orders p q

/-- The part of the invariant about the heap, the two indexes and the ID table. -/
structure HeapInv (lob : LimitOrderBook) : Prop where
  keysNodup : (lob.OrdersByID.map Prod.fst).Nodup
  tableValid : ∀ (id : Int) (p : Nat), (id, p) ∈ lob.OrdersByID →
    ∃ o : Order, lob.orders[p]? = some o ∧ o.ID = id
  ordPrev : ∀ (p : Nat) (o : Order), lob.orders[p]? = some o → o.PrevOrder = none
  ordParent : ∀ (p : Nat) (o : Order), lob.orders[p]? = some o →
    ∃ (l : Nat) (L : Limit), o.ParentLimit = some l ∧ lob.limits[l]? = some L ∧ L.Price = o.Price
  ordNext : ∀ (p : Nat) (o : Order) (n : Nat), lob.orders[p]? = some o →
    o.NextOrder = some n →
    p < n ∧ ∃ o2 : Order, lob.orders[n]? = some o2 ∧ o2.ParentLimit = o.ParentLimit ∧
      o2.IsSell = o.IsSell
  treeSorted : ∀ s, (sideTree lob s).Pairwise (fun a b => a.1.val < b.1.val)
  treeLevel : ∀ (s : Bool) (k : treeKey) (l : Nat), (k, l) ∈ sideTree lob s →
    ∃ (L : Limit) (h : Nat) (oh : Order), lob.limits[l]? = some L ∧ L.Price = k.val ∧ L.HeadOrder = some h ∧
      lob.orders[h]? = some oh ∧ oh.ParentLimit = some l ∧ oh.IsSell = s ∧
      L.Size = (restingAt lob l : Int) ∧ 1 ≤ L.Size ∧
      ∀ t : Nat, L.TailOrder = some t →
        InChain lob.orders h t ∧ ∃ ot : Order, lob.orders[t]? = some ot ∧ ot.NextOrder = none
  resting : ∀ (id : Int) (p : Nat) (o : Order), (id, p) ∈ lob.OrdersByID →
    lob.orders[p]? = some o →
    ∃ (l : Nat) (L : Limit) (h : Nat), o.ParentLimit = some l ∧ (⟨o.Price⟩, l) ∈ sideTree lob o.IsSell ∧
      lob.limits[l]? = some L ∧ L.HeadOrder = some h ∧ InChain lob.orders h p

/-- The part of the invariant about the two cached best pointers. -/
structure BestInv (lob : LimitOrderBook) : Prop where
  bestSell : ∀ p : Nat, lob.LowestSell = some p →
    ∃ o : Order, lob.orders[p]? = some o ∧ o.IsSell = true ∧
      ∀ k l, (k, l) ∈ lob.SellTree → o.Price ≤ k.val
  bestBuy : ∀ p : Nat, lob.HighestBuy = some p →
    ∃ o : Order, lob.orders[p]? = some o ∧ o.IsSell = false ∧
      ∀ k l, (k, l) ∈ lob.BuyTree → k.val ≤ o.Price
  sellSome : lob.SellTree ≠ [] → lob.LowestSell ≠ none
  buySome : lob.BuyTree ≠ [] → lob.HighestBuy ≠ none
  uncrossed : ∀ (a b : Nat) (oa ob : Order), lob.LowestSell = some a → lob.HighestBuy = some b →
    lob.orders[a]? = some oa → lob.orders[b]? = some ob → ob.Price < oa.Price

/-- The invariant of the engine: what holds of the book and its heap after every
call that returns, when order IDs are not reused. -/
structure Inv (lob : LimitOrderBook) : Prop where
  heap : HeapInv lob
  best : BestInv lob

/-- The head order of the level stored at a tree entry, if there is an entry. -/
def headOfLevel (lob : LimitOrderBook) (e : Option (treeKey × Nat)) : Option Nat :=
  e.bind (fun e => (lob.limits[e.2]?).bind (·.HeadOrder))

/-- The cached best pointer of a side: `LowestSell` for the sell side, `HighestBuy` for
the buy side. -/
def bestOf (lob : LimitOrderBook) (s : Bool) : Option Nat :=
  if s then lob.LowestSell else lob.HighestBuy

/-- The book with the cached best pointer of a side replaced. -/
def setBest (lob : LimitOrderBook) (s : Bool) (p : Option Nat) : LimitOrderBook :=
  if s then { lob with LowestSell := p } else { lob with HighestBuy := p }

/-- The price of the order behind a pointer, when there is one. -/
def priceAt (lob : LimitOrderBook) (p : Option Nat) : Option Int :=
  p.bind (fun a => (lob.orders[a]?).map (·.Price))

/-- What `CheckBookCrossed` computes, as a function of the cached best pointer of the
other side. -/
def crosses (lob : LimitOrderBook) (isSell : Bool) (price : Int) : Bool :=
  match priceAt lob (bestOf lob (!isSell)) with
  | none => false
  | some bp => if isSell then decide (price ≤ bp) else decide (price ≥ bp)

/-- The first test of `newOrderIndexes`: no cached best on the side, or a strictly
better price. -/
def improves (lob : LimitOrderBook) (isSell : Bool) (price : Int) : Bool :=
  match priceAt lob (bestOf lob isSell) with
  | none => true
  | some bp => if isSell then decide (price < bp) else decide (price > bp)

/-- The state `newOrderIndexes` leaves: the cached pointer moves to the new order
exactly when `improves` holds. -/
def improveBest (lob : LimitOrderBook) (po : Nat) (isSell : Bool) (price : Int) :
    LimitOrderBook :=
  if improves lob isSell price then setBest lob isSell (some po) else lob

/-- Both cached pointers, when not nil, lead to an order and on to its parent limit:
what `getTobOutput` dereferences. -/
def CacheReadable (lob : LimitOrderBook) : Prop :=
  ∀ s p, bestOf lob s = some p →
    ∃ (o : Order) (l : Nat) (L : Limit), lob.orders[p]? = some o ∧
      o.ParentLimit = some l ∧ lob.limits[l]? = some L

/-- The state of `NewOrder` before `newOrderIndexes` when the price had no level: the
order and a fresh level are in the arenas, the level is in the index, the order in
the ID table. -/
def placeNew (lob : LimitOrderBook) (o : Order) : LimitOrderBook :=
  setOrderTree
    { lob with
      orders := lob.orders ++ [{ o with ParentLimit := some lob.limits.length }]
      limits := lob.limits ++
        [{ Price := o.Price, Size := 1, TotalVolume := o.Quantity,
           HeadOrder := some lob.orders.length, TailOrder := some lob.orders.length }]
      OrdersByID := mapSet lob.OrdersByID o.ID lob.orders.length }
    o ((getOrderTree lob o).Insert ⟨o.Price⟩ lob.limits.length)

/-- The state of `NewOrder` before `newOrderIndexes` when the level `l` exists with
tail `t`: the order is linked after the tail and the level is updated. -/
def placeAppend (lob : LimitOrderBook) (o : Order) (l t : Nat) (L : Limit) (ot : Order) :
    LimitOrderBook :=
  { lob with
    orders := lob.orders.set t { ot with NextOrder := some lob.orders.length } ++
      [{ o with ParentLimit := some l }]
    limits := lob.limits.set l
      { L with
        TailOrder := some lob.orders.length
        Size := L.Size + 1
        TotalVolume := wrapInt (L.TotalVolume + o.Quantity) }
    OrdersByID := mapSet lob.OrdersByID o.ID lob.orders.length }

/-- The arena `b` is the arena `a` with one new order `o2` at the next address, and
the order at `t` (if any) relinked to it. -/
structure Grows (a b : List Order) (o2 : Order) (t : Option Nat) : Prop where
  new : b[a.length]? = some o2
  len : b.length = a.length + 1
  keep : ∀ (p : Nat) (o : Order), a[p]? = some o → some p ≠ t → b[p]? = some o
  relink : ∀ (p : Nat) (o : Order), a[p]? = some o → some p = t →
    b[p]? = some { o with NextOrder := some a.length }

/-- Perform the calls in order and keep what each call returned. -/
def runTrace (lob : LimitOrderBook) :
    List Cmd → Except Fault (LimitOrderBook × List (List String × Option String))
  | [] => .ok (lob, [])
  | c :: cs =>
    match step lob c with
    | .error e => .error e
    | .ok r =>
      match runTrace r.1 cs with
      | .error e => .error e
      | .ok t => .ok (t.1, (r.2.1, r.2.2) :: t.2)

/-- The resting orders: the orders the ID table refers to. -/
def restingOrders (lob : LimitOrderBook) : List Order :=
  lob.OrdersByID.filterMap (fun e => lob.orders[e.2]?)

/-- Whether an incoming order would cross the resting book, in the words of the
specification: a sell crosses when some resting buy has a price at or above its
price, a buy when some resting sell has a price at or below its price. -/
def wouldCross (lob : LimitOrderBook) (isSell : Bool) (price : Int) : Bool :=
  (restingOrders lob).any (fun r =>
    if isSell then !r.IsSell && decide (price ≤ r.Price)
    else r.IsSell && decide (r.Price ≤ price))

/-- The true top of book of a side, in the words of the specification: the best
price among the resting orders of the side (lowest ask, highest bid) and the sum of
the quantities resting at that price; `none` when no order rests on the side. -/
def trueTopOfBook (lob : LimitOrderBook) (isSell : Bool) : Option (Int × Int) :=
  let side := (restingOrders lob).filter (fun r => r.IsSell == isSell)
  match side with
  | [] => none
  | r :: rs =>
    let best := rs.foldl (fun b x =>
      if isSell then (if x.Price < b then x.Price else b)
      else (if x.Price > b then x.Price else b)) r.Price
    some (best, ((side.filter (fun x => x.Price == best)).map (·.Quantity)).sum)

/-- The top-of-book line for a side, from a price and volume or from nothing. -/
def tobLine (isSell : Bool) (tob : Option (Int × Int)) : String :=
  "B, " ++ (if isSell then "S" else "B") ++ ", " ++
    (match tob with
     | none => "-, -"
     | some (p, v) => toString p ++ ", " ++ toString v)

/-- The book after `buy 1@100 (id 1)`, `buy 2@100 (id 2)`, `cancel 1`, `cancel 2`:
nothing rests, and the cached best bid still points at the cancelled order 1. -/
def staleBook : LimitOrderBook :=
  { BuyTree := [], SellTree := [], LowestSell := none, HighestBuy := some 0,
    OrdersByID := [], Lock := false,
    orders := [⟨1, 7, 100, 1, false, some 1, none, some 0⟩,
               ⟨2, 7, 100, 2, false, none, none, some 0⟩],
    limits := [⟨100, 1, 2, some 1, some 1⟩] }

/-- The book after `buy 10@100 (id 1)`. -/
def oneBidBook : LimitOrderBook :=
  { BuyTree := [(⟨100⟩, 0)], SellTree := [], LowestSell := none, HighestBuy := some 0,
    OrdersByID := [(1, 0)], Lock := false,
    orders := [⟨1, 7, 100, 10, false, none, none, some 0⟩],
    limits := [⟨100, 1, 10, some 0, some 0⟩] }

/-- The book after `buy 10@100 (id 1)`, `sell 5@105 (id 3)`. -/
def twoSidedBook : LimitOrderBook :=
  { BuyTree := [(⟨100⟩, 0)], SellTree := [(⟨105⟩, 1)], LowestSell := some 1,
    HighestBuy := some 0, OrdersByID := [(3, 1), (1, 0)], Lock := false,
    orders := [⟨1, 7, 100, 10, false, none, none, some 0⟩,
               ⟨3, 7, 105, 5, true, none, none, some 1⟩],
    limits := [⟨100, 1, 10, some 0, some 0⟩, ⟨105, 1, 5, some 1, some 1⟩] }

/-- The book after `buy 3@100 (id 4)`, `buy 2@100 (id 5)`. -/
def twoAtLevelBook : LimitOrderBook :=
  { BuyTree := [(⟨100⟩, 0)], SellTree := [], LowestSell := none, HighestBuy := some 0,
    OrdersByID := [(5, 1), (4, 0)], Lock := false,
    orders := [⟨4, 7, 100, 3, false, some 1, none, some 0⟩,
               ⟨5, 7, 100, 2, false, none, none, some 0⟩],
    limits := [⟨100, 2, 5, some 0, some 1⟩] }

/-- The book after `buy 3@100 (id 4)`, `buy 2@100 (id 5)`, `cancel 4`: order 5 rests
alone, and the cached best bid still points at the cancelled order 4 (address 0). -/
def headCancelledBook : LimitOrderBook :=
  { BuyTree := [(⟨100⟩, 0)], SellTree := [], LowestSell := none, HighestBuy := some 0,
    OrdersByID := [(5, 1)], Lock := false,
    orders := [⟨4, 7, 100, 3, false, some 1, none, some 0⟩,
               ⟨5, 7, 100, 2, false, none, none, some 0⟩],
    limits := [⟨100, 1, 2, some 1, some 1⟩] }

/-- The book after `buy 3@100 (id 4)`, `buy 2@100 (id 5)`, `cancel 5`: order 4 rests
alone, and its level has lost its tail pointer. -/
def tailLostBook : LimitOrderBook :=
  { BuyTree := [(⟨100⟩, 0)], SellTree := [], LowestSell := none, HighestBuy := some 0,
    OrdersByID := [(4, 0)], Lock := false,
    orders := [⟨4, 7, 100, 3, false, some 1, none, some 0⟩,
               ⟨5, 7, 100, 2, false, none, none, some 0⟩],
    limits := [⟨100, 1, 3, some 0, none⟩] }

/-- The call sequence of the scenario, for the owner ID `u`. -/
def scenario (u : Int) : List Cmd :=
  [.submit u 100 10 false 1, .submit u 100 5 true 2, .submit u 105 5 true 3, .cancel 1,
   .submit u 100 3 false 4, .submit u 100 2 false 5, .cancel 4]

/-- The book at the end of the scenario: order 3 rests on the ask side, order 5 on
the bid side. -/
def scenarioBook (u : Int) : LimitOrderBook :=
  { BuyTree := [(⟨100⟩, 2)], SellTree := [(⟨105⟩, 1)], LowestSell := some 1,
    HighestBuy := some 2, OrdersByID := [(5, 3), (3, 1)], Lock := false,
    orders := [⟨1, u, 100, 10, false, none, none, some 0⟩,
               ⟨3, u, 105, 5, true, none, none, some 1⟩,
               ⟨4, u, 100, 3, false, some 3, none, some 2⟩,
               ⟨5, u, 100, 2, false, none, none, some 2⟩],
    limits := [⟨100, 1, 10, some 0, some 0⟩, ⟨105, 1, 5, some 1, some 1⟩,
               ⟨100, 1, 2, some 3, some 3⟩] }

/-- What `getTobOutput` reads for a side: the price and the volume of the parent limit
of the cached best order, when the cached pointer and the parent pointer are not nil. -/
def cachedTop (lob : LimitOrderBook) (s : Bool) : Option (Int × Int) :=
  (bestOf lob s).bind (fun p => (lob.orders[p]?).bind (fun o =>
    o.ParentLimit.bind (fun l => (lob.limits[l]?).map (fun L => (L.Price, L.TotalVolume)))))

/-- The book `b` has the cached pointers of `a`, and at every address where `a` has an
order, `b` has an order with the same ID, owner, price, quantity and side. -/
structure SameOrders (a b : LimitOrderBook) : Prop where
  sell : b.LowestSell = a.LowestSell
  buy : b.HighestBuy = a.HighestBuy
  keep : ∀ (p : Nat) (x : Order), a.orders[p]? = some x →
    ∃ y : Order, b.orders[p]? = some y ∧ y.ID = x.ID ∧ y.UID = x.UID ∧ y.Price = x.Price ∧
      y.Quantity = x.Quantity ∧ y.IsSell = x.IsSell

/-- The book after `buy 10@100 (id 1)`, `sell 5@105 (id 3)`, `sell 6@107 (id 4)`. -/
def twoAsksBook : LimitOrderBook :=
  { BuyTree := [(⟨100⟩, 0)], SellTree := [(⟨105⟩, 1), (⟨107⟩, 2)], LowestSell := some 1,
    HighestBuy := some 0, OrdersByID := [(4, 2), (3, 1), (1, 0)], Lock := false,
    orders := [⟨1, 7, 100, 10, false, none, none, some 0⟩,
               ⟨3, 7, 105, 5, true, none, none, some 1⟩,
               ⟨4, 7, 107, 6, true, none, none, some 2⟩],
    limits := [⟨100, 1, 10, some 0, some 0⟩, ⟨105, 1, 5, some 1, some 1⟩,
               ⟨107, 1, 6, some 2, some 2⟩] }

/-- Whether an integer is a value of Go's 64-bit `int`. -/
def isGoInt (x : Int) : Bool := decide (-2 ^ 63 ≤ x) && decide (x < 2 ^ 63)

/-- Whether every quantity submitted in a run is a value of Go's `int`, as every
argument of `NewOrder` is. -/
def quantitiesAreInts : List Cmd → Bool
  | [] => true
  | .submit _ _ qty _ _ :: cs => isGoInt qty && quantitiesAreInts cs
  | .cancel _ :: cs => quantitiesAreInts cs

/-- The quantity of the order at an address (0 when there is none). -/
def quantityAt (orders : List Order) (p : Nat) : Int :=
  ((orders[p]?).map (·.Quantity)).getD 0

/-- The sum of the quantities of the entries of the ID table that are orders of
level `l`. -/
def volumeAt (lob : LimitOrderBook) (l : Nat) : Int :=
  ((lob.OrdersByID.filter (fun e => decide (levelOf lob.orders e.2 = some l))).map
    (fun e => quantityAt lob.orders e.2)).sum

/-- The part of the invariant about volumes: the volume of every indexed level is the
sum of the quantities of its resting orders, in 64-bit arithmetic. -/
def VolInv (lob : LimitOrderBook) : Prop :=
  ∀ (s : Bool) (k : treeKey) (l : Nat) (L : Limit), (k, l) ∈ sideTree lob s →
    lob.limits[l]? = some L → L.TotalVolume = wrapInt (volumeAt lob l)

/-- The orders of the ID table that have a given side and price, in the words of the
specification. -/
def ordersAt (lob : LimitOrderBook) (s : Bool) (price : Int) : List Order :=
  (restingOrders lob).filter (fun o => o.IsSell == s && o.Price == price)

/-- The book after `buy 4611686018427387904@100 (id 1)` and
`buy 4611686018427387904@100 (id 2)`: the two quantities add up to `2 ^ 63`. -/
def overflowBook : LimitOrderBook :=
  { BuyTree := [(⟨100⟩, 0)], SellTree := [], LowestSell := none, HighestBuy := some 0,
    OrdersByID := [(2, 1), (1, 0)], Lock := false,
    orders := [⟨1, 7, 100, 4611686018427387904, false, some 1, none, some 0⟩,
               ⟨2, 7, 100, 4611686018427387904, false, none, none, some 0⟩],
    limits := [⟨100, 2, -9223372036854775808, some 0, some 1⟩] }

/-- The book after `buy 10@100 (id 1)` and `cancel 9`, an ID that was never submitted:
the book with one bid, and the lock that the failed cancel left held. -/
def lockedBook : LimitOrderBook :=
  { BuyTree := [(⟨100⟩, 0)], SellTree := [], LowestSell := none, HighestBuy := some 0,
    OrdersByID := [(1, 0)], Lock := true,
    orders := [⟨1, 7, 100, 10, false, none, none, some 0⟩],
    limits := [⟨100, 1, 10, some 0, some 0⟩] }

/-! ## The price index -/

theorem compare_eq_zero (a b : treeKey) : a.Compare b = 0 ↔ a = b := by
  cases a; cases b
  simp only [treeKey.Compare, treeKey.mk.injEq]
  split_ifs <;> simp_all

theorem compare_eq_neg (a b : treeKey) : a.Compare b = -1 ↔ a.val < b.val := by
  simp only [treeKey.Compare]
  split_ifs <;> simp_all <;> omega

theorem search_none (t : Tree) (key : treeKey) :
    Tree.Search t key = none ↔ ∀ l, (key, l) ∉ t := by
  induction t with
  | nil => simp [Tree.Search]
  | cons e t ih =>
    obtain ⟨k, w⟩ := e
    simp only [Tree.Search, compare_eq_zero]
    by_cases h : key = k
    · subst h
      simp only [if_true]
      constructor
      · intro h
        cases h
      · intro h
        exact absurd (List.mem_cons_self _ _) (h w)
    · simp [h, ih]

theorem search_some (t : Tree) (key : treeKey) (i : Nat) (h : Tree.Search t key = some i) :
    ∃ l, t[i]? = some (key, l) := by
  induction t generalizing i with
  | nil => simp [Tree.Search] at h
  | cons e t ih =>
    obtain ⟨k, w⟩ := e
    simp only [Tree.Search, compare_eq_zero] at h
    by_cases hk : key = k
    · subst hk
      simp at h
      subst h
      exact ⟨w, by simp⟩
    · simp [hk] at h
      obtain ⟨j, hj, rfl⟩ := h
      obtain ⟨l, hl⟩ := ih j hj
      exact ⟨l, by simpa using hl⟩

theorem search_isSome_of_mem (t : Tree) (key : treeKey) (l : Nat) (h : (key, l) ∈ t) :
    ∃ i, Tree.Search t key = some i := by
  cases hs : Tree.Search t key with
  | some i => exact ⟨i, rfl⟩
  | none => exact absurd h ((search_none t key).1 hs l)

theorem mem_insert (t : Tree) (key : treeKey) (v : Nat) (hnone : ∀ l, (key, l) ∉ t)
    (e : treeKey × Nat) : e ∈ Tree.Insert t key v ↔ e = (key, v) ∨ e ∈ t := by
  induction t with
  | nil => simp [Tree.Insert]
  | cons a t ih =>
    obtain ⟨k, w⟩ := a
    have hk : key ≠ k := by
      intro hk
      subst hk
      exact hnone w (by simp)
    have ht : ∀ l, (key, l) ∉ t := fun l hl => hnone l (by simp [hl])
    simp only [Tree.Insert, compare_eq_zero, hk, if_false]
    split_ifs with h2
    · simp
    · simp only [List.mem_cons, ih ht]
      tauto

theorem sorted_insert (t : Tree) (key : treeKey) (v : Nat) (hnone : ∀ l, (key, l) ∉ t)
    (hs : t.Pairwise (fun a b => a.1.val < b.1.val)) :
    (Tree.Insert t key v).Pairwise (fun a b => a.1.val < b.1.val) := by
  induction t with
  | nil => simp [Tree.Insert]
  | cons a t ih =>
    obtain ⟨k, w⟩ := a
    have hk : key ≠ k := by
      intro hk
      subst hk
      exact hnone w (by simp)
    have ht : ∀ l, (key, l) ∉ t := fun l hl => hnone l (by simp [hl])
    rw [List.pairwise_cons] at hs
    simp only [Tree.Insert, compare_eq_zero, hk, if_false, compare_eq_neg]
    split_ifs with h2
    · rw [List.pairwise_cons]
      refine ⟨?_, List.pairwise_cons.2 hs⟩
      intro b hb
      rcases List.mem_cons.1 hb with rfl | hb
      · exact h2
      · exact lt_trans h2 (hs.1 b hb)
    · rw [List.pairwise_cons]
      refine ⟨?_, ih ht hs.2⟩
      intro b hb
      rcases (mem_insert t key v ht b).1 hb with rfl | hb
      · have : key.val ≠ k.val := fun h => hk (by cases key; cases k; simp_all)
        simp only
        omega
      · exact hs.1 b hb

theorem delete_sublist (t : Tree) (key : treeKey) : (Tree.Delete t key).Sublist t := by
  induction t with
  | nil => simp [Tree.Delete]
  | cons a t ih =>
    obtain ⟨k, w⟩ := a
    simp only [Tree.Delete]
    split_ifs
    · exact List.sublist_cons_self _ _
    · exact ih.cons₂ _

theorem mem_delete (t : Tree) (key : treeKey)
    (hs : t.Pairwise (fun a b => a.1.val < b.1.val)) (e : treeKey × Nat) :
    e ∈ Tree.Delete t key ↔ e ∈ t ∧ e.1 ≠ key := by
  induction t with
  | nil => simp [Tree.Delete]
  | cons a t ih =>
    obtain ⟨k, w⟩ := a
    rw [List.pairwise_cons] at hs
    simp only [Tree.Delete, compare_eq_zero]
    by_cases hk : key = k
    · subst hk
      simp only [if_true, List.mem_cons]
      constructor
      · intro he
        refine ⟨Or.inr he, ?_⟩
        intro h
        have := hs.1 e he
        rw [h] at this
        exact lt_irrefl _ this
      · rintro ⟨rfl | he, hne⟩
        · exact absurd rfl hne
        · exact he
    · simp only [hk, if_false, List.mem_cons, ih hs.2]
      constructor
      · rintro (rfl | ⟨he, hne⟩)
        · exact ⟨Or.inl rfl, fun h => hk h.symm⟩
        · exact ⟨Or.inr he, hne⟩
      · rintro ⟨rfl | he, hne⟩
        · exact Or.inl rfl
        · exact Or.inr ⟨he, hne⟩

theorem sorted_head_of_min (t : Tree) (key : treeKey) (l : Nat)
    (hs : t.Pairwise (fun a b => a.1.val < b.1.val)) (hm : (key, l) ∈ t)
    (hmin : ∀ k w, (k, w) ∈ t → key.val ≤ k.val) : ∃ rest, t = (key, l) :: rest := by
  cases t with
  | nil => cases hm
  | cons a t =>
    rw [List.pairwise_cons] at hs
    rcases List.mem_cons.1 hm with h | h
    · exact ⟨t, by rw [h]⟩
    · have h1 := hs.1 _ h
      have h2 := hmin a.1 a.2 (by simp)
      simp only at h1
      omega

theorem sorted_last_of_max (t : Tree) (key : treeKey) (l : Nat)
    (hs : t.Pairwise (fun a b => a.1.val < b.1.val)) (hm : (key, l) ∈ t)
    (hmax : ∀ k w, (k, w) ∈ t → k.val ≤ key.val) : ∃ init, t = init ++ [(key, l)] := by
  induction t with
  | nil => cases hm
  | cons a t ih =>
    rw [List.pairwise_cons] at hs
    cases t with
    | nil =>
      rcases List.mem_cons.1 hm with h | h
      · exact ⟨[], by rw [h]; rfl⟩
      · cases h
    | cons b t2 =>
      rcases List.mem_cons.1 hm with h | h
      · have h1 := hs.1 b (by simp)
        have h2 := hmax b.1 b.2 (by simp)
        subst h
        simp only at h1
        omega
      · obtain ⟨init, hinit⟩ := ih hs.2 h (fun k w hk => hmax k w (List.mem_cons_of_mem _ hk))
        exact ⟨a :: init, by rw [hinit]; rfl⟩

theorem search_append_last (init : Tree) (key : treeKey) (l : Nat)
    (hs : (init ++ [(key, l)]).Pairwise (fun a b => a.1.val < b.1.val)) :
    Tree.Search (init ++ [(key, l)]) key = some init.length := by
  induction init with
  | nil => simp [Tree.Search, compare_eq_zero]
  | cons a t ih =>
    obtain ⟨k, w⟩ := a
    rw [List.cons_append, List.pairwise_cons] at hs
    have hk : key ≠ k := by
      intro h
      have := hs.1 (key, l) (by simp)
      rw [h] at this
      exact lt_irrefl _ this
    simp [Tree.Search, compare_eq_zero, hk, ih hs.2]

theorem delete_append_last (init : Tree) (key : treeKey) (l : Nat)
    (hs : (init ++ [(key, l)]).Pairwise (fun a b => a.1.val < b.1.val)) :
    Tree.Delete (init ++ [(key, l)]) key = init := by
  induction init with
  | nil => simp [Tree.Delete, compare_eq_zero]
  | cons a t ih =>
    obtain ⟨k, w⟩ := a
    rw [List.cons_append, List.pairwise_cons] at hs
    have hk : key ≠ k := by
      intro h
      have := hs.1 (key, l) (by simp)
      rw [h] at this
      exact lt_irrefl _ this
    simp [Tree.Delete, compare_eq_zero, hk, ih hs.2]

theorem sorted_key_unique (t : Tree) (hs : t.Pairwise (fun a b => a.1.val < b.1.val))
    (k : treeKey) (l1 l2 : Nat) (h1 : (k, l1) ∈ t) (h2 : (k, l2) ∈ t) : l1 = l2 := by
  induction t with
  | nil => cases h1
  | cons a t ih =>
    rw [List.pairwise_cons] at hs
    rcases List.mem_cons.1 h1 with e1 | e1 <;> rcases List.mem_cons.1 h2 with e2 | e2
    · rw [← e1] at e2
      exact (Prod.mk.inj e2).2.symm ▸ rfl
    · have := hs.1 _ e2
      rw [← e1] at this
      exact absurd this (lt_irrefl _)
    · have := hs.1 _ e1
      rw [← e2] at this
      exact absurd this (lt_irrefl _)
    · exact ih hs.2 e1 e2

/-! ## The ID table -/

theorem mapGet_some (m : List (Int × Nat)) (id : Int) (p : Nat) (h : mapGet m id = some p) :
    (id, p) ∈ m := by
  unfold mapGet at h
  cases hf : m.find? (fun e => decide (e.1 = id)) with
  | none => simp [hf] at h
  | some e =>
    rw [hf] at h
    simp at h
    have h1 := List.find?_some hf
    have h2 := List.mem_of_find?_eq_some hf
    simp only [decide_eq_true_eq] at h1
    obtain ⟨a, b⟩ := e
    simp only at h h1
    subst h h1
    exact h2

theorem mapGet_none (m : List (Int × Nat)) (id : Int) :
    mapGet m id = none ↔ ∀ p, (id, p) ∉ m := by
  unfold mapGet
  cases hf : m.find? (fun e => decide (e.1 = id)) with
  | none =>
    rw [List.find?_eq_none] at hf
    simp only [Option.map_none', true_iff]
    intro p hp
    exact hf (id, p) hp (by simp)
  | some e =>
    have h1 := List.find?_some hf
    have h2 := List.mem_of_find?_eq_some hf
    simp only [decide_eq_true_eq] at h1
    obtain ⟨a, b⟩ := e
    simp only at h1
    subst h1
    constructor
    · intro h
      cases h
    · intro h
      exact absurd h2 (h b)

theorem mem_mapDelete (m : List (Int × Nat)) (id : Int) (e : Int × Nat) :
    e ∈ mapDelete m id ↔ e ∈ m ∧ e.1 ≠ id := by
  simp [mapDelete, List.mem_filter]

theorem mapDelete_of_absent (m : List (Int × Nat)) (id : Int) (h : ∀ p, (id, p) ∉ m) :
    mapDelete m id = m := by
  unfold mapDelete
  rw [List.filter_eq_self]
  intro e he
  simp only [ne_eq, decide_not, Bool.not_eq_eq_eq_not, Bool.not_true, decide_eq_false_iff_not]
  intro hid
  obtain ⟨a, b⟩ := e
  simp only at hid
  subst hid
  exact h b he

theorem keys_unique (m : List (Int × Nat)) (hn : (m.map Prod.fst).Nodup) (id : Int) (p q : Nat)
    (hp : (id, p) ∈ m) (hq : (id, q) ∈ m) : p = q := by
  induction m with
  | nil => cases hp
  | cons a t ih =>
    rw [List.map_cons, List.nodup_cons] at hn
    rcases List.mem_cons.1 hp with e1 | e1 <;> rcases List.mem_cons.1 hq with e2 | e2
    · rw [← e1] at e2
      exact (Prod.mk.inj e2).2.symm ▸ rfl
    · exact absurd (List.mem_map.2 ⟨(id, q), e2, by rw [← e1]⟩) hn.1
    · exact absurd (List.mem_map.2 ⟨(id, p), e1, by rw [← e2]⟩) hn.1
    · exact ih hn.2 e1 e2

theorem keysNodup_mapDelete (m : List (Int × Nat)) (id : Int) (hn : (m.map Prod.fst).Nodup) :
    ((mapDelete m id).map Prod.fst).Nodup :=
  List.Nodup.sublist (List.Sublist.map _ (List.filter_sublist _)) hn

theorem countP_mapDelete (m : List (Int × Nat)) (hn : (m.map Prod.fst).Nodup) (id : Int)
    (p : Nat) (hp : (id, p) ∈ m) (q : Int × Nat → Bool) :
    m.countP q = (mapDelete m id).countP q + (if q (id, p) then 1 else 0) := by
  induction m with
  | nil => cases hp
  | cons a t ih =>
    rw [List.map_cons, List.nodup_cons] at hn
    rcases List.mem_cons.1 hp with e1 | e1
    · have habs : ∀ r, (id, r) ∉ t := by
        intro r hr
        exact hn.1 (List.mem_map.2 ⟨(id, r), hr, by rw [← e1]⟩)
      have hd : mapDelete (a :: t) id = t := by
        have : mapDelete (a :: t) id = mapDelete t id := by
          simp [mapDelete, ← e1]
        rw [this, mapDelete_of_absent t id habs]
      rw [hd, List.countP_cons, ← e1]
    · have hne : a.1 ≠ id := by
        intro h
        exact hn.1 (List.mem_map.2 ⟨(id, p), e1, h.symm⟩)
      have hd : mapDelete (a :: t) id = a :: mapDelete t id := by
        simp [mapDelete, hne]
      rw [hd, List.countP_cons, List.countP_cons, ih hn.2 e1]
      omega

theorem mapGet_mapDelete_self (m : List (Int × Nat)) (id : Int) :
    mapGet (mapDelete m id) id = none := by
  rw [mapGet_none]
  intro p hp
  exact ((mem_mapDelete m id _).1 hp).2 rfl

/-! ## Arenas and chains -/

theorem set_same {α : Type} (xs : List α) (i : Nat) (a : α) (h : xs[i]? = some a) :
    xs.set i a = xs := by
  apply List.ext_getElem?
  intro j
  rw [List.getElem?_set]
  split_ifs with h1 h2
  · subst h1
    exact h.symm
  · subst h1
    rw [List.getElem?_eq_none (by omega)]
  · rfl

theorem InChain.left_valid {orders : List Order} {h p : Nat} (c : InChain orders h p) :
    ∃ o, orders[h]? = some o := by
  cases c with
  | here ho => exact ⟨_, ho⟩
  | next ho _ _ => exact ⟨_, ho⟩

theorem InChain.right_valid {orders : List Order} {h p : Nat} (c : InChain orders h p) :
    ∃ o, orders[p]? = some o := by
  induction c with
  | here ho => exact ⟨_, ho⟩
  | next _ _ _ ih => exact ih

theorem InChain.mono {orders orders2 : List Order}
    (hv : ∀ (p : Nat) (o : Order), orders[p]? = some o →
      ∃ o2 : Order, orders2[p]? = some o2 ∧ ∀ n, o.NextOrder = some n → o2.NextOrder = some n)
    {h p : Nat} (c : InChain orders h p) : InChain orders2 h p := by
  induction c with
  | here ho =>
    obtain ⟨o2, h2, _⟩ := hv _ _ ho
    exact InChain.here h2
  | next ho hn _ ih =>
    obtain ⟨o2, h2, h3⟩ := hv _ _ ho
    exact InChain.next h2 (h3 _ hn) ih

theorem InChain.snoc {orders : List Order} {h t n : Nat} {ot o2 : Order}
    (c : InChain orders h t) (ht : orders[t]? = some ot) (hn : ot.NextOrder = some n)
    (hon : orders[n]? = some o2) : InChain orders h n := by
  induction c with
  | here ho => exact InChain.next ho (by rw [ho] at ht; cases ht; exact hn) (InChain.here hon)
  | next ho hx _ ih => exact InChain.next ho hx (ih ht)

theorem InChain.step_of_ne {orders : List Order} {h p : Nat} (c : InChain orders h p)
    (hne : p ≠ h) :
    ∃ o n, orders[h]? = some o ∧ o.NextOrder = some n ∧ InChain orders n p := by
  cases c with
  | here ho => exact absurd rfl hne
  | next ho hn c2 => exact ⟨_, _, ho, hn, c2⟩

theorem InChain.same_level {orders : List Order}
    (hnext : ∀ (p : Nat) (o : Order) (n : Nat), orders[p]? = some o → o.NextOrder = some n →
      p < n ∧ ∃ o2 : Order, orders[n]? = some o2 ∧ o2.ParentLimit = o.ParentLimit ∧
        o2.IsSell = o.IsSell)
    {h p : Nat} (c : InChain orders h p) (oh op : Order)
    (hh : orders[h]? = some oh) (hp : orders[p]? = some op) :
    h ≤ p ∧ op.ParentLimit = oh.ParentLimit ∧ op.IsSell = oh.IsSell := by
  induction c generalizing oh with
  | here ho =>
    rw [hh] at hp
    cases hp
    exact ⟨le_refl _, rfl, rfl⟩
  | next ho hn _ ih =>
    rw [hh] at ho
    cases ho
    obtain ⟨hlt, o2, h2, h3, h4⟩ := hnext _ _ _ hh hn
    obtain ⟨i1, i2, i3⟩ := ih o2 h2 hp
    exact ⟨by omega, by rw [i2, h3], by rw [i3, h4]⟩

/-! ## What each function returns -/

theorem derefOrder_ok (orders : List Order) (p : Nat) (o : Order) (h : orders[p]? = some o) :
    derefOrder orders (some p) = .ok o := by
  simp [derefOrder, h]

theorem derefLimit_ok (limits : List Limit) (p : Nat) (l : Limit) (h : limits[p]? = some l) :
    derefLimit limits (some p) = .ok l := by
  simp [derefLimit, h]

theorem updLimit_ok (lob : LimitOrderBook) (p : Nat) (l : Limit) (f : Limit → Limit)
    (h : lob.limits[p]? = some l) :
    updLimit lob (some p) f = .ok { lob with limits := lob.limits.set p (f l) } := by
  simp [updLimit, h]

theorem updOrder_ok (lob : LimitOrderBook) (p : Nat) (o : Order) (f : Order → Order)
    (h : lob.orders[p]? = some o) :
    updOrder lob (some p) f = .ok { lob with orders := lob.orders.set p (f o) } := by
  simp [updOrder, h]

theorem getTobOutput_ok (lob : LimitOrderBook) (isSell : Bool) (hr : CacheReadable lob) :
    ∃ s, getTobOutput lob isSell = .ok s := by
  unfold getTobOutput
  cases isSell
  · cases hB : lob.HighestBuy with
    | none => simp [hB, bind, Except.bind, pure, Except.pure]
    | some p =>
      obtain ⟨o, l, L, h1, h2, h3⟩ := hr false p (by simp [bestOf, hB])
      simp [hB, bind, Except.bind, pure, Except.pure, derefOrder, derefLimit, h1, h2, h3]
  · cases hS : lob.LowestSell with
    | none => simp [hS, bind, Except.bind, pure, Except.pure]
    | some p =>
      obtain ⟨o, l, L, h1, h2, h3⟩ := hr true p (by simp [bestOf, hS])
      simp [hS, bind, Except.bind, pure, Except.pure, derefOrder, derefLimit, h1, h2, h3]

theorem CheckBookCrossed_ok (lob : LimitOrderBook) (o : Order)
    (hv : ∀ s p, bestOf lob s = some p → ∃ ob : Order, lob.orders[p]? = some ob) :
    CheckBookCrossed lob o = .ok (crosses lob o.IsSell o.Price) := by
  unfold CheckBookCrossed crosses
  cases hS : o.IsSell with
  | false =>
    cases hB : lob.LowestSell with
    | none => simp [bestOf, hB, priceAt, bind, Except.bind, pure, Except.pure]
    | some p =>
      obtain ⟨ob, h1⟩ := hv true p (by simp [bestOf, hB])
      by_cases hc : ob.Price ≤ o.Price <;>
        simp [bestOf, hB, priceAt, bind, Except.bind, pure, Except.pure, derefOrder, h1, hc]
  | true =>
    cases hB : lob.HighestBuy with
    | none => simp [bestOf, hB, priceAt, bind, Except.bind, pure, Except.pure]
    | some p =>
      obtain ⟨ob, h1⟩ := hv false p (by simp [bestOf, hB])
      by_cases hc : o.Price ≤ ob.Price <;>
        simp [bestOf, hB, priceAt, bind, Except.bind, pure, Except.pure, derefOrder, h1, hc]

theorem newOrderIndexes_ok (lob : LimitOrderBook) (output : List String) (po l : Nat)
    (o : Order) (L : Limit)
    (ho : lob.orders[po]? = some o) (hl : o.ParentLimit = some l)
    (hL : lob.limits[l]? = some L) (hr : CacheReadable lob) :
    ∃ out, newOrderIndexes lob output po
      = .ok (improveBest lob po o.IsSell o.Price, output ++ out) := by
  have hr2 : ∀ s, CacheReadable (setBest lob s (some po)) := by
    intro s s2 p hp
    cases s <;> cases s2 <;> simp only [setBest, bestOf, if_true, if_false, Bool.false_eq_true] at hp
    · cases hp
      exact ⟨o, l, L, ho, hl, hL⟩
    · exact hr true p (by simpa [bestOf] using hp)
    · exact hr false p (by simpa [bestOf] using hp)
    · cases hp
      exact ⟨o, l, L, ho, hl, hL⟩
  unfold newOrderIndexes improveBest improves
  cases hS : o.IsSell with
  | false =>
    obtain ⟨s1, hs1⟩ := getTobOutput_ok (setBest lob false (some po)) false (hr2 false)
    obtain ⟨s2, hs2⟩ := getTobOutput_ok lob false hr
    simp only [setBest, if_false, Bool.false_eq_true] at hs1
    cases hB : lob.HighestBuy with
    | none =>
      exact ⟨[s1], by simp [ho, hS, hB, bestOf, priceAt, bind, Except.bind, pure, Except.pure,
        derefOrder, setBest, hs1]⟩
    | some b =>
      obtain ⟨ob, l2, L2, h1, _, _⟩ := hr false b (by simp [bestOf, hB])
      by_cases hc : ob.Price < o.Price
      · exact ⟨[s1], by simp [ho, hS, hB, bestOf, priceAt, bind, Except.bind, pure, Except.pure,
          derefOrder, setBest, hs1, h1, hc]⟩
      · by_cases he : o.Price = ob.Price
        · exact ⟨[s2], by simp [ho, hS, hB, bestOf, priceAt, bind, Except.bind, pure,
            Except.pure, derefOrder, setBest, hs2, h1, hc, he]⟩
        · exact ⟨[], by simp [ho, hS, hB, bestOf, priceAt, bind, Except.bind, pure,
            Except.pure, derefOrder, setBest, h1, hc, he]⟩
  | true =>
    obtain ⟨s1, hs1⟩ := getTobOutput_ok (setBest lob true (some po)) true (hr2 true)
    obtain ⟨s2, hs2⟩ := getTobOutput_ok lob true hr
    simp only [setBest, if_true] at hs1
    cases hB : lob.LowestSell with
    | none =>
      exact ⟨[s1], by simp [ho, hS, hB, bestOf, priceAt, bind, Except.bind, pure, Except.pure,
        derefOrder, setBest, hs1]⟩
    | some b =>
      obtain ⟨ob, l2, L2, h1, _, _⟩ := hr true b (by simp [bestOf, hB])
      by_cases hc : o.Price < ob.Price
      · exact ⟨[s1], by simp [ho, hS, hB, bestOf, priceAt, bind, Except.bind, pure, Except.pure,
          derefOrder, setBest, hs1, h1, hc]⟩
      · by_cases he : o.Price = ob.Price
        · exact ⟨[s2], by simp [ho, hS, hB, bestOf, priceAt, bind, Except.bind, pure,
            Except.pure, derefOrder, setBest, hs2, h1, hc, he]⟩
        · exact ⟨[], by simp [ho, hS, hB, bestOf, priceAt, bind, Except.bind, pure,
            Except.pure, derefOrder, setBest, h1, hc, he]⟩

theorem getOrderTree_eq (lob : LimitOrderBook) (o : Order) :
    getOrderTree lob o = sideTree lob o.IsSell := rfl

theorem improveBest_lock (lob : LimitOrderBook) (b : Bool) (po : Nat) (s : Bool) (price : Int) :
    improveBest { lob with Lock := b } po s price
      = { improveBest lob po s price with Lock := b } := by
  unfold improveBest improves
  cases s <;> simp only [bestOf, priceAt, setBest] <;> split <;> split_ifs <;> rfl

theorem placeNew_lock (lob : LimitOrderBook) (b : Bool) (o : Order) :
    placeNew { lob with Lock := b } o = { placeNew lob o with Lock := b } := by
  unfold placeNew setOrderTree getOrderTree
  split_ifs <;> rfl

theorem placeNew_Lock (lob : LimitOrderBook) (o : Order) :
    (placeNew lob o).Lock = lob.Lock := by
  unfold placeNew setOrderTree
  split_ifs <;> rfl

theorem improveBest_Lock (lob : LimitOrderBook) (po : Nat) (s : Bool) (price : Int) :
    (improveBest lob po s price).Lock = lob.Lock := by
  unfold improveBest setBest
  split_ifs <;> rfl

theorem unlock_relock (lob : LimitOrderBook) (h : lob.Lock = false) :
    lockUnlock { lob with Lock := true } = lob := by
  cases lob
  simp_all [lockUnlock]

theorem NewOrder_new (lob : LimitOrderBook) (uid price qty : Int) (isSell : Bool) (id : Int)
    (hlock : lob.Lock = false) (hr : CacheReadable lob)
    (hc : crosses lob isSell price = false)
    (hsearch : Tree.Search (sideTree lob isSell) ⟨price⟩ = none) :
    ∃ out, NewOrder lob uid price qty isSell id = .ok
      (improveBest (placeNew lob ⟨id, uid, price, qty, isSell, none, none, none⟩)
        lob.orders.length isSell price,
       getOrderOutput true ⟨id, uid, price, qty, isSell, none, none, none⟩ :: out, none) := by
  have hcheck := CheckBookCrossed_ok { lob with Lock := true }
    ⟨id, uid, price, qty, isSell, none, none, none⟩
    (by
      intro s p hp
      obtain ⟨ob, _, _, h, _⟩ := hr s p (by simpa [bestOf] using hp)
      exact ⟨ob, h⟩)
  have hc2 : crosses { lob with Lock := true } isSell price = false := by
    rw [← hc]; rfl
  simp only [hc2] at hcheck
  have hstep : ∀ r, newOrderIndexes
        (placeNew { lob with Lock := true } ⟨id, uid, price, qty, isSell, none, none, none⟩)
        [getOrderOutput true ⟨id, uid, price, qty, isSell, none, none, none⟩]
        lob.orders.length = .ok r →
      NewOrder lob uid price qty isSell id = .ok (lockUnlock r.1, r.2, none) := by
    intro r hr
    unfold NewOrder
    cases isSell <;>
    · simp only [sideTree, if_true, if_false, Bool.false_eq_true] at hsearch
      simp only [placeNew, setOrderTree, getOrderTree, mapSet, if_true, if_false,
        Bool.false_eq_true] at hr
      simp [lockLock, hlock, hcheck, bind, Except.bind, pure, Except.pure, getOrderTree,
        hsearch, setOrderTree, updOrder, mapSet, hr]
  have hr2 : CacheReadable
      (placeNew { lob with Lock := true } ⟨id, uid, price, qty, isSell, none, none, none⟩) := by
    intro s p hp
    have hp2 : bestOf lob s = some p := by
      rw [← hp]
      unfold placeNew setOrderTree bestOf
      cases isSell <;> cases s <;> rfl
    obtain ⟨ob, l, L, h1, h2, h3⟩ := hr s p hp2
    have hp1 : p < lob.orders.length := (List.getElem?_eq_some.1 h1).1
    have hl1 : l < lob.limits.length := (List.getElem?_eq_some.1 h3).1
    refine ⟨ob, l, L, ?_, h2, ?_⟩
    · unfold placeNew setOrderTree
      cases isSell <;> simp [List.getElem?_append, hp1, h1]
    · unfold placeNew setOrderTree
      cases isSell <;> simp [List.getElem?_append, hl1, h3]
  obtain ⟨out, hout⟩ := newOrderIndexes_ok _ [getOrderOutput true
      ⟨id, uid, price, qty, isSell, none, none, none⟩] lob.orders.length lob.limits.length
      ⟨id, uid, price, qty, isSell, none, none, some lob.limits.length⟩
      ⟨price, 1, qty, some lob.orders.length, some lob.orders.length⟩
      (by unfold placeNew setOrderTree; cases isSell <;> simp)
      rfl
      (by unfold placeNew setOrderTree; cases isSell <;> simp)
      hr2
  refine ⟨out, ?_⟩
  rw [hstep _ hout]
  simp only [improveBest_lock, placeNew_lock, List.singleton_append]
  congr 2
  have h2 : (improveBest (placeNew lob ⟨id, uid, price, qty, isSell, none, none, none⟩)
      lob.orders.length isSell price).Lock = false := by
    rw [improveBest_Lock, placeNew_Lock, hlock]
  exact unlock_relock _ h2

theorem cancelOrderIndexes_many (lob : LimitOrderBook) (po l b : Nat) (o ob : Order) (L : Limit)
    (ho : lob.orders[po]? = some o) (hl : o.ParentLimit = some l)
    (hL : lob.limits[l]? = some L) (hsz : L.Size ≠ 1) (hprev : o.PrevOrder = none)
    (hnext : ∀ n, o.NextOrder = some n → ∃ o2, lob.orders[n]? = some o2 ∧ o2.PrevOrder = none)
    (hb : bestOf lob o.IsSell = some b) (hob : lob.orders[b]? = some ob) :
    cancelOrderIndexes lob po = .ok
      ({ lob with
          limits := lob.limits.set l
            { L with
              Size := L.Size - 1
              TotalVolume := wrapInt (L.TotalVolume - o.Quantity)
              HeadOrder := if some po = L.HeadOrder then o.NextOrder else L.HeadOrder
              TailOrder := if some po = L.TailOrder then none else L.TailOrder } },
       decide (o.Price = ob.Price)) := by
  have hlen : l < lob.limits.length := by
    rw [List.getElem?_eq_some] at hL
    exact hL.1
  have hbS : o.IsSell = true → lob.LowestSell = some b := by
    intro h; simpa [bestOf, h] using hb
  have hbB : o.IsSell = false → lob.HighestBuy = some b := by
    intro h; simpa [bestOf, h] using hb
  have hset : ∀ n o2, lob.orders[n]? = some o2 → o2.PrevOrder = none →
      lob.orders.set n { o2 with PrevOrder := none } = lob.orders := by
    intro n o2 h2 h3
    apply set_same
    rw [h2]
    cases o2
    simp_all
  have eH : (some po = L.HeadOrder) = True ∨ (some po = L.HeadOrder) = False := by
    by_cases h : some po = L.HeadOrder
    · exact Or.inl (eq_true h)
    · exact Or.inr (eq_false h)
  have eT : (some po = L.TailOrder) = True ∨ (some po = L.TailOrder) = False := by
    by_cases h : some po = L.TailOrder
    · exact Or.inl (eq_true h)
    · exact Or.inr (eq_false h)
  unfold cancelOrderIndexes
  by_cases hP : o.Price = ob.Price <;>
  cases hS : o.IsSell with
  | false =>
    have hB := hbB hS
    cases hN : o.NextOrder with
    | none =>
      rcases eH with eH | eH <;> rcases eT with eT | eT <;>
      simp [ho, hl, hL, bind, Except.bind, hsz,
        hprev, pure, Except.pure, updLimit, List.getElem?_set, hlen,
        derefLimit, List.set_set, eH, eT, hS, hN, hB, derefOrder, hob, hP]
    | some n =>
      obtain ⟨o2, h2, h3⟩ := hnext _ hN
      have h4 := hset _ o2 h2 h3
      rcases eH with eH | eH <;> rcases eT with eT | eT <;>
      simp [ho, hl, hL, bind, Except.bind, hsz,
        hprev, pure, Except.pure, updLimit, List.getElem?_set, hlen,
        derefLimit, List.set_set, eH, eT, hS, hN, hB, derefOrder, hob, hP, updOrder, h2, h4]
  | true =>
    have hB := hbS hS
    cases hN : o.NextOrder with
    | none =>
      rcases eH with eH | eH <;> rcases eT with eT | eT <;>
      simp [ho, hl, hL, bind, Except.bind, hsz,
        hprev, pure, Except.pure, updLimit, List.getElem?_set, hlen,
        derefLimit, List.set_set, eH, eT, hS, hN, hB, derefOrder, hob, hP]
    | some n =>
      obtain ⟨o2, h2, h3⟩ := hnext _ hN
      have h4 := hset _ o2 h2 h3
      rcases eH with eH | eH <;> rcases eT with eT | eT <;>
      simp [ho, hl, hL, bind, Except.bind, hsz,
        hprev, pure, Except.pure, updLimit, List.getElem?_set, hlen,
        derefLimit, List.set_set, eH, eT, hS, hN, hB, derefOrder, hob, hP, updOrder, h2, h4]

theorem cancelOrderIndexes_one_other (lob : LimitOrderBook) (po l : Nat) (o : Order) (L : Limit)
    (ho : lob.orders[po]? = some o) (hl : o.ParentLimit = some l)
    (hL : lob.limits[l]? = some L) (hsz : L.Size = 1)
    (hnS : lob.LowestSell ≠ some po) (hnB : lob.HighestBuy ≠ some po) :
    cancelOrderIndexes lob po = .ok
      (setOrderTree lob o ((getOrderTree lob o).Delete ⟨L.Price⟩), false) := by
  have h1 : ¬ (some po = lob.LowestSell) := fun h => hnS h.symm
  have h2 : ¬ (some po = lob.HighestBuy) := fun h => hnB h.symm
  unfold cancelOrderIndexes
  simp [ho, hl, hL, bind, Except.bind, hsz, pure, Except.pure, derefLimit, derefOrder, h1, h2]

theorem cancelOrderIndexes_one_sell (lob : LimitOrderBook) (po l : Nat) (o : Order) (L : Limit)
    (rest : Tree)
    (ho : lob.orders[po]? = some o) (hl : o.ParentLimit = some l)
    (hL : lob.limits[l]? = some L) (hsz : L.Size = 1)
    (hS : lob.LowestSell = some po) (hsell : o.IsSell = true)
    (htree : lob.SellTree = (⟨L.Price⟩, l) :: rest)
    (hrest : ∀ e, rest.head? = some e → ∃ L1, lob.limits[e.2]? = some L1) :
    cancelOrderIndexes lob po = .ok
      ({ lob with LowestSell := headOfLevel lob rest.head?, SellTree := rest }, true) := by
  unfold cancelOrderIndexes
  cases rest with
  | nil =>
    simp [ho, hl, hL, bind, Except.bind, hsz, pure, Except.pure, derefLimit, derefOrder, hS,
      getOrderTree, hsell, htree, Tree.Search, compare_eq_zero, Tree.Next, setOrderTree,
      Tree.Delete, headOfLevel]
  | cons e rest2 =>
    obtain ⟨L1, hL1⟩ := hrest e rfl
    simp [ho, hl, hL, bind, Except.bind, hsz, pure, Except.pure, derefLimit, derefOrder, hS,
      getOrderTree, hsell, htree, Tree.Search, compare_eq_zero, Tree.Next, setOrderTree,
      Tree.Delete, headOfLevel, Tree.Value, hL1]

theorem cancelOrderIndexes_one_buy (lob : LimitOrderBook) (po l : Nat) (o : Order) (L : Limit)
    (init : Tree)
    (ho : lob.orders[po]? = some o) (hl : o.ParentLimit = some l)
    (hL : lob.limits[l]? = some L) (hsz : L.Size = 1)
    (hnS : lob.LowestSell ≠ some po)
    (hB : lob.HighestBuy = some po) (hsell : o.IsSell = false)
    (htree : lob.BuyTree = init ++ [(⟨L.Price⟩, l)])
    (hsorted : lob.BuyTree.Pairwise (fun a b => a.1.val < b.1.val))
    (hinit : ∀ e, init.getLast? = some e → ∃ L1, lob.limits[e.2]? = some L1) :
    cancelOrderIndexes lob po = .ok
      ({ lob with HighestBuy := headOfLevel lob init.getLast?, BuyTree := init }, true) := by
  have h1 : ¬ (some po = lob.LowestSell) := fun h => hnS h.symm
  rw [htree] at hsorted
  have hsearch := search_append_last init ⟨L.Price⟩ l hsorted
  have hdel := delete_append_last init ⟨L.Price⟩ l hsorted
  unfold cancelOrderIndexes
  rcases List.eq_nil_or_concat init with hi | ⟨init2, e, hi⟩
  · subst hi
    simp [ho, hl, hL, bind, Except.bind, hsz, pure, Except.pure, derefLimit, derefOrder, hB, h1,
      getOrderTree, hsell, htree, Tree.Search, compare_eq_zero, Tree.Prev, setOrderTree,
      Tree.Delete, headOfLevel]
  · subst hi
    obtain ⟨L1, hL1⟩ := hinit e (by simp)
    simp only [List.concat_eq_append, List.append_assoc, List.singleton_append,
      List.length_append, List.length_singleton] at hsearch hdel htree
    have hget : ∀ (h : init2.length < (init2 ++ [e, (({ val := L.Price } : treeKey), l)]).length),
        (init2 ++ [e, (({ val := L.Price } : treeKey), l)])[init2.length] = e := by
      intro h
      rw [List.getElem_append_right (le_refl _)]
      simp
    simp [ho, hl, hL, bind, Except.bind, hsz, pure, Except.pure, derefLimit, derefOrder, hB, h1,
      getOrderTree, hsell, htree, hsearch, Tree.Prev, setOrderTree,
      hdel, headOfLevel, Tree.Value, hL1, List.getElem?_append, hget]

theorem placeAppend_lock (lob : LimitOrderBook) (b : Bool) (o : Order) (l t : Nat) (L : Limit)
    (ot : Order) :
    placeAppend { lob with Lock := b } o l t L ot = { placeAppend lob o l t L ot with Lock := b } :=
  rfl

theorem set_append_set {α : Type} (xs : List α) (t : Nat) (a b c : α) (ht : t < xs.length) :
    ((xs ++ [a]).set t b).set xs.length c = xs.set t b ++ [c] := by
  rw [List.set_append, if_pos ht, List.set_append]
  simp

theorem placeAppend_orders_ne (lob : LimitOrderBook) (o : Order) (l t : Nat) (L : Limit)
    (ot : Order) (p : Nat) (hp : p < lob.orders.length) (hne : p ≠ t) :
    (placeAppend lob o l t L ot).orders[p]? = lob.orders[p]? := by
  show (lob.orders.set t _ ++ [_])[p]? = _
  rw [List.getElem?_append_left (by rw [List.length_set]; exact hp),
    List.getElem?_set_ne (fun h => hne h.symm)]

theorem placeAppend_orders_t (lob : LimitOrderBook) (o : Order) (l t : Nat) (L : Limit)
    (ot : Order) (ht : t < lob.orders.length) :
    (placeAppend lob o l t L ot).orders[t]?
      = some { ot with NextOrder := some lob.orders.length } := by
  show (lob.orders.set t _ ++ [_])[t]? = _
  rw [List.getElem?_append_left (by rw [List.length_set]; exact ht),
    List.getElem?_set_self ht]

theorem placeAppend_orders_new (lob : LimitOrderBook) (o : Order) (l t : Nat) (L : Limit)
    (ot : Order) :
    (placeAppend lob o l t L ot).orders[lob.orders.length]?
      = some { o with ParentLimit := some l } := by
  show (lob.orders.set t _ ++ [_])[lob.orders.length]? = _
  rw [List.getElem?_append_right (by rw [List.length_set])]
  simp

theorem placeAppend_orders_length (lob : LimitOrderBook) (o : Order) (l t : Nat) (L : Limit)
    (ot : Order) : (placeAppend lob o l t L ot).orders.length = lob.orders.length + 1 := by
  show (lob.orders.set t _ ++ [_]).length = _
  simp

theorem placeAppend_limits_ne (lob : LimitOrderBook) (o : Order) (l t : Nat) (L : Limit)
    (ot : Order) (l2 : Nat) (hne : l2 ≠ l) :
    (placeAppend lob o l t L ot).limits[l2]? = lob.limits[l2]? := by
  show (lob.limits.set l _)[l2]? = _
  rw [List.getElem?_set_ne (fun h => hne h.symm)]

theorem placeAppend_limits_l (lob : LimitOrderBook) (o : Order) (l t : Nat) (L : Limit)
    (ot : Order) (hl : l < lob.limits.length) :
    (placeAppend lob o l t L ot).limits[l]? = some
      { L with
        TailOrder := some lob.orders.length
        Size := L.Size + 1
        TotalVolume := wrapInt (L.TotalVolume + o.Quantity) } := by
  show (lob.limits.set l _)[l]? = _
  rw [List.getElem?_set_self hl]

theorem NewOrder_append (lob : LimitOrderBook) (uid price qty : Int) (isSell : Bool) (id : Int)
    (n l t : Nat) (L : Limit) (ot : Order)
    (hlock : lob.Lock = false) (hr : CacheReadable lob)
    (hc : crosses lob isSell price = false)
    (hsearch : Tree.Search (sideTree lob isSell) ⟨price⟩ = some n)
    (hval : Tree.Value (sideTree lob isSell) n = some l)
    (hL : lob.limits[l]? = some L) (hT : L.TailOrder = some t)
    (hot : lob.orders[t]? = some ot) :
    ∃ out, NewOrder lob uid price qty isSell id = .ok
      (improveBest (placeAppend lob ⟨id, uid, price, qty, isSell, none, none, none⟩ l t L ot)
        lob.orders.length isSell price,
       getOrderOutput true ⟨id, uid, price, qty, isSell, none, none, none⟩ :: out, none) := by
  have hcheck := CheckBookCrossed_ok { lob with Lock := true }
    ⟨id, uid, price, qty, isSell, none, none, none⟩
    (by
      intro s p hp
      obtain ⟨ob, _, _, h, _⟩ := hr s p (by simpa [bestOf] using hp)
      exact ⟨ob, h⟩)
  have hc2 : crosses { lob with Lock := true } isSell price = false := by
    rw [← hc]; rfl
  simp only [hc2] at hcheck
  have htlen : t < lob.orders.length := (List.getElem?_eq_some.1 hot).1
  have hllen : l < lob.limits.length := (List.getElem?_eq_some.1 hL).1
  have hstep : ∀ r, newOrderIndexes
        (placeAppend { lob with Lock := true } ⟨id, uid, price, qty, isSell, none, none, none⟩
          l t L ot)
        [getOrderOutput true ⟨id, uid, price, qty, isSell, none, none, none⟩]
        lob.orders.length = .ok r →
      NewOrder lob uid price qty isSell id = .ok (lockUnlock r.1, r.2, none) := by
    intro r hr
    have hne : t ≠ lob.orders.length := by omega
    have hset := set_append_set lob.orders t
      ⟨id, uid, price, qty, isSell, none, none, none⟩
      { ot with NextOrder := some lob.orders.length }
      ⟨id, uid, price, qty, isSell, none, none, some l⟩ htlen
    unfold NewOrder
    cases isSell <;>
    · simp only [sideTree, if_true, if_false, Bool.false_eq_true] at hsearch hval
      simp only [placeAppend, mapSet] at hr
      simp [lockLock, hlock, hcheck, bind, Except.bind, pure, Except.pure, getOrderTree,
        hsearch, hval, derefLimit, hL, hT, updOrder, List.getElem?_append, htlen, hot, updLimit,
        List.getElem?_set, hllen, List.set_set, hne, mapSet, hset, hr]
  have hr2 : CacheReadable
      (placeAppend { lob with Lock := true } ⟨id, uid, price, qty, isSell, none, none, none⟩
        l t L ot) := by
    intro s p hp
    have hp2 : bestOf lob s = some p := by
      rw [← hp]
      unfold placeAppend bestOf
      cases s <;> rfl
    obtain ⟨ob, l2, L2, h1, h2, h3⟩ := hr s p hp2
    have hp1 : p < lob.orders.length := (List.getElem?_eq_some.1 h1).1
    have hl1 : l2 < lob.limits.length := (List.getElem?_eq_some.1 h3).1
    have ho2 : ∃ o2 : Order, (placeAppend { lob with Lock := true }
        ⟨id, uid, price, qty, isSell, none, none, none⟩ l t L ot).orders[p]? = some o2 ∧
        o2.ParentLimit = some l2 := by
      by_cases hpt : p = t
      · subst hpt
        rw [hot] at h1
        cases h1
        exact ⟨{ ot with NextOrder := some lob.orders.length },
          placeAppend_orders_t { lob with Lock := true } _ _ _ _ _ hp1, h2⟩
      · exact ⟨ob, (placeAppend_orders_ne { lob with Lock := true } _ _ _ _ _ _ hp1 hpt).trans h1,
          h2⟩
    have hL2 : ∃ L3 : Limit, (placeAppend { lob with Lock := true }
        ⟨id, uid, price, qty, isSell, none, none, none⟩ l t L ot).limits[l2]? = some L3 := by
      by_cases hll : l2 = l
      · subst hll
        exact ⟨_, placeAppend_limits_l { lob with Lock := true } _ _ _ _ _ hl1⟩
      · exact ⟨L2, (placeAppend_limits_ne { lob with Lock := true } _ _ _ _ _ _ hll).trans h3⟩
    obtain ⟨o2, h4, h5⟩ := ho2
    obtain ⟨L3, h6⟩ := hL2
    exact ⟨o2, l2, L3, h4, h5, h6⟩
  obtain ⟨out, hout⟩ := newOrderIndexes_ok
      (placeAppend { lob with Lock := true } ⟨id, uid, price, qty, isSell, none, none, none⟩
        l t L ot)
      [getOrderOutput true
      ⟨id, uid, price, qty, isSell, none, none, none⟩] lob.orders.length l
      ⟨id, uid, price, qty, isSell, none, none, some l⟩
      { L with
        TailOrder := some lob.orders.length
        Size := L.Size + 1
        TotalVolume := wrapInt (L.TotalVolume + qty) }
      (placeAppend_orders_new { lob with Lock := true } _ _ _ _ _)
      rfl
      (placeAppend_limits_l { lob with Lock := true } _ _ _ _ _ hllen)
      hr2
  refine ⟨out, ?_⟩
  rw [hstep _ hout]
  simp only [improveBest_lock, placeAppend_lock, List.singleton_append]
  congr 2
  have h2 : (improveBest (placeAppend lob ⟨id, uid, price, qty, isSell, none, none, none⟩ l t L ot)
      lob.orders.length isSell price).Lock = false := by
    rw [improveBest_Lock]
    exact hlock
  exact unlock_relock _ h2

/-! ## The invariant is kept -/

theorem levelOf_eq (orders : List Order) (p : Nat) (o : Order) (h : orders[p]? = some o) :
    levelOf orders p = o.ParentLimit := by
  simp [levelOf, h]

/-- Facts about the order being cancelled that the invariant provides. -/
theorem HeapInv.cancel_facts {lob : LimitOrderBook} (h : HeapInv lob) (id : Int) (po : Nat)
    (hmem : (id, po) ∈ lob.OrdersByID) :
    ∃ (o : Order) (l : Nat) (L : Limit) (hd : Nat) (oh : Order),
      lob.orders[po]? = some o ∧ o.ID = id ∧ o.ParentLimit = some l ∧
      lob.limits[l]? = some L ∧ L.Price = o.Price ∧
      (⟨o.Price⟩, l) ∈ sideTree lob o.IsSell ∧ L.HeadOrder = some hd ∧
      lob.orders[hd]? = some oh ∧ oh.ParentLimit = some l ∧ oh.IsSell = o.IsSell ∧
      InChain lob.orders hd po ∧ L.Size = (restingAt lob l : Int) ∧ 1 ≤ L.Size ∧
      (restingAt lob l = restingAt { lob with OrdersByID := mapDelete lob.OrdersByID id } l + 1) ∧
      (∀ l2, l2 ≠ l →
        restingAt { lob with OrdersByID := mapDelete lob.OrdersByID id } l2
          = restingAt lob l2) := by
  obtain ⟨o, ho, hid⟩ := h.tableValid id po hmem
  obtain ⟨l, L, hd, hl, hk, hL, hH, hc⟩ := h.resting id po o hmem ho
  obtain ⟨L2, hd2, oh, hL2, hP, hH2, hoh, hpl, hs, hsz, h1, _⟩ := h.treeLevel _ _ _ hk
  rw [hL] at hL2
  cases hL2
  rw [hH] at hH2
  cases hH2
  refine ⟨o, l, L, hd, oh, ho, hid, hl, hL, hP, hk, hH, hoh, hpl, hs, hc, hsz, h1, ?_, ?_⟩
  · have := countP_mapDelete lob.OrdersByID h.keysNodup id po hmem
      (fun e => decide (levelOf lob.orders e.2 = some l))
    simp only [levelOf_eq _ _ _ ho, hl, decide_True, if_true] at this
    exact this
  · intro l2 hne
    have := countP_mapDelete lob.OrdersByID h.keysNodup id po hmem
      (fun e => decide (levelOf lob.orders e.2 = some l2))
    have hf : ¬ (some l = some l2) := fun e => hne (Option.some.inj e).symm
    simp only [levelOf_eq _ _ _ ho, hl, hf, decide_False, Bool.false_eq_true, if_false,
      add_zero] at this
    exact this.symm

theorem restingAt_congr (a b : LimitOrderBook) (e1 : b.orders = a.orders)
    (e2 : b.OrdersByID = a.OrdersByID) (l : Nat) : restingAt b l = restingAt a l := by
  unfold restingAt
  rw [e1, e2]

theorem HeapInv.cancel_many {lob lob2 : LimitOrderBook} (h : HeapInv lob) (id : Int) (po : Nat)
    (o : Order) (l : Nat) (L : Limit)
    (hmem : (id, po) ∈ lob.OrdersByID) (ho : lob.orders[po]? = some o)
    (hl : o.ParentLimit = some l) (hL : lob.limits[l]? = some L) (hsz : L.Size ≠ 1)
    (e1 : lob2.orders = lob.orders)
    (e2 : lob2.limits = lob.limits.set l
      { L with
        Size := L.Size - 1
        TotalVolume := wrapInt (L.TotalVolume - o.Quantity)
        HeadOrder := if some po = L.HeadOrder then o.NextOrder else L.HeadOrder
        TailOrder := if some po = L.TailOrder then none else L.TailOrder })
    (e3 : lob2.OrdersByID = mapDelete lob.OrdersByID id)
    (e4 : ∀ s, sideTree lob2 s = sideTree lob s) : HeapInv lob2 := by
  obtain ⟨o', l', L', hd, oh, ho', hid, hl', hL', hP, hk, hH, hoh, hpl, hs, hc, hsize, h1,
    hcnt, hcnt2⟩ := h.cancel_facts id po hmem
  rw [ho] at ho'
  cases ho'
  rw [hl] at hl'
  cases hl'
  rw [hL] at hL'
  cases hL'
  have hllen : l < lob.limits.length := (List.getElem?_eq_some.1 hL).1
  have hr : ∀ l2, restingAt lob2 l2
      = restingAt { lob with OrdersByID := mapDelete lob.OrdersByID id } l2 :=
    fun l2 => restingAt_congr { lob with OrdersByID := mapDelete lob.OrdersByID id } lob2 e1 e3 l2
  generalize hLn : ({ L with
        Size := L.Size - 1
        TotalVolume := wrapInt (L.TotalVolume - o.Quantity)
        HeadOrder := if some po = L.HeadOrder then o.NextOrder else L.HeadOrder
        TailOrder := if some po = L.TailOrder then none else L.TailOrder } : Limit) = Ln at e2
  have hLn1 : Ln.Price = L.Price := by rw [← hLn]
  have hLn2 : Ln.Size = L.Size - 1 := by rw [← hLn]
  have hLn3 : Ln.HeadOrder = if some po = L.HeadOrder then o.NextOrder else L.HeadOrder := by
    rw [← hLn]
  have hLn4 : Ln.TailOrder = if some po = L.TailOrder then none else L.TailOrder := by
    rw [← hLn]
  have hLn5 : lob2.limits[l]? = some Ln := by rw [e2, List.getElem?_set_self hllen]
  -- any other resting order of the level lies strictly after the cancelled one
  have hother : ∀ id2 p2, (id2, p2) ∈ mapDelete lob.OrdersByID id → p2 ≠ po := by
    intro id2 p2 hm hpp
    obtain ⟨hm1, hm2⟩ := (mem_mapDelete _ _ _).1 hm
    subst hpp
    obtain ⟨o3, ho3, hid3⟩ := h.tableValid id2 p2 hm1
    rw [ho] at ho3
    cases ho3
    exact hm2 (hid3.symm.trans hid)
  have hlim : ∀ l2 L2, lob.limits[l2]? = some L2 →
      ∃ L3, lob2.limits[l2]? = some L3 ∧ L3.Price = L2.Price ∧ (l2 ≠ l → L3 = L2) := by
    intro l2 L2 h2
    by_cases hll : l2 = l
    · subst hll
      rw [hL] at h2
      cases h2
      exact ⟨Ln, hLn5, hLn1, fun h => absurd rfl h⟩
    · exact ⟨L2, by rw [e2, List.getElem?_set_ne (fun h => hll h.symm)]; exact h2, rfl,
        fun _ => rfl⟩
  -- the new head of the level
  have hhead : ∀ p2, p2 ≠ po → InChain lob.orders hd p2 →
      ∃ hd2 oh2, (if some po = L.HeadOrder then o.NextOrder else L.HeadOrder) = some hd2 ∧
        lob.orders[hd2]? = some oh2 ∧ oh2.ParentLimit = some l ∧ oh2.IsSell = o.IsSell ∧
        InChain lob.orders hd2 p2 := by
    intro p2 hne hch
    by_cases hpo : some po = L.HeadOrder
    · rw [hH] at hpo
      cases hpo
      rw [hH, if_pos rfl]
      obtain ⟨o5, n, h5, h6, h7⟩ := hch.step_of_ne hne
      rw [ho] at h5
      cases h5
      obtain ⟨_, o6, h8, h9, h10⟩ := h.ordNext _ _ _ ho h6
      exact ⟨n, o6, h6, h8, h9.trans hl, h10, h7⟩
    · rw [if_neg hpo]
      exact ⟨hd, oh, hH, hoh, hpl, hs, hch⟩
  constructor
  · rw [e3]
    exact keysNodup_mapDelete _ _ h.keysNodup
  · intro id2 p2 hm
    rw [e3] at hm
    rw [e1]
    exact h.tableValid id2 p2 ((mem_mapDelete _ _ _).1 hm).1
  · intro p2 o2 h2
    rw [e1] at h2
    exact h.ordPrev p2 o2 h2
  · intro p2 o2 h2
    rw [e1] at h2
    obtain ⟨l2, L2, h3, h4, h5⟩ := h.ordParent p2 o2 h2
    obtain ⟨L3, h6, h7, _⟩ := hlim l2 L2 h4
    exact ⟨l2, L3, h3, h6, h7.trans h5⟩
  · intro p2 o2 n h2 h3
    rw [e1] at h2 ⊢
    exact h.ordNext p2 o2 n h2 h3
  · intro s
    rw [e4]
    exact h.treeSorted s
  · intro s k l2 hm
    rw [e4] at hm
    obtain ⟨L2, hd2, oh2, hL2, hP2, hH2, hoh2, hpl2, hs2, hsz2, h12, ht2⟩ := h.treeLevel s k l2 hm
    by_cases hll : l2 = l
    · subst hll
      rw [hL] at hL2
      cases hL2
      rw [hH] at hH2
      cases hH2
      rw [hoh] at hoh2
      cases hoh2
      -- another resting order of this level exists
      have hpos : 0 < restingAt { lob with OrdersByID := mapDelete lob.OrdersByID id } l2 := by
        have : (restingAt lob l2 : Int) ≠ 1 := fun e => hsz (hsize.trans e)
        have h3 : (1 : Int) ≤ restingAt lob l2 := hsize ▸ h1
        omega
      obtain ⟨e, he, hq⟩ := List.countP_pos_iff.1 hpos
      obtain ⟨id3, p3⟩ := e
      simp only [decide_eq_true_eq] at hq
      have hne3 : p3 ≠ po := hother id3 p3 he
      have hm3 := ((mem_mapDelete _ _ _).1 he).1
      obtain ⟨o3, ho3, _⟩ := h.tableValid id3 p3 hm3
      obtain ⟨l4, L4, hd4, hl4, _, hL4, hH4, hc4⟩ := h.resting id3 p3 o3 hm3 ho3
      have hl43 : l4 = l2 := by
        have := levelOf_eq _ _ _ ho3
        rw [this, hl4] at hq
        exact Option.some.inj hq
      subst hl43
      rw [hL] at hL4
      cases hL4
      rw [hH] at hH4
      cases hH4
      obtain ⟨hd5, oh5, hh1, hh2, hh3, hh4, hh5⟩ := hhead p3 hne3 hc4
      refine ⟨Ln, hd5, oh5, hLn5, hLn1.trans hP2, hLn3.trans hh1, by rw [e1]; exact hh2,
        hh3, hh4.trans (hs.symm.trans hs2), ?_, ?_, ?_⟩
      · rw [hLn2, hr, hsize, hcnt]
        push_cast
        ring
      · rw [hLn2]
        omega
      · intro t ht
        rw [hLn4] at ht
        by_cases hpt : some po = L.TailOrder
        · rw [if_pos hpt] at ht
          cases ht
        · rw [if_neg hpt] at ht
          obtain ⟨hct, ot, hot, hnt⟩ := ht2 t ht
          have htne : t ≠ po := by
            intro e
            rw [e] at ht
            exact hpt ht.symm
          rw [e1]
          refine ⟨?_, ot, hot, hnt⟩
          by_cases hpo : some po = L.HeadOrder
          · rw [hH] at hpo
            cases hpo
            rw [hH, if_pos rfl] at hh1
            obtain ⟨o5, n, h5, h6, h7⟩ := hct.step_of_ne htne
            rw [ho] at h5
            cases h5
            rw [h6] at hh1
            cases hh1
            exact h7
          · rw [if_neg hpo, hH] at hh1
            cases hh1
            exact hct
    · obtain ⟨L3, h6, _, h8⟩ := hlim l2 L2 hL2
      rw [h8 hll] at h6
      refine ⟨L2, hd2, oh2, h6, hP2, hH2, by rw [e1]; exact hoh2, hpl2, hs2, ?_, h12, ?_⟩
      · rw [hr, hcnt2 l2 hll]
        exact hsz2
      · rw [e1]
        exact ht2
  · intro id2 p2 o2 hm h2
    rw [e3] at hm
    rw [e1] at h2
    have hm1 := ((mem_mapDelete _ _ _).1 hm).1
    obtain ⟨l2, L2, hd2, hl2, hk2, hL2, hH2, hc2⟩ := h.resting id2 p2 o2 hm1 h2
    by_cases hll : l2 = l
    · subst hll
      rw [hL] at hL2
      cases hL2
      rw [hH] at hH2
      cases hH2
      obtain ⟨hd5, oh5, hh1, hh2, hh3, hh4, hh5⟩ := hhead p2 (hother id2 p2 hm) hc2
      exact ⟨l2, Ln, hd5, hl2, by rw [e4]; exact hk2, hLn5, hLn3.trans hh1,
        by rw [e1]; exact hh5⟩
    · obtain ⟨L3, h6, _, h8⟩ := hlim l2 L2 hL2
      rw [h8 hll] at h6
      exact ⟨l2, L2, hd2, hl2, by rw [e4]; exact hk2, h6, hH2, by rw [e1]; exact hc2⟩

theorem key_eq_of_val {a b : treeKey} (h : a.val = b.val) : a = b := by
  cases a; cases b; simp_all

theorem HeapInv.cancel_one {lob lob2 : LimitOrderBook} (h : HeapInv lob) (id : Int) (po : Nat)
    (o : Order) (l : Nat) (L : Limit)
    (hmem : (id, po) ∈ lob.OrdersByID) (ho : lob.orders[po]? = some o)
    (hl : o.ParentLimit = some l) (hL : lob.limits[l]? = some L) (hsz : L.Size = 1)
    (e1 : lob2.orders = lob.orders) (e2 : lob2.limits = lob.limits)
    (e3 : lob2.OrdersByID = mapDelete lob.OrdersByID id)
    (e4 : sideTree lob2 o.IsSell = Tree.Delete (sideTree lob o.IsSell) ⟨L.Price⟩)
    (e5 : sideTree lob2 (!o.IsSell) = sideTree lob (!o.IsSell)) : HeapInv lob2 := by
  obtain ⟨o', l', L', hd, oh, ho', hid, hl', hL', hP, hk, hH, hoh, hpl, hs, hc, hsize, h1,
    hcnt, hcnt2⟩ := h.cancel_facts id po hmem
  rw [ho] at ho'
  cases ho'
  rw [hl] at hl'
  cases hl'
  rw [hL] at hL'
  cases hL'
  have hr : ∀ l2, restingAt lob2 l2
      = restingAt { lob with OrdersByID := mapDelete lob.OrdersByID id } l2 :=
    fun l2 => restingAt_congr { lob with OrdersByID := mapDelete lob.OrdersByID id } lob2 e1 e3 l2
  have hzero : restingAt { lob with OrdersByID := mapDelete lob.OrdersByID id } l = 0 := by
    have : (restingAt lob l : Int) = 1 := hsize.symm.trans hsz
    omega
  -- membership in the trees after the delete
  have hsub : ∀ s k l2, (k, l2) ∈ sideTree lob2 s → (k, l2) ∈ sideTree lob s := by
    intro s k l2 hm
    by_cases hss : s = o.IsSell
    · subst hss
      rw [e4] at hm
      exact (delete_sublist _ _).subset hm
    · have : s = !o.IsSell := by cases s <;> cases hh : o.IsSell <;> simp_all
      subst this
      rw [e5] at hm
      exact hm
  have hkeep : ∀ s k l2, (k, l2) ∈ sideTree lob s → l2 ≠ l → (k, l2) ∈ sideTree lob2 s := by
    intro s k l2 hm hne
    by_cases hss : s = o.IsSell
    · subst hss
      rw [e4, mem_delete _ _ (h.treeSorted _)]
      refine ⟨hm, ?_⟩
      intro hkk
      simp only at hkk
      subst hkk
      have hk' : (({ val := L.Price } : treeKey), l) ∈ sideTree lob o.IsSell := by
        rw [hP]; exact hk
      exact hne (sorted_key_unique _ (h.treeSorted _) _ _ _ hm hk')
    · have : s = !o.IsSell := by cases s <;> cases hh : o.IsSell <;> simp_all
      subst this
      rw [e5]
      exact hm
  have hgone : ∀ s k, (k, l) ∉ sideTree lob2 s := by
    intro s k hm
    obtain ⟨L2, hd2, oh2, hL2, hP2, hH2, hoh2, hpl2, hs2, _⟩ := h.treeLevel s k l (hsub s k l hm)
    rw [hL] at hL2
    cases hL2
    rw [hH] at hH2
    cases hH2
    rw [hoh] at hoh2
    cases hoh2
    have hss : s = o.IsSell := hs2.symm.trans hs
    subst hss
    rw [e4, mem_delete _ _ (h.treeSorted _)] at hm
    exact hm.2 (key_eq_of_val hP2.symm)
  constructor
  · rw [e3]
    exact keysNodup_mapDelete _ _ h.keysNodup
  · intro id2 p2 hm
    rw [e3] at hm
    rw [e1]
    exact h.tableValid id2 p2 ((mem_mapDelete _ _ _).1 hm).1
  · intro p2 o2 h2
    rw [e1] at h2
    exact h.ordPrev p2 o2 h2
  · intro p2 o2 h2
    rw [e1] at h2
    rw [e2]
    exact h.ordParent p2 o2 h2
  · intro p2 o2 n h2 h3
    rw [e1] at h2 ⊢
    exact h.ordNext p2 o2 n h2 h3
  · intro s
    by_cases hss : s = o.IsSell
    · subst hss
      rw [e4]
      exact (h.treeSorted _).sublist (delete_sublist _ _)
    · have : s = !o.IsSell := by cases s <;> cases hh : o.IsSell <;> simp_all
      subst this
      rw [e5]
      exact h.treeSorted _
  · intro s k l2 hm
    have hne : l2 ≠ l := by
      intro e
      subst e
      exact hgone s k hm
    obtain ⟨L2, hd2, oh2, hL2, hP2, hH2, hoh2, hpl2, hs2, hsz2, h12, ht2⟩ :=
      h.treeLevel s k l2 (hsub s k l2 hm)
    refine ⟨L2, hd2, oh2, by rw [e2]; exact hL2, hP2, hH2, by rw [e1]; exact hoh2, hpl2, hs2,
      ?_, h12, by rw [e1]; exact ht2⟩
    rw [hr, hcnt2 l2 hne]
    exact hsz2
  · intro id2 p2 o2 hm h2
    rw [e3] at hm
    rw [e1] at h2
    have hm1 := ((mem_mapDelete _ _ _).1 hm).1
    obtain ⟨l2, L2, hd2, hl2, hk2, hL2, hH2, hc2⟩ := h.resting id2 p2 o2 hm1 h2
    have hne : l2 ≠ l := by
      intro e
      subst e
      have hz := List.countP_eq_zero.1 hzero (id2, p2) hm
      simp only [decide_eq_true_eq] at hz
      exact hz ((levelOf_eq _ _ _ h2).trans hl2)
    exact ⟨l2, L2, hd2, hl2, hkeep _ _ _ hk2 hne, by rw [e2]; exact hL2, hH2,
      by rw [e1]; exact hc2⟩

theorem Grows.old {a b : List Order} {o2 : Order} {t : Option Nat} (g : Grows a b o2 t)
    (p : Nat) (o : Order) (h : a[p]? = some o) :
    ∃ o3 : Order, b[p]? = some o3 ∧ o3.ID = o.ID ∧ o3.Price = o.Price ∧ o3.IsSell = o.IsSell ∧
      o3.PrevOrder = o.PrevOrder ∧ o3.ParentLimit = o.ParentLimit ∧
      (some p ≠ t → o3 = o) ∧ (∀ n, o.NextOrder = some n → some p ≠ t → o3.NextOrder = some n) ∧
      (some p = t → o3.NextOrder = some a.length) := by
  by_cases hp : some p = t
  · exact ⟨_, g.relink p o h hp, rfl, rfl, rfl, rfl, rfl, fun h2 => absurd hp h2,
      fun _ _ h2 => absurd hp h2, fun _ => rfl⟩
  · exact ⟨o, g.keep p o h hp, rfl, rfl, rfl, rfl, rfl, fun _ => rfl, fun n hn _ => hn,
      fun h2 => absurd h2 hp⟩

theorem Grows.origin {a b : List Order} {o2 : Order} {t : Option Nat} (g : Grows a b o2 t)
    (p : Nat) (o3 : Order) (h : b[p]? = some o3) :
    (p = a.length ∧ o3 = o2) ∨
    (p < a.length ∧ ∃ o : Order, a[p]? = some o ∧ o3.ID = o.ID ∧ o3.Price = o.Price ∧
      o3.IsSell = o.IsSell ∧ o3.PrevOrder = o.PrevOrder ∧ o3.ParentLimit = o.ParentLimit ∧
      ((some p ≠ t ∧ o3 = o) ∨ (some p = t ∧ o3.NextOrder = some a.length))) := by
  have hlt : p < b.length := (List.getElem?_eq_some.1 h).1
  rw [g.len] at hlt
  by_cases hp : p = a.length
  · subst hp
    rw [g.new] at h
    cases h
    exact Or.inl ⟨rfl, rfl⟩
  · have hpa : p < a.length := by omega
    right
    refine ⟨hpa, a[p], List.getElem?_eq_getElem hpa, ?_⟩
    obtain ⟨o4, h1, h2, h3, h4, h5, h6, h7, _, h9⟩ := g.old p a[p] (List.getElem?_eq_getElem hpa)
    rw [h] at h1
    cases h1
    refine ⟨h2, h3, h4, h5, h6, ?_⟩
    by_cases hpt : some p = t
    · exact Or.inr ⟨hpt, h9 hpt⟩
    · exact Or.inl ⟨hpt, h7 hpt⟩

theorem Grows.chain {a b : List Order} {o2 : Order} {t : Option Nat} (g : Grows a b o2 t)
    (ht : ∀ p o, a[p]? = some o → some p = t → o.NextOrder = none)
    {h p : Nat} (c : InChain a h p) : InChain b h p := by
  apply InChain.mono _ c
  intro q o hq
  obtain ⟨o3, h1, _, _, _, _, _, _, h8, _⟩ := g.old q o hq
  refine ⟨o3, h1, ?_⟩
  intro n hn
  by_cases hqt : some q = t
  · rw [ht q o hq hqt] at hn
    cases hn
  · exact h8 n hn hqt

theorem Grows.levelOf {a b : List Order} {o2 : Order} {t : Option Nat} (g : Grows a b o2 t)
    (p : Nat) (o : Order) (h : a[p]? = some o) : levelOf b p = levelOf a p := by
  obtain ⟨o3, h1, _, _, _, _, h6, _⟩ := g.old p o h
  rw [levelOf_eq _ _ _ h1, levelOf_eq _ _ _ h, h6]

/-- Counting the resting orders of a level after one order entered the ID table. -/
theorem restingAt_grow (lob lob2 : LimitOrderBook) (o2 : Order) (t : Option Nat) (id : Int)
    (l : Nat) (g : Grows lob.orders lob2.orders o2 t) (hl : o2.ParentLimit = some l)
    (hv : ∀ id2 p2, (id2, p2) ∈ lob.OrdersByID → ∃ o : Order, lob.orders[p2]? = some o)
    (e : lob2.OrdersByID = (id, lob.orders.length) :: lob.OrdersByID) (l2 : Nat) :
    restingAt lob2 l2 = restingAt lob l2 + (if l2 = l then 1 else 0) := by
  unfold restingAt
  rw [e, List.countP_cons]
  have h1 : List.countP (fun e => decide (levelOf lob2.orders e.2 = some l2)) lob.OrdersByID
      = List.countP (fun e => decide (levelOf lob.orders e.2 = some l2)) lob.OrdersByID := by
    apply List.countP_congr
    intro x hx
    obtain ⟨o, ho⟩ := hv x.1 x.2 hx
    rw [g.levelOf _ _ ho]
  rw [h1, levelOf_eq _ _ _ g.new, hl]
  by_cases hll : l2 = l
  · subst hll
    simp
  · have : ¬ (some l = some l2) := fun e => hll (Option.some.inj e).symm
    simp [hll, this]

theorem side_cases (s s0 : Bool) : s = s0 ∨ s = !s0 := by
  cases s <;> cases s0 <;> simp

theorem HeapInv.place_new {lob lob2 : LimitOrderBook} (h : HeapInv lob) (o2 : Order) (q : Int)
    (hn : o2.NextOrder = none) (hp : o2.PrevOrder = none)
    (hpl : o2.ParentLimit = some lob.limits.length)
    (g : Grows lob.orders lob2.orders o2 none)
    (eL : lob2.limits = lob.limits ++
      [{ Price := o2.Price, Size := 1, TotalVolume := q,
         HeadOrder := some lob.orders.length, TailOrder := some lob.orders.length }])
    (eT : lob2.OrdersByID = (o2.ID, lob.orders.length) :: lob.OrdersByID)
    (habs : ∀ p, (o2.ID, p) ∉ lob.OrdersByID)
    (hnone : ∀ l, (({ val := o2.Price } : treeKey), l) ∉ sideTree lob o2.IsSell)
    (e4 : sideTree lob2 o2.IsSell
      = Tree.Insert (sideTree lob o2.IsSell) ⟨o2.Price⟩ lob.limits.length)
    (e5 : sideTree lob2 (!o2.IsSell) = sideTree lob (!o2.IsSell)) : HeapInv lob2 := by
  have hv : ∀ id2 p2, (id2, p2) ∈ lob.OrdersByID → ∃ o : Order, lob.orders[p2]? = some o := by
    intro id2 p2 hm
    obtain ⟨o, ho, _⟩ := h.tableValid id2 p2 hm
    exact ⟨o, ho⟩
  have hcnt := restingAt_grow lob lob2 o2 none o2.ID lob.limits.length g hpl hv eT
  have hlimOld : ∀ (l : Nat) (L : Limit), lob.limits[l]? = some L →
      lob2.limits[l]? = some L := by
    intro l L hl
    rw [eL, List.getElem?_append_left (List.getElem?_eq_some.1 hl).1]
    exact hl
  have hlimNew : lob2.limits[lob.limits.length]? = some
      { Price := o2.Price, Size := 1, TotalVolume := q,
        HeadOrder := some lob.orders.length, TailOrder := some lob.orders.length } := by
    rw [eL]; simp
  have hkeep : ∀ (p : Nat) (o : Order), lob.orders[p]? = some o → lob2.orders[p]? = some o :=
    fun p o ho => g.keep p o ho (by simp)
  have hch : ∀ {a b : Nat}, InChain lob.orders a b → InChain lob2.orders a b :=
    fun c => g.chain (fun _ _ _ e => by cases e) c
  have hmemOld : ∀ s k l, (k, l) ∈ sideTree lob s → (k, l) ∈ sideTree lob2 s := by
    intro s k l hm
    rcases side_cases s o2.IsSell with e | e
    · subst e
      rw [e4, mem_insert _ _ _ hnone]
      exact Or.inr hm
    · subst e
      rw [e5]
      exact hm
  have hmemNew : (({ val := o2.Price } : treeKey), lob.limits.length) ∈ sideTree lob2 o2.IsSell := by
    rw [e4, mem_insert _ _ _ hnone]
    exact Or.inl rfl
  have hmemInv : ∀ s k l, (k, l) ∈ sideTree lob2 s →
      (s = o2.IsSell ∧ k = ⟨o2.Price⟩ ∧ l = lob.limits.length) ∨ (k, l) ∈ sideTree lob s := by
    intro s k l hm
    rcases side_cases s o2.IsSell with e | e
    · subst e
      rw [e4, mem_insert _ _ _ hnone] at hm
      rcases hm with hm | hm
      · cases hm
        exact Or.inl ⟨rfl, rfl, rfl⟩
      · exact Or.inr hm
    · subst e
      rw [e5] at hm
      exact Or.inr hm
  constructor
  · rw [eT, List.map_cons, List.nodup_cons]
    refine ⟨?_, h.keysNodup⟩
    intro hm
    obtain ⟨e, he, hid⟩ := List.mem_map.1 hm
    obtain ⟨a, b⟩ := e
    simp only at hid
    subst hid
    exact habs b he
  · intro id2 p2 hm
    rw [eT] at hm
    rcases List.mem_cons.1 hm with e | hm
    · cases e
      exact ⟨o2, g.new, rfl⟩
    · obtain ⟨o, ho, hid⟩ := h.tableValid id2 p2 hm
      exact ⟨o, hkeep _ _ ho, hid⟩
  · intro p o3 h3
    rcases g.origin p o3 h3 with ⟨_, e⟩ | ⟨_, o, ho, _, _, _, h4, _⟩
    · rw [e]; exact hp
    · rw [h4]; exact h.ordPrev p o ho
  · intro p o3 h3
    rcases g.origin p o3 h3 with ⟨_, e⟩ | ⟨_, o, ho, _, h5, _, _, h4, _⟩
    · subst e
      exact ⟨_, _, hpl, hlimNew, rfl⟩
    · obtain ⟨l, L, h6, h7, h8⟩ := h.ordParent p o ho
      exact ⟨l, L, h4.trans h6, hlimOld _ _ h7, h8.trans h5.symm⟩
  · intro p o3 n h3 hnx
    rcases g.origin p o3 h3 with ⟨_, e⟩ | ⟨_, o, ho, _, _, _, _, _, ⟨_, e⟩ | ⟨e, _⟩⟩
    · subst e
      rw [hn] at hnx
      cases hnx
    · subst e
      obtain ⟨h6, o4, h7, h8, h9⟩ := h.ordNext p o3 n ho hnx
      exact ⟨h6, o4, hkeep _ _ h7, h8, h9⟩
    · cases e
  · intro s
    rcases side_cases s o2.IsSell with e | e
    · subst e
      rw [e4]
      exact sorted_insert _ _ _ hnone (h.treeSorted _)
    · subst e
      rw [e5]
      exact h.treeSorted _
  · intro s k l hm
    rcases hmemInv s k l hm with ⟨e1, e2, e3⟩ | hm
    · subst e1 e2 e3
      refine ⟨_, lob.orders.length, o2, hlimNew, rfl, rfl, g.new, hpl, rfl, ?_, le_refl _, ?_⟩
      · show (1 : Int) = _
        rw [hcnt, if_pos rfl]
        have hz : restingAt lob lob.limits.length = 0 := by
          unfold restingAt
          rw [List.countP_eq_zero]
          intro e he
          obtain ⟨o, ho, _⟩ := h.tableValid e.1 e.2 he
          obtain ⟨l, L, h6, h7, _⟩ := h.ordParent _ _ ho
          simp only [decide_eq_true_eq, levelOf_eq _ _ _ ho, h6]
          intro e2
          have := (List.getElem?_eq_some.1 h7).1
          have := Option.some.inj e2
          omega
        rw [hz]
        rfl
      · intro t ht
        cases ht
        exact ⟨InChain.here g.new, o2, g.new, hn⟩
    · obtain ⟨L, hd, oh, hL, hP, hH, hoh, hpl2, hs, hsz, h1, ht⟩ := h.treeLevel s k l hm
      have hne : l ≠ lob.limits.length := by
        have := (List.getElem?_eq_some.1 hL).1
        omega
      refine ⟨L, hd, oh, hlimOld _ _ hL, hP, hH, hkeep _ _ hoh, hpl2, hs, ?_, h1, ?_⟩
      · rw [hcnt, if_neg hne]
        simpa using hsz
      · intro t htl
        obtain ⟨hc, ot, hot, hnt⟩ := ht t htl
        exact ⟨hch hc, ot, hkeep _ _ hot, hnt⟩
  · intro id2 p2 o3 hm h3
    rw [eT] at hm
    rcases List.mem_cons.1 hm with e | hm
    · cases e
      rw [g.new] at h3
      cases h3
      exact ⟨_, _, lob.orders.length, hpl, hmemNew, hlimNew, rfl, InChain.here g.new⟩
    · obtain ⟨o, ho, _⟩ := h.tableValid id2 p2 hm
      rw [hkeep _ _ ho] at h3
      cases h3
      obtain ⟨l, L, hd, hl, hk, hL, hH, hc⟩ := h.resting id2 p2 o3 hm ho
      exact ⟨l, L, hd, hl, hmemOld _ _ _ hk, hlimOld _ _ hL, hH, hch hc⟩

theorem HeapInv.place_append {lob lob2 : LimitOrderBook} (h : HeapInv lob) (o2 : Order)
    (l t : Nat) (L Ln : Limit)
    (hn : o2.NextOrder = none) (hp : o2.PrevOrder = none) (hpl : o2.ParentLimit = some l)
    (hk : (({ val := o2.Price } : treeKey), l) ∈ sideTree lob o2.IsSell)
    (hL : lob.limits[l]? = some L) (hT : L.TailOrder = some t)
    (g : Grows lob.orders lob2.orders o2 (some t))
    (eL : lob2.limits = lob.limits.set l Ln)
    (hLn1 : Ln.Price = L.Price) (hLn2 : Ln.Size = L.Size + 1)
    (hLn3 : Ln.HeadOrder = L.HeadOrder) (hLn4 : Ln.TailOrder = some lob.orders.length)
    (eT : lob2.OrdersByID = (o2.ID, lob.orders.length) :: lob.OrdersByID)
    (habs : ∀ p, (o2.ID, p) ∉ lob.OrdersByID)
    (e4 : ∀ s, sideTree lob2 s = sideTree lob s) : HeapInv lob2 := by
  have hv : ∀ id2 p2, (id2, p2) ∈ lob.OrdersByID → ∃ o : Order, lob.orders[p2]? = some o := by
    intro id2 p2 hm
    obtain ⟨o, ho, _⟩ := h.tableValid id2 p2 hm
    exact ⟨o, ho⟩
  have hcnt := restingAt_grow lob lob2 o2 (some t) o2.ID l g hpl hv eT
  have hllen : l < lob.limits.length := (List.getElem?_eq_some.1 hL).1
  obtain ⟨L', hd, oh, hL', hP, hH, hoh, hpl2, hs, hsz, h1, htl⟩ := h.treeLevel _ _ _ hk
  rw [hL] at hL'
  cases hL'
  obtain ⟨hct, ot, hot, hnt⟩ := htl t hT
  obtain ⟨_, hotp, hots⟩ := InChain.same_level h.ordNext hct oh ot hoh hot
  have htail : ∀ p o, lob.orders[p]? = some o → some p = some t → o.NextOrder = none := by
    intro p o ho e
    cases e
    rw [hot] at ho
    cases ho
    exact hnt
  have hch : ∀ {a b : Nat}, InChain lob.orders a b → InChain lob2.orders a b :=
    fun c => g.chain htail c
  have hlimNew : lob2.limits[l]? = some Ln := by rw [eL, List.getElem?_set_self hllen]
  have hlim : ∀ (l2 : Nat) (L2 : Limit), lob.limits[l2]? = some L2 →
      ∃ L3 : Limit, lob2.limits[l2]? = some L3 ∧ L3.Price = L2.Price ∧
        L3.HeadOrder = L2.HeadOrder ∧ (l2 ≠ l → L3 = L2) := by
    intro l2 L2 h2
    by_cases hll : l2 = l
    · subst hll
      rw [hL] at h2
      cases h2
      exact ⟨Ln, hlimNew, hLn1, hLn3, fun h => absurd rfl h⟩
    · exact ⟨L2, by rw [eL, List.getElem?_set_ne (fun h => hll h.symm)]; exact h2, rfl, rfl,
        fun _ => rfl⟩
  -- the relinked tail
  obtain ⟨ot2, hot2, _, _, hot2s, _, hot2p, _, _, hot2n⟩ := g.old t ot hot
  have hnewchain : InChain lob2.orders hd lob.orders.length :=
    (hch hct).snoc hot2 (hot2n rfl) g.new
  constructor
  · rw [eT, List.map_cons, List.nodup_cons]
    refine ⟨?_, h.keysNodup⟩
    intro hm
    obtain ⟨e, he, hid⟩ := List.mem_map.1 hm
    obtain ⟨a, b⟩ := e
    simp only at hid
    subst hid
    exact habs b he
  · intro id2 p2 hm
    rw [eT] at hm
    rcases List.mem_cons.1 hm with e | hm
    · cases e
      exact ⟨o2, g.new, rfl⟩
    · obtain ⟨o, ho, hid⟩ := h.tableValid id2 p2 hm
      obtain ⟨o3, h3, h4, _⟩ := g.old p2 o ho
      exact ⟨o3, h3, h4.trans hid⟩
  · intro p o3 h3
    rcases g.origin p o3 h3 with ⟨_, e⟩ | ⟨_, o, ho, _, _, _, h4, _⟩
    · rw [e]; exact hp
    · rw [h4]; exact h.ordPrev p o ho
  · intro p o3 h3
    rcases g.origin p o3 h3 with ⟨_, e⟩ | ⟨_, o, ho, _, h5, _, _, h4, _⟩
    · subst e
      exact ⟨l, Ln, hpl, hlimNew, hLn1.trans hP⟩
    · obtain ⟨l2, L2, h6, h7, h8⟩ := h.ordParent p o ho
      obtain ⟨L3, h9, h10, _⟩ := hlim l2 L2 h7
      exact ⟨l2, L3, h4.trans h6, h9, h10.trans (h8.trans h5.symm)⟩
  · intro p o3 n h3 hnx
    rcases g.origin p o3 h3 with ⟨_, e⟩ | ⟨hlt, o, ho, _, _, h5, _, h4, ⟨_, e⟩ | ⟨e, h6⟩⟩
    · subst e
      rw [hn] at hnx
      cases hnx
    · subst e
      obtain ⟨h6, o4, h7, h8, h9⟩ := h.ordNext p o3 n ho hnx
      obtain ⟨o5, h10, _, _, h11, _, h12, _⟩ := g.old n o4 h7
      exact ⟨h6, o5, h10, h12.trans h8, h11.trans h9⟩
    · cases e
      rw [hot] at ho
      cases ho
      rw [h6] at hnx
      cases hnx
      refine ⟨hlt, o2, g.new, ?_, ?_⟩
      · rw [hpl, h4, hotp, hpl2]
      · rw [h5, hots, hs]
  · intro s
    rw [e4]
    exact h.treeSorted s
  · intro s k l2 hm
    rw [e4] at hm
    obtain ⟨L2, hd2, oh2, hL2, hP2, hH2, hoh2, hpl3, hs2, hsz2, h12, ht2⟩ := h.treeLevel s k l2 hm
    obtain ⟨oh3, hoh3, _, _, hoh3s, _, hoh3p, _⟩ := g.old hd2 oh2 hoh2
    by_cases hll : l2 = l
    · subst hll
      rw [hL] at hL2
      cases hL2
      rw [hH] at hH2
      cases hH2
      refine ⟨Ln, hd, oh3, hlimNew, hLn1.trans hP2, hLn3.trans hH, hoh3, hoh3p.trans hpl3,
        hoh3s.trans hs2, ?_, ?_, ?_⟩
      · rw [hLn2, hcnt, if_pos rfl, hsz2]
        push_cast
        ring
      · rw [hLn2]
        omega
      · intro t2 ht2'
        rw [hLn4] at ht2'
        cases ht2'
        exact ⟨hnewchain, o2, g.new, hn⟩
    · obtain ⟨L3, h9, _, _, h11⟩ := hlim l2 L2 hL2
      rw [h11 hll] at h9
      refine ⟨L2, hd2, oh3, h9, hP2, hH2, hoh3, hoh3p.trans hpl3, hoh3s.trans hs2, ?_, h12, ?_⟩
      · rw [hcnt, if_neg hll]
        simpa using hsz2
      · intro t2 ht2'
        obtain ⟨hc2, ot3, hot3, hnt3⟩ := ht2 t2 ht2'
        obtain ⟨_, hot3p, _⟩ := InChain.same_level h.ordNext hc2 oh2 ot3 hoh2 hot3
        have hne : some t2 ≠ some t := by
          intro e
          cases e
          rw [hot] at hot3
          cases hot3
          rw [hotp, hpl2, hpl3] at hot3p
          exact hll (Option.some.inj hot3p).symm
        exact ⟨hch hc2, ot3, g.keep _ _ hot3 hne, hnt3⟩
  · intro id2 p2 o3 hm h3
    rw [eT] at hm
    rcases List.mem_cons.1 hm with e | hm
    · cases e
      rw [g.new] at h3
      cases h3
      exact ⟨l, Ln, hd, hpl, by rw [e4]; exact hk, hlimNew, hLn3.trans hH, hnewchain⟩
    · obtain ⟨o, ho, _⟩ := h.tableValid id2 p2 hm
      obtain ⟨o4, h4, _, h5, h6, _, h7, _⟩ := g.old p2 o ho
      rw [h4] at h3
      cases h3
      obtain ⟨l2, L2, hd2, hl2, hk2, hL2, hH2, hc2⟩ := h.resting id2 p2 o hm ho
      obtain ⟨L3, h9, _, h10, _⟩ := hlim l2 L2 hL2
      refine ⟨l2, L3, hd2, h7.trans hl2, ?_, h9, h10.trans hH2, hch hc2⟩
      rw [e4, h5, h6]
      exact hk2

theorem improveBest_spec (lob : LimitOrderBook) (po : Nat) (s : Bool) (price : Int) :
    (improves lob s price = true ∧ improveBest lob po s price = setBest lob s (some po)) ∨
    (improves lob s price = false ∧ improveBest lob po s price = lob) := by
  unfold improveBest
  cases h : improves lob s price <;> simp

theorem improves_false (lob : LimitOrderBook) (s : Bool) (price : Int)
    (h : improves lob s price = false) :
    ∃ (b : Nat) (ob : Order), bestOf lob s = some b ∧ lob.orders[b]? = some ob ∧
      (if s then ob.Price ≤ price else price ≤ ob.Price) := by
  unfold improves priceAt at h
  cases hb : bestOf lob s with
  | none => simp [hb] at h
  | some b =>
    cases ho : lob.orders[b]? with
    | none => simp [hb, ho] at h
    | some ob =>
      refine ⟨b, ob, rfl, ho, ?_⟩
      cases s <;> simpa [hb, ho] using h

theorem improves_true (lob : LimitOrderBook) (s : Bool) (price : Int)
    (h : improves lob s price = true) (b : Nat) (ob : Order)
    (hb : bestOf lob s = some b) (ho : lob.orders[b]? = some ob) :
    if s then price < ob.Price else ob.Price < price := by
  unfold improves priceAt at h
  cases s <;> simpa [hb, ho] using h

theorem crosses_false (lob : LimitOrderBook) (s : Bool) (price : Int)
    (h : crosses lob s price = false) (b : Nat) (ob : Order)
    (hb : bestOf lob (!s) = some b) (ho : lob.orders[b]? = some ob) :
    if s then ob.Price < price else price < ob.Price := by
  unfold crosses priceAt at h
  cases s <;> simp only [Bool.not_true, Bool.not_false] at hb h <;> simpa [hb, ho] using h

theorem BestInv.place {lob lob1 : LimitOrderBook} (hb : BestInv lob) (o2 : Order)
    (t : Option Nat) (g : Grows lob.orders lob1.orders o2 t)
    (hc : crosses lob o2.IsSell o2.Price = false)
    (eS : lob1.LowestSell = lob.LowestSell) (eB : lob1.HighestBuy = lob.HighestBuy)
    (hmem : ∀ s k l, (k, l) ∈ sideTree lob1 s →
      (s = o2.IsSell ∧ k.val = o2.Price) ∨ (k, l) ∈ sideTree lob s) :
    BestInv (improveBest lob1 lob.orders.length o2.IsSell o2.Price) := by
  -- the cached orders keep their side and price in the grown arena
  have hold : ∀ (p : Nat) (o : Order), lob.orders[p]? = some o →
      ∃ o3 : Order, lob1.orders[p]? = some o3 ∧ o3.Price = o.Price ∧ o3.IsSell = o.IsSell := by
    intro p o ho
    obtain ⟨o3, h1, _, h2, h3, _⟩ := g.old p o ho
    exact ⟨o3, h1, h2, h3⟩
  have hsellOld : ∀ p, lob.LowestSell = some p →
      ∃ o3 : Order, lob1.orders[p]? = some o3 ∧ o3.IsSell = true ∧
        (∀ k l, (k, l) ∈ lob.SellTree → o3.Price ≤ k.val) ∧
        ∃ o : Order, lob.orders[p]? = some o ∧ o3.Price = o.Price := by
    intro p hp
    obtain ⟨o, ho, h1, h2⟩ := hb.bestSell p hp
    obtain ⟨o3, h3, h4, h5⟩ := hold p o ho
    exact ⟨o3, h3, h5.trans h1, fun k l hk => h4 ▸ h2 k l hk, o, ho, h4⟩
  have hbuyOld : ∀ p, lob.HighestBuy = some p →
      ∃ o3 : Order, lob1.orders[p]? = some o3 ∧ o3.IsSell = false ∧
        (∀ k l, (k, l) ∈ lob.BuyTree → k.val ≤ o3.Price) ∧
        ∃ o : Order, lob.orders[p]? = some o ∧ o3.Price = o.Price := by
    intro p hp
    obtain ⟨o, ho, h1, h2⟩ := hb.bestBuy p hp
    obtain ⟨o3, h3, h4, h5⟩ := hold p o ho
    exact ⟨o3, h3, h5.trans h1, fun k l hk => h4 ▸ h2 k l hk, o, ho, h4⟩
  have hmS : ∀ k l, (k, l) ∈ lob1.SellTree →
      (o2.IsSell = true ∧ k.val = o2.Price) ∨ (k, l) ∈ lob.SellTree := by
    intro k l hk
    rcases hmem true k l hk with ⟨h1, h2⟩ | h
    · exact Or.inl ⟨h1.symm, h2⟩
    · exact Or.inr h
  have hmB : ∀ k l, (k, l) ∈ lob1.BuyTree →
      (o2.IsSell = false ∧ k.val = o2.Price) ∨ (k, l) ∈ lob.BuyTree := by
    intro k l hk
    rcases hmem false k l hk with ⟨h1, h2⟩ | h
    · exact Or.inl ⟨h1.symm, h2⟩
    · exact Or.inr h
  have hSnil : lob.LowestSell = none → ∀ k l, (k, l) ∉ lob.SellTree := by
    intro hn k l hk
    exact hb.sellSome (List.ne_nil_of_mem hk) hn
  have hBnil : lob.HighestBuy = none → ∀ k l, (k, l) ∉ lob.BuyTree := by
    intro hn k l hk
    exact hb.buySome (List.ne_nil_of_mem hk) hn
  cases hs : o2.IsSell with
  | true =>
    rw [hs] at hc
    rcases improveBest_spec lob1 lob.orders.length true o2.Price with ⟨hi, e⟩ | ⟨hi, e⟩
    · rw [e]
      simp only [setBest, if_true]
      constructor
      · intro p hp
        cases hp
        refine ⟨o2, g.new, hs, ?_⟩
        intro k l hk
        rcases hmS k l hk with ⟨_, h2⟩ | h
        · exact le_of_eq h2.symm
        · cases hL : lob.LowestSell with
          | none => exact absurd h (hSnil hL k l)
          | some b =>
            obtain ⟨o3, h3, _, h5, _⟩ := hsellOld b hL
            have := improves_true lob1 true o2.Price hi b o3 (by simp [bestOf, eS, hL]) h3
            simp only [if_true] at this
            exact le_of_lt (lt_of_lt_of_le this (h5 k l h))
      · intro p hp
        simp only at hp
        rw [eB] at hp
        obtain ⟨o3, h3, h4, h5, _⟩ := hbuyOld p hp
        refine ⟨o3, h3, h4, ?_⟩
        intro k l hk
        rcases hmB k l hk with ⟨h1, _⟩ | h
        · rw [hs] at h1
          cases h1
        · exact h5 k l h
      · intro _ h
        cases h
      · intro hne
        simp only at hne ⊢
        obtain ⟨e, he⟩ := List.exists_mem_of_ne_nil _ hne
        rcases hmB e.1 e.2 he with ⟨h1, _⟩ | h
        · rw [hs] at h1
          cases h1
        · rw [eB]
          exact hb.buySome (List.ne_nil_of_mem h)
      · intro a b oa ob ha hbb hoa hob
        simp only at ha hbb hoa hob
        cases ha
        rw [g.new] at hoa
        cases hoa
        rw [eB] at hbb
        obtain ⟨o3, h3, _, _, o, ho, hp⟩ := hbuyOld b hbb
        rw [h3] at hob
        cases hob
        have := crosses_false lob true _ hc b o (by simp [bestOf, hbb]) ho
        simp only [if_true] at this
        rw [hp]
        exact this
    · rw [e]
      obtain ⟨b, ob, h1, h2, h3⟩ := improves_false lob1 true o2.Price hi
      simp only [bestOf, if_true] at h1 h3
      rw [eS] at h1
      constructor
      · intro p hp
        rw [eS] at hp
        obtain ⟨o3, h4, h5, h6, _⟩ := hsellOld p hp
        refine ⟨o3, h4, h5, ?_⟩
        intro k l hk
        rcases hmS k l hk with ⟨_, h7⟩ | h
        · rw [h1] at hp
          cases hp
          rw [h2] at h4
          cases h4
          rw [h7]
          exact h3
        · exact h6 k l h
      · intro p hp
        rw [eB] at hp
        obtain ⟨o3, h3, h4, h5, _⟩ := hbuyOld p hp
        refine ⟨o3, h3, h4, ?_⟩
        intro k l hk
        rcases hmB k l hk with ⟨h1, _⟩ | h
        · rw [hs] at h1
          cases h1
        · exact h5 k l h
      · intro _
        rw [eS, h1]
        simp
      · intro hne
        obtain ⟨e, he⟩ := List.exists_mem_of_ne_nil _ hne
        rcases hmB e.1 e.2 he with ⟨h1, _⟩ | h
        · rw [hs] at h1
          cases h1
        · rw [eB]
          exact hb.buySome (List.ne_nil_of_mem h)
      · intro a b2 oa ob2 ha hbb hoa hob
        rw [eS] at ha
        rw [eB] at hbb
        obtain ⟨o3, h4, _, _, o, ho, hp⟩ := hsellOld a ha
        obtain ⟨o5, h6, _, _, o7, ho7, hp7⟩ := hbuyOld b2 hbb
        rw [h4] at hoa
        cases hoa
        rw [h6] at hob
        cases hob
        rw [hp, hp7]
        exact hb.uncrossed a b2 o o7 ha hbb ho ho7
  | false =>
    rw [hs] at hc
    rcases improveBest_spec lob1 lob.orders.length false o2.Price with ⟨hi, e⟩ | ⟨hi, e⟩
    · rw [e]
      simp only [setBest, if_false, Bool.false_eq_true]
      constructor
      · intro p hp
        simp only at hp
        rw [eS] at hp
        obtain ⟨o3, h3, h4, h5, _⟩ := hsellOld p hp
        refine ⟨o3, h3, h4, ?_⟩
        intro k l hk
        rcases hmS k l hk with ⟨h1, _⟩ | h
        · rw [hs] at h1
          cases h1
        · exact h5 k l h
      · intro p hp
        cases hp
        refine ⟨o2, g.new, hs, ?_⟩
        intro k l hk
        rcases hmB k l hk with ⟨_, h2⟩ | h
        · exact le_of_eq h2
        · cases hL : lob.HighestBuy with
          | none => exact absurd h (hBnil hL k l)
          | some b =>
            obtain ⟨o3, h3, _, h5, _⟩ := hbuyOld b hL
            have := improves_true lob1 false o2.Price hi b o3 (by simp [bestOf, eB, hL]) h3
            simp only [if_false, Bool.false_eq_true] at this
            exact le_of_lt (lt_of_le_of_lt (h5 k l h) this)
      · intro hne
        simp only at hne ⊢
        obtain ⟨e, he⟩ := List.exists_mem_of_ne_nil _ hne
        rcases hmS e.1 e.2 he with ⟨h1, _⟩ | h
        · rw [hs] at h1
          cases h1
        · rw [eS]
          exact hb.sellSome (List.ne_nil_of_mem h)
      · intro _ h
        cases h
      · intro a b oa ob ha hbb hoa hob
        simp only at ha hbb hoa hob
        cases hbb
        rw [g.new] at hob
        cases hob
        rw [eS] at ha
        obtain ⟨o3, h3, _, _, o, ho, hp⟩ := hsellOld a ha
        rw [h3] at hoa
        cases hoa
        have := crosses_false lob false _ hc a o (by simp [bestOf, ha]) ho
        simp only [if_false, Bool.false_eq_true] at this
        rw [hp]
        exact this
    · rw [e]
      obtain ⟨b, ob, h1, h2, h3⟩ := improves_false lob1 false o2.Price hi
      simp only [bestOf, if_false, Bool.false_eq_true] at h1 h3
      rw [eB] at h1
      constructor
      · intro p hp
        rw [eS] at hp
        obtain ⟨o3, h3, h4, h5, _⟩ := hsellOld p hp
        refine ⟨o3, h3, h4, ?_⟩
        intro k l hk
        rcases hmS k l hk with ⟨h1, _⟩ | h
        · rw [hs] at h1
          cases h1
        · exact h5 k l h
      · intro p hp
        rw [eB] at hp
        obtain ⟨o3, h4, h5, h6, _⟩ := hbuyOld p hp
        refine ⟨o3, h4, h5, ?_⟩
        intro k l hk
        rcases hmB k l hk with ⟨_, h7⟩ | h
        · rw [h1] at hp
          cases hp
          rw [h2] at h4
          cases h4
          rw [h7]
          exact h3
        · exact h6 k l h
      · intro hne
        obtain ⟨e, he⟩ := List.exists_mem_of_ne_nil _ hne
        rcases hmS e.1 e.2 he with ⟨h1, _⟩ | h
        · rw [hs] at h1
          cases h1
        · rw [eS]
          exact hb.sellSome (List.ne_nil_of_mem h)
      · intro _
        rw [eB, h1]
        simp
      · intro a b2 oa ob2 ha hbb hoa hob
        rw [eS] at ha
        rw [eB] at hbb
        obtain ⟨o3, h4, _, _, o, ho, hp⟩ := hsellOld a ha
        obtain ⟨o5, h6, _, _, o7, ho7, hp7⟩ := hbuyOld b2 hbb
        rw [h4] at hoa
        cases hoa
        rw [h6] at hob
        cases hob
        rw [hp, hp7]
        exact hb.uncrossed a b2 o o7 ha hbb ho ho7

theorem BestInv.shrink {lob lob2 : LimitOrderBook} (hb : BestInv lob)
    (e1 : lob2.orders = lob.orders) (eS : lob2.LowestSell = lob.LowestSell)
    (eB : lob2.HighestBuy = lob.HighestBuy)
    (hsub : ∀ s k l, (k, l) ∈ sideTree lob2 s → (k, l) ∈ sideTree lob s) : BestInv lob2 := by
  constructor
  · intro p hp
    rw [eS] at hp
    rw [e1]
    obtain ⟨o, h1, h2, h3⟩ := hb.bestSell p hp
    exact ⟨o, h1, h2, fun k l hk => h3 k l (hsub true k l hk)⟩
  · intro p hp
    rw [eB] at hp
    rw [e1]
    obtain ⟨o, h1, h2, h3⟩ := hb.bestBuy p hp
    exact ⟨o, h1, h2, fun k l hk => h3 k l (hsub false k l hk)⟩
  · intro hne
    obtain ⟨e, he⟩ := List.exists_mem_of_ne_nil _ hne
    rw [eS]
    exact hb.sellSome (List.ne_nil_of_mem (hsub true e.1 e.2 he))
  · intro hne
    obtain ⟨e, he⟩ := List.exists_mem_of_ne_nil _ hne
    rw [eB]
    exact hb.buySome (List.ne_nil_of_mem (hsub false e.1 e.2 he))
  · intro a b oa ob ha hbb hoa hob
    rw [eS] at ha
    rw [eB] at hbb
    rw [e1] at hoa hob
    exact hb.uncrossed a b oa ob ha hbb hoa hob

/-- The head order of an indexed level, with its side and price. -/
theorem HeapInv.head_of_level {lob : LimitOrderBook} (h : HeapInv lob) (s : Bool) (k : treeKey)
    (l : Nat) (hm : (k, l) ∈ sideTree lob s) (p : Nat)
    (hp : headOfLevel lob (some (k, l)) = some p) :
    ∃ o : Order, lob.orders[p]? = some o ∧ o.IsSell = s ∧ o.Price = k.val := by
  obtain ⟨L, hd, oh, hL, hP, hH, hoh, hpl, hs, _⟩ := h.treeLevel s k l hm
  simp only [headOfLevel, Option.some_bind, hL, hH, Option.some.injEq] at hp
  subst hp
  obtain ⟨l2, L2, h1, h2, h3⟩ := h.ordParent _ _ hoh
  rw [hpl] at h1
  cases h1
  rw [hL] at h2
  cases h2
  exact ⟨oh, hoh, hs, h3.symm.trans hP⟩

theorem HeapInv.head_of_level_some {lob : LimitOrderBook} (h : HeapInv lob) (s : Bool)
    (k : treeKey) (l : Nat) (hm : (k, l) ∈ sideTree lob s) :
    headOfLevel lob (some (k, l)) ≠ none := by
  obtain ⟨L, hd, oh, hL, hP, hH, _⟩ := h.treeLevel s k l hm
  simp [headOfLevel, hL, hH]

theorem BestInv.cancel_sell {lob lob2 : LimitOrderBook} (h : HeapInv lob) (hb : BestInv lob)
    (key : treeKey) (l : Nat) (rest : Tree) (po : Nat) (o : Order)
    (htree : lob.SellTree = (key, l) :: rest)
    (hS : lob.LowestSell = some po) (ho : lob.orders[po]? = some o)
    (hprice : o.Price = key.val)
    (e1 : lob2.orders = lob.orders) (e2 : lob2.SellTree = rest)
    (e3 : lob2.BuyTree = lob.BuyTree) (e4 : lob2.HighestBuy = lob.HighestBuy)
    (e5 : lob2.LowestSell = headOfLevel lob rest.head?) : BestInv lob2 := by
  have hsorted := h.treeSorted true
  simp only [sideTree, if_true] at hsorted
  rw [htree, List.pairwise_cons] at hsorted
  have hfirst : ∀ p, lob2.LowestSell = some p →
      ∃ (k1 : treeKey) (l1 : Nat) (rest2 : Tree) (o1 : Order), rest = (k1, l1) :: rest2 ∧
        lob.orders[p]? = some o1 ∧ o1.IsSell = true ∧ o1.Price = k1.val := by
    intro p hp
    rw [e5] at hp
    cases hr : rest with
    | nil =>
      rw [hr] at hp
      simp [headOfLevel] at hp
    | cons e rest2 =>
      obtain ⟨k1, l1⟩ := e
      rw [hr] at hp
      simp only [List.head?_cons] at hp
      have hm : (k1, l1) ∈ sideTree lob true := by
        simp only [sideTree, if_true]
        rw [htree, hr]
        simp
      obtain ⟨o1, h1, h2, h3⟩ := h.head_of_level true k1 l1 hm p hp
      exact ⟨k1, l1, rest2, o1, rfl, h1, h2, h3⟩
  constructor
  · intro p hp
    obtain ⟨k1, l1, rest2, o1, hr, h1, h2, h3⟩ := hfirst p hp
    rw [e1, e2]
    refine ⟨o1, h1, h2, ?_⟩
    intro k l2 hk
    rw [hr] at hk hsorted
    rw [h3]
    rcases List.mem_cons.1 hk with e | hk
    · cases e
      exact le_refl _
    · exact le_of_lt ((List.pairwise_cons.1 hsorted.2).1 _ hk)
  · intro p hp
    rw [e4] at hp
    rw [e1, e3]
    exact hb.bestBuy p hp
  · intro hne
    rw [e2] at hne
    rw [e5]
    cases hr : rest with
    | nil => exact absurd hr hne
    | cons e rest2 =>
      obtain ⟨k1, l1⟩ := e
      simp only [List.head?_cons]
      apply h.head_of_level_some true k1 l1
      simp only [sideTree, if_true]
      rw [htree, hr]
      simp
  · intro hne
    rw [e3] at hne
    rw [e4]
    exact hb.buySome hne
  · intro a b oa ob ha hbb hoa hob
    obtain ⟨k1, l1, rest2, o1, hr, h1, h2, h3⟩ := hfirst a ha
    rw [e1] at hoa hob
    rw [h1] at hoa
    cases hoa
    rw [e4] at hbb
    have hlt := hb.uncrossed po b o ob hS hbb ho hob
    have hk : key.val < k1.val := hsorted.1 (k1, l1) (by rw [hr]; simp)
    omega

theorem sorted_getLast_max (t : Tree) (e : treeKey × Nat)
    (hs : t.Pairwise (fun a b => a.1.val < b.1.val)) (hl : t.getLast? = some e) :
    e ∈ t ∧ ∀ x ∈ t, x.1.val ≤ e.1.val := by
  rcases List.eq_nil_or_concat t with hi | ⟨t2, e2, hi⟩
  · subst hi
    simp at hl
  · subst hi
    simp only [List.concat_eq_append, List.getLast?_append, List.getLast?_singleton,
      Option.or, Option.some.injEq] at hl
    subst hl
    rw [List.concat_eq_append, List.pairwise_append] at hs
    refine ⟨by simp, ?_⟩
    intro x hx
    rw [List.concat_eq_append, List.mem_append] at hx
    rcases hx with hx | hx
    · exact le_of_lt (hs.2.2 x hx e2 (by simp))
    · simp only [List.mem_singleton] at hx
      rw [hx]

theorem BestInv.cancel_buy {lob lob2 : LimitOrderBook} (h : HeapInv lob) (hb : BestInv lob)
    (key : treeKey) (l : Nat) (init : Tree) (po : Nat) (o : Order)
    (htree : lob.BuyTree = init ++ [(key, l)])
    (hS : lob.HighestBuy = some po) (ho : lob.orders[po]? = some o)
    (hprice : o.Price = key.val)
    (e1 : lob2.orders = lob.orders) (e2 : lob2.BuyTree = init)
    (e3 : lob2.SellTree = lob.SellTree) (e4 : lob2.LowestSell = lob.LowestSell)
    (e5 : lob2.HighestBuy = headOfLevel lob init.getLast?) : BestInv lob2 := by
  have hsorted := h.treeSorted false
  simp only [sideTree, if_false, Bool.false_eq_true] at hsorted
  rw [htree, List.pairwise_append] at hsorted
  have hfirst : ∀ p, lob2.HighestBuy = some p →
      ∃ (k1 : treeKey) (l1 : Nat) (o1 : Order), init.getLast? = some (k1, l1) ∧
        lob.orders[p]? = some o1 ∧ o1.IsSell = false ∧ o1.Price = k1.val := by
    intro p hp
    rw [e5] at hp
    cases hr : init.getLast? with
    | none =>
      rw [hr] at hp
      simp [headOfLevel] at hp
    | some e =>
      obtain ⟨k1, l1⟩ := e
      rw [hr] at hp
      have hm : (k1, l1) ∈ sideTree lob false := by
        simp only [sideTree, if_false, Bool.false_eq_true]
        rw [htree]
        exact List.mem_append_left _ (sorted_getLast_max init _ hsorted.1 hr).1
      obtain ⟨o1, h1, h2, h3⟩ := h.head_of_level false k1 l1 hm p hp
      exact ⟨k1, l1, o1, rfl, h1, h2, h3⟩
  constructor
  · intro p hp
    rw [e4] at hp
    rw [e1, e3]
    exact hb.bestSell p hp
  · intro p hp
    obtain ⟨k1, l1, o1, hr, h1, h2, h3⟩ := hfirst p hp
    rw [e1, e2]
    refine ⟨o1, h1, h2, ?_⟩
    intro k l2 hk
    rw [h3]
    exact (sorted_getLast_max init _ hsorted.1 hr).2 (k, l2) hk
  · intro hne
    rw [e3] at hne
    rw [e4]
    exact hb.sellSome hne
  · intro hne
    rw [e2] at hne
    rw [e5]
    cases hr : init.getLast? with
    | none =>
      rw [List.getLast?_eq_none_iff] at hr
      exact absurd hr hne
    | some e =>
      obtain ⟨k1, l1⟩ := e
      apply h.head_of_level_some false k1 l1
      simp only [sideTree, if_false, Bool.false_eq_true]
      rw [htree]
      exact List.mem_append_left _ (sorted_getLast_max init _ hsorted.1 hr).1
  · intro a b oa ob ha hbb hoa hob
    obtain ⟨k1, l1, o1, hr, h1, h2, h3⟩ := hfirst b hbb
    rw [e1] at hoa hob
    rw [h1] at hob
    cases hob
    rw [e4] at ha
    have hlt := hb.uncrossed a po oa o ha hS hoa ho
    have hk : k1.val < key.val :=
      hsorted.2.2 (k1, l1) (sorted_getLast_max init _ hsorted.1 hr).1 (key, l) (by simp)
    omega

theorem Inv.readable {lob : LimitOrderBook} (h : Inv lob) : CacheReadable lob := by
  intro s p hp
  cases s
  · simp only [bestOf, if_false, Bool.false_eq_true] at hp
    obtain ⟨o, ho, _⟩ := h.best.bestBuy p hp
    obtain ⟨l, L, h1, h2, _⟩ := h.heap.ordParent p o ho
    exact ⟨o, l, L, ho, h1, h2⟩
  · simp only [bestOf, if_true] at hp
    obtain ⟨o, ho, _⟩ := h.best.bestSell p hp
    obtain ⟨l, L, h1, h2, _⟩ := h.heap.ordParent p o ho
    exact ⟨o, l, L, ho, h1, h2⟩

theorem CacheReadable.congr {a b : LimitOrderBook} (h : CacheReadable a)
    (e1 : b.orders = a.orders) (e2 : b.limits = a.limits) (e3 : b.LowestSell = a.LowestSell)
    (e4 : b.HighestBuy = a.HighestBuy) : CacheReadable b := by
  intro s p hp
  have : bestOf a s = some p := by
    rw [← hp]
    unfold bestOf
    rw [e3, e4]
  obtain ⟨o, l, L, h1, h2, h3⟩ := h s p this
  exact ⟨o, l, L, by rw [e1]; exact h1, h2, by rw [e2]; exact h3⟩

theorem NewOrder_reject (lob : LimitOrderBook) (uid price qty : Int) (isSell : Bool) (id : Int)
    (hlock : lob.Lock = false) (hr : CacheReadable lob)
    (hc : crosses lob isSell price = true) :
    NewOrder lob uid price qty isSell id = .ok
      (lob, [getOrderOutput false ⟨id, uid, price, qty, isSell, none, none, none⟩], none) := by
  have hcheck := CheckBookCrossed_ok { lob with Lock := true }
    ⟨id, uid, price, qty, isSell, none, none, none⟩
    (by
      intro s p hp
      obtain ⟨ob, _, _, h, _⟩ := hr s p (by simpa [bestOf] using hp)
      exact ⟨ob, h⟩)
  have hc2 : crosses { lob with Lock := true } isSell price = true := by
    rw [← hc]; rfl
  simp only [hc2] at hcheck
  unfold NewOrder
  simp only [lockLock, hlock, hcheck, bind, Except.bind, pure, Except.pure, if_true,
    Bool.false_eq_true, if_false]
  rw [unlock_relock lob hlock]

theorem NewOrder_tail_nil (lob : LimitOrderBook) (uid price qty : Int) (isSell : Bool)
    (id : Int) (n l : Nat) (L : Limit)
    (hlock : lob.Lock = false) (hr : CacheReadable lob)
    (hc : crosses lob isSell price = false)
    (hsearch : Tree.Search (sideTree lob isSell) ⟨price⟩ = some n)
    (hval : Tree.Value (sideTree lob isSell) n = some l)
    (hL : lob.limits[l]? = some L) (hT : L.TailOrder = none) :
    NewOrder lob uid price qty isSell id = .error Fault.nilDeref := by
  have hcheck := CheckBookCrossed_ok { lob with Lock := true }
    ⟨id, uid, price, qty, isSell, none, none, none⟩
    (by
      intro s p hp
      obtain ⟨ob, _, _, h, _⟩ := hr s p (by simpa [bestOf] using hp)
      exact ⟨ob, h⟩)
  have hc2 : crosses { lob with Lock := true } isSell price = false := by
    rw [← hc]; rfl
  simp only [hc2] at hcheck
  unfold NewOrder
  cases isSell <;>
  · simp only [sideTree, if_true, if_false, Bool.false_eq_true] at hsearch hval
    simp [lockLock, hlock, hcheck, bind, Except.bind, pure, Except.pure, getOrderTree,
      hsearch, hval, derefLimit, hL, hT, updOrder]

theorem CancelOrder_absent (lob : LimitOrderBook) (id : Int) (hlock : lob.Lock = false)
    (hget : mapGet lob.OrdersByID id = none) :
    CancelOrder lob id = .ok ({ lob with Lock := true }, [], some (notFound id)) := by
  unfold CancelOrder
  simp [lockLock, hlock, bind, Except.bind, pure, Except.pure, hget]

theorem CancelOrder_found (lob : LimitOrderBook) (id : Int) (po : Nat) (o : Order)
    (r : LimitOrderBook) (tob : Bool) (hlock : lob.Lock = false)
    (hget : mapGet lob.OrdersByID id = some po) (ho : lob.orders[po]? = some o)
    (hci : cancelOrderIndexes { lob with Lock := true } po = .ok (r, tob))
    (hread : CacheReadable r) :
    ∃ out, CancelOrder lob id = .ok
      (lockUnlock { r with OrdersByID := mapDelete r.OrdersByID id },
       getOrderOutput true o :: out, none) := by
  obtain ⟨s, hs⟩ := getTobOutput_ok { r with OrdersByID := mapDelete r.OrdersByID id } o.IsSell
    (hread.congr rfl rfl rfl rfl)
  unfold CancelOrder
  cases tob with
  | false =>
    exact ⟨[], by simp [lockLock, hlock, bind, Except.bind, pure, Except.pure, hget, derefOrder,
      ho, hci]⟩
  | true =>
    exact ⟨[s], by simp [lockLock, hlock, bind, Except.bind, pure, Except.pure, hget, derefOrder,
      ho, hci, hs]⟩

theorem improveBest_orders (lob : LimitOrderBook) (po : Nat) (s : Bool) (price : Int) :
    (improveBest lob po s price).orders = lob.orders := by
  unfold improveBest setBest; split_ifs <;> rfl

theorem improveBest_limits (lob : LimitOrderBook) (po : Nat) (s : Bool) (price : Int) :
    (improveBest lob po s price).limits = lob.limits := by
  unfold improveBest setBest; split_ifs <;> rfl

theorem improveBest_table (lob : LimitOrderBook) (po : Nat) (s : Bool) (price : Int) :
    (improveBest lob po s price).OrdersByID = lob.OrdersByID := by
  unfold improveBest setBest; split_ifs <;> rfl

theorem improveBest_tree (lob : LimitOrderBook) (po : Nat) (s : Bool) (price : Int) (s2 : Bool) :
    sideTree (improveBest lob po s price) s2 = sideTree lob s2 := by
  unfold improveBest setBest sideTree; split_ifs <;> rfl

theorem placeNew_orders (lob : LimitOrderBook) (o : Order) :
    (placeNew lob o).orders
      = lob.orders ++ [{ o with ParentLimit := some lob.limits.length }] := by
  unfold placeNew setOrderTree; split_ifs <;> rfl

theorem placeNew_limits (lob : LimitOrderBook) (o : Order) :
    (placeNew lob o).limits = lob.limits ++
      [{ Price := o.Price, Size := 1, TotalVolume := o.Quantity,
         HeadOrder := some lob.orders.length, TailOrder := some lob.orders.length }] := by
  unfold placeNew setOrderTree; split_ifs <;> rfl

theorem placeNew_table (lob : LimitOrderBook) (o : Order) :
    (placeNew lob o).OrdersByID = mapSet lob.OrdersByID o.ID lob.orders.length := by
  unfold placeNew setOrderTree; split_ifs <;> rfl

theorem placeNew_best (lob : LimitOrderBook) (o : Order) :
    (placeNew lob o).LowestSell = lob.LowestSell ∧
    (placeNew lob o).HighestBuy = lob.HighestBuy := by
  unfold placeNew setOrderTree; split_ifs <;> exact ⟨rfl, rfl⟩

theorem placeNew_tree_same (lob : LimitOrderBook) (o : Order) :
    sideTree (placeNew lob o) o.IsSell
      = Tree.Insert (sideTree lob o.IsSell) ⟨o.Price⟩ lob.limits.length := by
  unfold placeNew setOrderTree getOrderTree sideTree
  cases o.IsSell <;> rfl

theorem placeNew_tree_other (lob : LimitOrderBook) (o : Order) :
    sideTree (placeNew lob o) (!o.IsSell) = sideTree lob (!o.IsSell) := by
  unfold placeNew setOrderTree getOrderTree sideTree
  cases o.IsSell <;> rfl

theorem placeNew_grows (lob : LimitOrderBook) (o : Order) :
    Grows lob.orders (placeNew lob o).orders { o with ParentLimit := some lob.limits.length }
      none := by
  rw [placeNew_orders]
  constructor
  · simp
  · simp
  · intro p o3 h _
    rw [List.getElem?_append_left (List.getElem?_eq_some.1 h).1]
    exact h
  · intro p o3 _ e
    cases e

theorem placeAppend_grows (lob : LimitOrderBook) (o : Order) (l t : Nat) (L : Limit)
    (ot : Order) (hot : lob.orders[t]? = some ot) :
    Grows lob.orders (placeAppend lob o l t L ot).orders { o with ParentLimit := some l }
      (some t) := by
  have ht : t < lob.orders.length := (List.getElem?_eq_some.1 hot).1
  constructor
  · exact placeAppend_orders_new lob o l t L ot
  · exact placeAppend_orders_length lob o l t L ot
  · intro p o3 h hne
    rw [placeAppend_orders_ne lob o l t L ot p (List.getElem?_eq_some.1 h).1
      (fun e => hne (by rw [e]))]
    exact h
  · intro p o3 h e
    cases e
    rw [hot] at h
    cases h
    exact placeAppend_orders_t lob o l t L ot ht

/-- What an accepted or rejected submit leaves behind, under the invariant. -/
theorem NewOrder_spec (lob : LimitOrderBook) (uid price qty : Int) (isSell : Bool) (id : Int)
    (h : Inv lob) (hlock : lob.Lock = false) (habs : ∀ p, (id, p) ∉ lob.OrdersByID)
    (r : Ret) (hr : NewOrder lob uid price qty isSell id = .ok r) :
    Inv r.1 ∧ r.1.Lock = false ∧ r.2.2 = none ∧
    ((crosses lob isSell price = true ∧ r.1 = lob ∧
        r.2.1 = [getOrderOutput false ⟨id, uid, price, qty, isSell, none, none, none⟩]) ∨
     (crosses lob isSell price = false ∧
        r.1.OrdersByID = (id, lob.orders.length) :: lob.OrdersByID ∧
        r.1.orders.length = lob.orders.length + 1 ∧
        ∃ out, r.2.1
          = getOrderOutput true ⟨id, uid, price, qty, isSell, none, none, none⟩ :: out)) := by
  have hread := h.readable
  cases hc : crosses lob isSell price with
  | true =>
    rw [NewOrder_reject lob uid price qty isSell id hlock hread hc] at hr
    cases hr
    exact ⟨h, hlock, rfl, Or.inl ⟨rfl, rfl, rfl⟩⟩
  | false =>
    have htab : mapSet lob.OrdersByID id lob.orders.length
        = (id, lob.orders.length) :: lob.OrdersByID := by
      unfold mapSet
      rw [mapDelete_of_absent _ _ habs]
    cases hsearch : Tree.Search (sideTree lob isSell) ⟨price⟩ with
    | none =>
      obtain ⟨out, hout⟩ := NewOrder_new lob uid price qty isSell id hlock hread hc hsearch
      rw [hout] at hr
      cases hr
      have hnone := (search_none _ _).1 hsearch
      refine ⟨⟨?_, ?_⟩, ?_, rfl, Or.inr ⟨rfl, ?_, ?_, out, rfl⟩⟩
      · apply h.heap.place_new
          ⟨id, uid, price, qty, isSell, none, none, some lob.limits.length⟩ qty rfl rfl rfl
        · rw [improveBest_orders]
          exact placeNew_grows lob ⟨id, uid, price, qty, isSell, none, none, none⟩
        · rw [improveBest_limits, placeNew_limits]
        · rw [improveBest_table, placeNew_table]
          exact htab
        · exact habs
        · exact hnone
        · rw [improveBest_tree]
          exact placeNew_tree_same lob ⟨id, uid, price, qty, isSell, none, none, none⟩
        · rw [improveBest_tree]
          exact placeNew_tree_other lob ⟨id, uid, price, qty, isSell, none, none, none⟩
      · apply h.best.place ⟨id, uid, price, qty, isSell, none, none, some lob.limits.length⟩
          none (placeNew_grows lob ⟨id, uid, price, qty, isSell, none, none, none⟩) hc
          (placeNew_best _ _).1 (placeNew_best _ _).2
        intro s k l hk
        rcases side_cases s isSell with e | e
        · subst e
          have := placeNew_tree_same lob ⟨id, uid, price, qty, s, none, none, none⟩
          simp only at this
          rw [this, mem_insert _ _ _ hnone] at hk
          rcases hk with hk | hk
          · cases hk
            exact Or.inl ⟨rfl, rfl⟩
          · exact Or.inr hk
        · subst e
          have := placeNew_tree_other lob ⟨id, uid, price, qty, isSell, none, none, none⟩
          simp only at this
          rw [this] at hk
          exact Or.inr hk
      · rw [improveBest_Lock, placeNew_Lock]
        exact hlock
      · rw [improveBest_table, placeNew_table]
        exact htab
      · rw [improveBest_orders, placeNew_orders]
        simp
    | some n =>
      obtain ⟨l, hl⟩ := search_some _ _ _ hsearch
      have hval : Tree.Value (sideTree lob isSell) n = some l := by
        simp [Tree.Value, hl]
      have hk : (({ val := price } : treeKey), l) ∈ sideTree lob isSell := List.getElem?_mem hl
      obtain ⟨L, hd, oh, hL, hP, hH, hoh, hpl, hs, hsz, h1, htl⟩ := h.heap.treeLevel _ _ _ hk
      cases hT : L.TailOrder with
      | none =>
        rw [NewOrder_tail_nil lob uid price qty isSell id n l L hlock hread hc hsearch hval hL hT]
          at hr
        cases hr
      | some t =>
        obtain ⟨_, ot, hot, _⟩ := htl t hT
        obtain ⟨out, hout⟩ := NewOrder_append lob uid price qty isSell id n l t L ot hlock hread
          hc hsearch hval hL hT hot
        rw [hout] at hr
        cases hr
        refine ⟨⟨?_, ?_⟩, ?_, rfl, Or.inr ⟨rfl, ?_, ?_, out, rfl⟩⟩
        · apply h.heap.place_append ⟨id, uid, price, qty, isSell, none, none, some l⟩ l t L
            { L with
              TailOrder := some lob.orders.length
              Size := L.Size + 1
              TotalVolume := wrapInt (L.TotalVolume + qty) } rfl rfl rfl hk hL hT
          · rw [improveBest_orders]
            exact placeAppend_grows lob ⟨id, uid, price, qty, isSell, none, none, none⟩ l t L ot
              hot
          · rw [improveBest_limits]
            rfl
          · rfl
          · rfl
          · rfl
          · rfl
          · rw [improveBest_table]
            exact htab
          · exact habs
          · intro s
            rw [improveBest_tree]
            rfl
        · apply h.best.place ⟨id, uid, price, qty, isSell, none, none, some l⟩ (some t)
            (placeAppend_grows lob ⟨id, uid, price, qty, isSell, none, none, none⟩ l t L ot hot)
            hc rfl rfl
          intro s k l2 hk2
          exact Or.inr hk2
        · rw [improveBest_Lock]
          exact hlock
        · rw [improveBest_table]
          exact htab
        · rw [improveBest_orders, placeAppend_orders_length]

/-- What a cancel of a resting order leaves behind, under the invariant. -/
theorem CancelOrder_found_spec (lob : LimitOrderBook) (id : Int) (po : Nat)
    (h : Inv lob) (hlock : lob.Lock = false) (hget : mapGet lob.OrdersByID id = some po) :
    ∃ (lob2 : LimitOrderBook) (out : List String) (o : Order),
      CancelOrder lob id = .ok (lob2, getOrderOutput true o :: out, none) ∧
      lob.orders[po]? = some o ∧ o.ID = id ∧
      lob2.OrdersByID = mapDelete lob.OrdersByID id ∧ lob2.orders = lob.orders ∧
      lob2.Lock = false ∧ Inv lob2 := by
  have hmem := mapGet_some _ _ _ hget
  obtain ⟨o, l, L, hd, oh, ho, hid, hl, hL, hP, hk, hH, hoh, hpl, hs, hc, hsize, h1, _, _⟩ :=
    h.heap.cancel_facts id po hmem
  have hk' : (({ val := L.Price } : treeKey), l) ∈ sideTree lob o.IsSell := by
    rw [hP]; exact hk
  -- the cached best of the order's own side exists
  have hbest : ∃ b ob, bestOf lob o.IsSell = some b ∧ lob.orders[b]? = some ob := by
    cases hsS : o.IsSell with
    | true =>
      rw [hsS] at hk
      simp only [sideTree, if_true] at hk
      cases hLS : lob.LowestSell with
      | none => exact absurd hLS (h.best.sellSome (List.ne_nil_of_mem hk))
      | some b =>
        obtain ⟨ob, hob, _⟩ := h.best.bestSell b hLS
        exact ⟨b, ob, by simp [bestOf, hLS], hob⟩
    | false =>
      rw [hsS] at hk
      simp only [sideTree, if_false, Bool.false_eq_true] at hk
      cases hLS : lob.HighestBuy with
      | none => exact absurd hLS (h.best.buySome (List.ne_nil_of_mem hk))
      | some b =>
        obtain ⟨ob, hob, _⟩ := h.best.bestBuy b hLS
        exact ⟨b, ob, by simp [bestOf, hLS], hob⟩
  -- it is enough to know what `cancelOrderIndexes` returns and that the invariant holds after
  have hfin : ∀ (r : LimitOrderBook) (tob : Bool),
      cancelOrderIndexes { lob with Lock := true } po = .ok (r, tob) →
      r.orders = lob.orders →
      Inv (lockUnlock { r with OrdersByID := mapDelete lob.OrdersByID id }) →
      r.OrdersByID = lob.OrdersByID →
      ∃ (lob2 : LimitOrderBook) (out : List String) (o2 : Order),
        CancelOrder lob id = .ok (lob2, getOrderOutput true o2 :: out, none) ∧
        lob.orders[po]? = some o2 ∧ o2.ID = id ∧
        lob2.OrdersByID = mapDelete lob.OrdersByID id ∧ lob2.orders = lob.orders ∧
        lob2.Lock = false ∧ Inv lob2 := by
    intro r tob hci hord hinv htab
    have hread : CacheReadable r := hinv.readable.congr rfl rfl rfl rfl
    obtain ⟨out, hout⟩ := CancelOrder_found lob id po o r tob hlock hget ho hci hread
    rw [htab] at hout
    exact ⟨_, out, o, hout, ho, hid, rfl, hord, rfl, hinv⟩
  by_cases hsz : L.Size = 1
  · by_cases hLS : lob.LowestSell = some po
    · -- the cancelled order is the cached best ask and the last of its level
      obtain ⟨o3, ho3, hsell, hmin⟩ := h.best.bestSell po hLS
      rw [ho] at ho3
      cases ho3
      rw [hsell] at hk'
      simp only [sideTree, if_true] at hk'
      have hsorted := h.heap.treeSorted true
      simp only [sideTree, if_true] at hsorted
      obtain ⟨rest, hrest⟩ := sorted_head_of_min lob.SellTree ⟨L.Price⟩ l hsorted hk'
        (fun k w hkw => by rw [hP]; exact hmin k w hkw)
      have hrl : ∀ e, rest.head? = some e → ∃ L1, lob.limits[e.2]? = some L1 := by
        intro e he
        have hm : e ∈ sideTree lob true := by
          simp only [sideTree, if_true]
          rw [hrest]
          exact List.mem_cons_of_mem _ (List.mem_of_mem_head? he)
        obtain ⟨L1, _, _, hL1, _⟩ := h.heap.treeLevel true e.1 e.2 hm
        exact ⟨L1, hL1⟩
      have hci := cancelOrderIndexes_one_sell { lob with Lock := true } po l o L rest ho hl hL
        hsz hLS hsell hrest hrl
      apply hfin _ _ hci rfl _ rfl
      refine ⟨?_, ?_⟩
      · apply h.heap.cancel_one id po o l L hmem ho hl hL hsz
        · rfl
        · rfl
        · rfl
        · rw [hsell]
          show rest = Tree.Delete lob.SellTree _
          rw [hrest]
          simp [Tree.Delete, compare_eq_zero]
        · rw [hsell]
          rfl
      · apply h.best.cancel_sell h.heap ⟨L.Price⟩ l rest po o hrest hLS ho hP.symm
        · rfl
        · rfl
        · rfl
        · rfl
        · rfl
    · by_cases hHB : lob.HighestBuy = some po
      · obtain ⟨o3, ho3, hsell, hmax⟩ := h.best.bestBuy po hHB
        rw [ho] at ho3
        cases ho3
        rw [hsell] at hk'
        simp only [sideTree, if_false, Bool.false_eq_true] at hk'
        have hsorted := h.heap.treeSorted false
        simp only [sideTree, if_false, Bool.false_eq_true] at hsorted
        obtain ⟨init, hinit⟩ := sorted_last_of_max lob.BuyTree ⟨L.Price⟩ l hsorted hk'
          (fun k w hkw => by rw [hP]; exact hmax k w hkw)
        have hil : ∀ e, init.getLast? = some e → ∃ L1, lob.limits[e.2]? = some L1 := by
          intro e he
          have hm : e ∈ sideTree lob false := by
            simp only [sideTree, if_false, Bool.false_eq_true]
            rw [hinit]
            have hsi : init.Pairwise (fun a b => a.1.val < b.1.val) := by
              rw [hinit, List.pairwise_append] at hsorted
              exact hsorted.1
            exact List.mem_append_left _ (sorted_getLast_max init e hsi he).1
          obtain ⟨L1, _, _, hL1, _⟩ := h.heap.treeLevel false e.1 e.2 hm
          exact ⟨L1, hL1⟩
        have hci := cancelOrderIndexes_one_buy { lob with Lock := true } po l o L init ho hl hL
          hsz hLS hHB hsell hinit hsorted hil
        apply hfin _ _ hci rfl _ rfl
        refine ⟨?_, ?_⟩
        · apply h.heap.cancel_one id po o l L hmem ho hl hL hsz
          · rfl
          · rfl
          · rfl
          · rw [hsell]
            show init = Tree.Delete lob.BuyTree _
            rw [hinit]
            rw [hinit] at hsorted
            exact (delete_append_last init _ l hsorted).symm
          · rw [hsell]
            rfl
        · apply h.best.cancel_buy h.heap ⟨L.Price⟩ l init po o hinit hHB ho hP.symm
          · rfl
          · rfl
          · rfl
          · rfl
          · rfl
      · have hci := cancelOrderIndexes_one_other { lob with Lock := true } po l o L ho hl hL
          hsz hLS hHB
        apply hfin _ _ hci (by unfold setOrderTree; split_ifs <;> rfl) _
          (by unfold setOrderTree; split_ifs <;> rfl)
        have e4 : ∀ (b : Bool), o.IsSell = b →
            sideTree (lockUnlock { setOrderTree { lob with Lock := true } o
              ((getOrderTree { lob with Lock := true } o).Delete ⟨L.Price⟩) with
              OrdersByID := mapDelete lob.OrdersByID id }) o.IsSell
              = Tree.Delete (sideTree lob o.IsSell) ⟨L.Price⟩ ∧
            sideTree (lockUnlock { setOrderTree { lob with Lock := true } o
              ((getOrderTree { lob with Lock := true } o).Delete ⟨L.Price⟩) with
              OrdersByID := mapDelete lob.OrdersByID id }) (!o.IsSell)
              = sideTree lob (!o.IsSell) := by
          intro b hb
          unfold setOrderTree getOrderTree
          rw [hb]
          cases b <;> exact ⟨rfl, rfl⟩
        obtain ⟨e4a, e4b⟩ := e4 o.IsSell rfl
        refine ⟨?_, ?_⟩
        · apply h.heap.cancel_one id po o l L hmem ho hl hL hsz
          · unfold setOrderTree; split_ifs <;> rfl
          · unfold setOrderTree; split_ifs <;> rfl
          · unfold setOrderTree; split_ifs <;> rfl
          · exact e4a
          · exact e4b
        · apply h.best.shrink
          · unfold setOrderTree; split_ifs <;> rfl
          · unfold setOrderTree; split_ifs <;> rfl
          · unfold setOrderTree; split_ifs <;> rfl
          · intro s k l2 hk2
            rcases side_cases s o.IsSell with e | e
            · subst e
              rw [e4a] at hk2
              exact (delete_sublist _ _).subset hk2
            · subst e
              rw [e4b] at hk2
              exact hk2
  · obtain ⟨b, ob, hb, hob⟩ := hbest
    have hci := cancelOrderIndexes_many { lob with Lock := true } po l b o ob L ho hl hL hsz
      (h.heap.ordPrev po o ho)
      (by
        intro n hn
        obtain ⟨_, o2, h2, _⟩ := h.heap.ordNext po o n ho hn
        exact ⟨o2, h2, h.heap.ordPrev n o2 h2⟩)
      hb hob
    apply hfin _ _ hci rfl _ rfl
    refine ⟨?_, ?_⟩
    · apply h.heap.cancel_many id po o l L hmem ho hl hL hsz
      · rfl
      · rfl
      · rfl
      · intro _
        rfl
    · apply h.best.shrink
      · rfl
      · rfl
      · rfl
      · intro _ _ _ hk2
        exact hk2

theorem HeapInv.lock_heap {lob : LimitOrderBook} (h : HeapInv lob) (b : Bool) :
    HeapInv { lob with Lock := b } :=
  ⟨h.keysNodup, h.tableValid, h.ordPrev, h.ordParent, h.ordNext, h.treeSorted, h.treeLevel,
    h.resting⟩

theorem BestInv.lock_best {lob : LimitOrderBook} (h : BestInv lob) (b : Bool) :
    BestInv { lob with Lock := b } :=
  ⟨h.bestSell, h.bestBuy, h.sellSome, h.buySome, h.uncrossed⟩

theorem Inv.lock_flag {lob : LimitOrderBook} (h : Inv lob) (b : Bool) :
    Inv { lob with Lock := b } :=
  ⟨h.heap.lock_heap b, h.best.lock_best b⟩

theorem Inv.empty : Inv NewLimitOrderBook := by
  refine ⟨⟨?_, ?_, ?_, ?_, ?_, ?_, ?_, ?_⟩, ⟨?_, ?_, ?_, ?_, ?_⟩⟩ <;>
    simp [NewLimitOrderBook, sideTree]

theorem step_locked (lob : LimitOrderBook) (c : Cmd) (h : lob.Lock = true) :
    step lob c = .error Fault.deadlock := by
  cases c <;> simp [step, NewOrder, CancelOrder, lockLock, h, bind, Except.bind]

/-- One call, under the invariant: the invariant holds afterwards, the arena only
grows, and the ID table changes by the one entry the call is about. -/
theorem step_spec (lob : LimitOrderBook) (c : Cmd) (h : Inv lob)
    (hfresh : ∀ p, ∀ id ∈ submittedIDs [c], (id, p) ∉ lob.OrdersByID)
    (r : Ret) (hr : step lob c = .ok r) :
    Inv r.1 ∧ lob.orders.length ≤ r.1.orders.length ∧
    (∀ id p, (id, p) ∈ r.1.OrdersByID →
      (id, p) ∈ lob.OrdersByID ∨ (id ∈ submittedIDs [c] ∧ lob.orders.length ≤ p)) ∧
    (∀ id p, (id, p) ∈ lob.OrdersByID → (id, p) ∈ r.1.OrdersByID ∨ c = .cancel id) := by
  have hlock : lob.Lock = false := by
    cases hl : lob.Lock with
    | false => rfl
    | true =>
      rw [step_locked lob c hl] at hr
      cases hr
  cases c with
  | submit uid price qty isSell id =>
    have habs : ∀ p, (id, p) ∉ lob.OrdersByID := fun p => hfresh p id (by simp [submittedIDs])
    obtain ⟨h1, _, _, h4⟩ := NewOrder_spec lob uid price qty isSell id h hlock habs r hr
    refine ⟨h1, ?_, ?_, ?_⟩
    · rcases h4 with ⟨_, e, _⟩ | ⟨_, _, e, _⟩
      · rw [e]
      · rw [e]; omega
    · intro id2 p2 hm
      rcases h4 with ⟨_, e, _⟩ | ⟨_, e, _, _⟩
      · rw [e] at hm
        exact Or.inl hm
      · rw [e] at hm
        rcases List.mem_cons.1 hm with e2 | hm
        · cases e2
          exact Or.inr ⟨by simp [submittedIDs], le_refl _⟩
        · exact Or.inl hm
    · intro id2 p2 hm
      rcases h4 with ⟨_, e, _⟩ | ⟨_, e, _, _⟩
      · rw [e]
        exact Or.inl hm
      · rw [e]
        exact Or.inl (List.mem_cons_of_mem _ hm)
  | cancel id =>
    simp only [step] at hr
    cases hget : mapGet lob.OrdersByID id with
    | none =>
      rw [CancelOrder_absent lob id hlock hget] at hr
      cases hr
      exact ⟨h.lock_flag true, le_refl _, fun _ _ hm => Or.inl hm, fun _ _ hm => Or.inl hm⟩
    | some po =>
      obtain ⟨lob2, out, o, h1, _, _, h4, h5, _, h7⟩ :=
        CancelOrder_found_spec lob id po h hlock hget
      rw [h1] at hr
      cases hr
      refine ⟨h7, by simp only [h5]; exact le_refl _, ?_, ?_⟩
      · intro id2 p2 hm
        simp only [h4] at hm
        exact Or.inl ((mem_mapDelete _ _ _).1 hm).1
      · intro id2 p2 hm
        by_cases e : id2 = id
        · subst e
          exact Or.inr rfl
        · left
          simp only [h4]
          exact (mem_mapDelete _ _ _).2 ⟨hm, e⟩

theorem submittedIDs_append (xs ys : List Cmd) :
    submittedIDs (xs ++ ys) = submittedIDs xs ++ submittedIDs ys := by
  induction xs with
  | nil => rfl
  | cons c cs ih =>
    cases c <;> simp [submittedIDs, ih]

/-- A run, under the invariant and with IDs that are not reused. -/
theorem run_spec (cmds : List Cmd) : ∀ (lob lob2 : LimitOrderBook) (used : List Int),
    Inv lob → (∀ id p, (id, p) ∈ lob.OrdersByID → id ∈ used) →
    (used ++ submittedIDs cmds).Nodup → run lob cmds = .ok lob2 →
    Inv lob2 ∧ lob.orders.length ≤ lob2.orders.length ∧
    (∀ id p, (id, p) ∈ lob2.OrdersByID →
      (id, p) ∈ lob.OrdersByID ∨ (id ∈ submittedIDs cmds ∧ lob.orders.length ≤ p)) := by
  induction cmds with
  | nil =>
    intro lob lob2 used h _ _ hr
    simp only [run] at hr
    cases hr
    exact ⟨h, le_refl _, fun _ _ hm => Or.inl hm⟩
  | cons c cs ih =>
    intro lob lob2 used h hused hnd hr
    simp only [run] at hr
    cases hs : step lob c with
    | error e =>
      rw [hs] at hr
      cases hr
    | ok r =>
      rw [hs] at hr
      simp only at hr
      have hsplit : submittedIDs (c :: cs) = submittedIDs [c] ++ submittedIDs cs :=
        submittedIDs_append [c] cs
      rw [hsplit, ← List.append_assoc] at hnd
      have hnd1 : (used ++ submittedIDs [c]).Nodup := (List.nodup_append.1 hnd).1
      have hfresh : ∀ p, ∀ id ∈ submittedIDs [c], (id, p) ∉ lob.OrdersByID := by
        intro p id hid hm
        exact (List.nodup_append.1 hnd1).2.2 (hused id p hm) hid
      obtain ⟨h1, h2, h3, _⟩ := step_spec lob c h hfresh r hs
      have hused2 : ∀ id p, (id, p) ∈ r.1.OrdersByID → id ∈ used ++ submittedIDs [c] := by
        intro id p hm
        rcases h3 id p hm with hm | ⟨hm, _⟩
        · exact List.mem_append_left _ (hused id p hm)
        · exact List.mem_append_right _ hm
      obtain ⟨i1, i2, i3⟩ := ih r.1 lob2 (used ++ submittedIDs [c]) h1 hused2 hnd hr
      refine ⟨i1, le_trans h2 i2, ?_⟩
      intro id p hm
      rw [hsplit]
      rcases i3 id p hm with hm | ⟨hm, hle⟩
      · rcases h3 id p hm with hm | ⟨hm, hle⟩
        · exact Or.inl hm
        · exact Or.inr ⟨List.mem_append_left _ hm, hle⟩
      · exact Or.inr ⟨List.mem_append_right _ hm, le_trans h2 hle⟩

theorem Reachable.invariant {lob : LimitOrderBook} (h : Reachable lob) : Inv lob := by
  obtain ⟨cmds, hnd, hr⟩ := h
  exact (run_spec cmds NewLimitOrderBook lob [] Inv.empty (by simp [NewLimitOrderBook])
    (by simpa using hnd) hr).1

theorem mapGet_of_mem (m : List (Int × Nat)) (hn : (m.map Prod.fst).Nodup) (id : Int) (p : Nat)
    (h : (id, p) ∈ m) : mapGet m id = some p := by
  cases hg : mapGet m id with
  | none => exact absurd h ((mapGet_none m id).1 hg p)
  | some q =>
    have := mapGet_some m id q hg
    rw [keys_unique m hn id p q h this]

theorem mapGet_mapDelete_ne (m : List (Int × Nat)) (id id2 : Int) (hne : id2 ≠ id) :
    mapGet (mapDelete m id) id2 = mapGet m id2 := by
  induction m with
  | nil => rfl
  | cons e t ih =>
    obtain ⟨a, b⟩ := e
    by_cases ha : a = id
    · subst ha
      have h1 : mapDelete ((a, b) :: t) a = mapDelete t a := by simp [mapDelete]
      have hne2 : ¬ (a = id2) := fun h => hne h.symm
      have h2 : mapGet ((a, b) :: t) id2 = mapGet t id2 := by
        simp [mapGet, List.find?_cons, hne2]
      rw [h1, h2, ih]
    · have h1 : mapDelete ((a, b) :: t) id = (a, b) :: mapDelete t id := by
        simp [mapDelete, ha]
      rw [h1]
      by_cases hb : a = id2
      · subst hb
        simp [mapGet, List.find?_cons]
      · have h2 : ∀ t2 : List (Int × Nat), mapGet ((a, b) :: t2) id2 = mapGet t2 id2 := by
          intro t2
          simp [mapGet, List.find?_cons, hb]
        rw [h2, h2, ih]

theorem search_of_mem (t : Tree) (hs : t.Pairwise (fun a b => a.1.val < b.1.val))
    (key : treeKey) (l : Nat) (h : (key, l) ∈ t) :
    ∃ n, Tree.Search t key = some n ∧ Tree.Value t n = some l := by
  obtain ⟨n, hn⟩ := search_isSome_of_mem t key l h
  obtain ⟨l2, hl2⟩ := search_some t key n hn
  have := sorted_key_unique t hs key l l2 h (List.getElem?_mem hl2)
  subst this
  exact ⟨n, hn, by simp [Tree.Value, hl2]⟩

theorem mem_chainFrom {orders : List Order}
    (hnext : ∀ (p : Nat) (o : Order) (n : Nat), orders[p]? = some o → o.NextOrder = some n →
      p < n ∧ ∃ o2 : Order, orders[n]? = some o2 ∧ o2.ParentLimit = o.ParentLimit ∧
        o2.IsSell = o.IsSell)
    {h p : Nat} (c : InChain orders h p) :
    ∀ fuel, orders.length - h ≤ fuel → p ∈ chainFrom orders fuel (some h) := by
  induction c with
  | @here q o ho =>
    intro fuel hf
    have hlt : q < orders.length := (List.getElem?_eq_some.1 ho).1
    cases fuel with
    | zero => omega
    | succ f => simp [chainFrom, ho]
  | @next q n r o ho hn _ ih =>
    intro fuel hf
    have hlt : q < orders.length := (List.getElem?_eq_some.1 ho).1
    obtain ⟨hqn, _⟩ := hnext _ _ _ ho hn
    cases fuel with
    | zero => omega
    | succ f =>
      simp only [chainFrom, ho, hn, List.mem_cons]
      exact Or.inr (ih f (by omega))

theorem chainFrom_ge {orders : List Order}
    (hnext : ∀ (p : Nat) (o : Order) (n : Nat), orders[p]? = some o → o.NextOrder = some n →
      p < n ∧ ∃ o2 : Order, orders[n]? = some o2 ∧ o2.ParentLimit = o.ParentLimit ∧
        o2.IsSell = o.IsSell) :
    ∀ (fuel h x : Nat), x ∈ chainFrom orders fuel (some h) → h ≤ x := by
  intro fuel
  induction fuel with
  | zero =>
    intro h x hx
    simp [chainFrom] at hx
  | succ f ih =>
    intro h x hx
    cases ho : orders[h]? with
    | none => simp [chainFrom, ho] at hx
    | some o =>
      simp only [chainFrom, ho, List.mem_cons] at hx
      rcases hx with e | hx
      · omega
      · cases hn : o.NextOrder with
        | none =>
          rw [hn] at hx
          cases f <;> simp [chainFrom] at hx
        | some n =>
          rw [hn] at hx
          have := ih n x hx
          have := (hnext _ _ _ ho hn).1
          omega

theorem chainFrom_sorted {orders : List Order}
    (hnext : ∀ (p : Nat) (o : Order) (n : Nat), orders[p]? = some o → o.NextOrder = some n →
      p < n ∧ ∃ o2 : Order, orders[n]? = some o2 ∧ o2.ParentLimit = o.ParentLimit ∧
        o2.IsSell = o.IsSell) :
    ∀ (fuel : Nat) (h : Option Nat), (chainFrom orders fuel h).Pairwise (· < ·) := by
  intro fuel
  induction fuel with
  | zero =>
    intro h
    simp [chainFrom]
  | succ f ih =>
    intro h
    cases h with
    | none => simp [chainFrom]
    | some h =>
      cases ho : orders[h]? with
      | none => simp [chainFrom, ho]
      | some o =>
        simp only [chainFrom, ho, List.pairwise_cons]
        refine ⟨?_, ih _⟩
        intro x hx
        cases hn : o.NextOrder with
        | none =>
          rw [hn] at hx
          cases f <;> simp [chainFrom] at hx
        | some n =>
          rw [hn] at hx
          have := chainFrom_ge hnext f n x hx
          have := (hnext _ _ _ ho hn).1
          omega

theorem pairwise_lt_split (xs : List Nat) (hs : xs.Pairwise (· < ·)) (a b : Nat)
    (ha : a ∈ xs) (hb : b ∈ xs) (hab : a < b) :
    ∃ pre mid post, xs = pre ++ a :: (mid ++ b :: post) := by
  obtain ⟨pre, rest, hx⟩ := List.append_of_mem ha
  subst hx
  rw [List.pairwise_append, List.pairwise_cons] at hs
  have hb2 : b ∈ rest := by
    rcases List.mem_append.1 hb with h | h
    · have := hs.2.2 b h a (by simp)
      omega
    · rcases List.mem_cons.1 h with h | h
      · omega
      · exact h
  obtain ⟨mid, post, hr⟩ := List.append_of_mem hb2
  exact ⟨pre, mid, post, by rw [hr]⟩

theorem run_append (xs ys : List Cmd) : ∀ (lob lob2 : LimitOrderBook),
    run lob (xs ++ ys) = .ok lob2 → ∃ mid, run lob xs = .ok mid ∧ run mid ys = .ok lob2 := by
  induction xs with
  | nil =>
    intro lob lob2 h
    exact ⟨lob, rfl, h⟩
  | cons c cs ih =>
    intro lob lob2 h
    simp only [List.cons_append, run] at h ⊢
    cases hs : step lob c with
    | error e =>
      rw [hs] at h
      cases h
    | ok r =>
      rw [hs] at h
      exact ih r.1 lob2 h

/-! ## The properties of the specification -/

/-- The book `oneBidBook` is reached by one submit. -/
theorem oneBidBook_reachable : Reachable oneBidBook :=
  ⟨[.submit 7 100 10 false 1], by decide, rfl⟩

/-- The book `twoSidedBook` is reached by two submits. -/
theorem twoSidedBook_reachable : Reachable twoSidedBook :=
  ⟨[.submit 7 100 10 false 1, .submit 7 105 5 true 3], by decide, rfl⟩

/-- The book `twoAtLevelBook` is reached by two submits. -/
theorem twoAtLevelBook_reachable : Reachable twoAtLevelBook :=
  ⟨[.submit 7 100 3 false 4, .submit 7 100 2 false 5], by decide, rfl⟩

/-- With the lock free, a submit that crosses the cached best price of the other side
(a sell at or below the cached best bid, a buy at or above the cached best ask) returns
the single line `R, {ownerID}, {orderID}` and no error, and the state after it is the
state before it. -/
theorem NewOrder_crossing_of_unlocked (lob : LimitOrderBook) (uid price qty : Int)
    (isSell : Bool) (id : Int) (hlock : lob.Lock = false)
    (hcross :
      (isSell = true ∧ ∃ p b, lob.HighestBuy = some p ∧ lob.orders[p]? = some b ∧
        price ≤ b.Price) ∨
      (isSell = false ∧ ∃ p a, lob.LowestSell = some p ∧ lob.orders[p]? = some a ∧
        price ≥ a.Price)) :
    NewOrder lob uid price qty isSell id
      = .ok (lob, ["R, " ++ toString uid ++ ", " ++ toString id], none) := by
  rcases hcross with ⟨hs, p, b, hp, hb, hle⟩ | ⟨hs, p, a, hp, ha, hle⟩
  · subst hs
    simp [NewOrder, lockLock, hlock, CheckBookCrossed, hp, derefOrder, hb, hle, bind,
      Except.bind, pure, Except.pure, lockUnlock, getOrderOutput]
    cases lob; simp_all
  · subst hs
    simp [NewOrder, lockLock, hlock, CheckBookCrossed, hp, derefOrder, ha, hle, bind,
      Except.bind, pure, Except.pure, lockUnlock, getOrderOutput]
    cases lob; simp_all

/-- At the book with one bid of 10 at 100 and the lock free, the sell of 5 at 100 is
rejected and the book is as before. -/
theorem NewOrder_crossing_example :
    NewOrder oneBidBook 7 100 5 true 2 = .ok (oneBidBook, ["R, 7, 2"], none) :=
  NewOrder_crossing_of_unlocked oneBidBook 7 100 5 true 2 rfl
    (Or.inl ⟨rfl, 0, ⟨1, 7, 100, 10, false, none, none, some 0⟩, rfl, rfl, by decide⟩)

/-- C2 (the code at the failing input): after `buy 1@100 (id 1)`, `buy 2@100 (id 2)`,
`cancel 1`, `cancel 2` no order rests, so a sell at 90 crosses nothing; the submit
rejects it all the same, against the cached best bid that still points at the
cancelled order 1. -/
theorem C2_rejects_an_order_that_crosses_nothing :
    run NewLimitOrderBook
        [.submit 7 100 1 false 1, .submit 7 100 2 false 2, .cancel 1, .cancel 2]
      = .ok staleBook ∧
    restingOrders staleBook = [] ∧ wouldCross staleBook true 90 = false ∧
    NewOrder staleBook 7 90 1 true 3 = .ok (staleBook, ["R, 7, 3"], none) :=
  ⟨rfl, rfl, rfl, rfl⟩

/-- C3: in every reachable state where both cached best pointers exist, the price of
the cached best ask is strictly greater than the price of the cached best bid. -/
theorem C3_best_ask_above_best_bid (lob : LimitOrderBook) (h : Reachable lob)
    (a b : Nat) (oa ob : Order) (hS : lob.LowestSell = some a) (hB : lob.HighestBuy = some b)
    (hoa : lob.orders[a]? = some oa) (hob : lob.orders[b]? = some ob) :
    ob.Price < oa.Price :=
  h.invariant.best.uncrossed a b oa ob hS hB hoa hob

/-- C3 at the book with one bid at 100 and one ask at 105. -/
theorem C3_witness :
    Reachable twoSidedBook ∧ twoSidedBook.LowestSell = some 1 ∧
    twoSidedBook.HighestBuy = some 0 ∧ (100 : Int) < 105 :=
  ⟨twoSidedBook_reachable, rfl, rfl,
    C3_best_ask_above_best_bid twoSidedBook twoSidedBook_reachable 1 0
      ⟨3, 7, 105, 5, true, none, none, some 1⟩ ⟨1, 7, 100, 10, false, none, none, some 0⟩
      rfl rfl rfl rfl⟩

/-- In every reachable state with the lock free, a cancel of an ID present in the ID
table succeeds; its first line is `A, {ownerID}, {orderID}` of the cancelled order;
afterwards the ID table maps that ID to nothing and every other ID to the address it
mapped to before, where the same order record still is; and an immediately repeated
cancel of the same ID fails with not found and no output. -/
theorem CancelOrder_present_of_unlocked (lob : LimitOrderBook) (h : Reachable lob)
    (hlock : lob.Lock = false) (id : Int) (po : Nat)
    (hget : mapGet lob.OrdersByID id = some po) :
    ∃ (lob2 : LimitOrderBook) (out : List String) (o : Order),
      lob.orders[po]? = some o ∧ o.ID = id ∧
      CancelOrder lob id
        = .ok (lob2, ("A, " ++ toString o.UID ++ ", " ++ toString o.ID) :: out, none) ∧
      mapGet lob2.OrdersByID id = none ∧
      (∀ id2, id2 ≠ id → mapGet lob2.OrdersByID id2 = mapGet lob.OrdersByID id2) ∧
      lob2.orders = lob.orders ∧
      ∃ lob3, CancelOrder lob2 id
        = .ok (lob3, [], some ("Order " ++ toString id ++ " doesnt exist")) := by
  obtain ⟨lob2, out, o, h1, h2, h3, h4, h5, h6, _⟩ :=
    CancelOrder_found_spec lob id po h.invariant hlock hget
  have hnone : mapGet lob2.OrdersByID id = none := by
    rw [h4]
    exact mapGet_mapDelete_self _ _
  refine ⟨lob2, out, o, h2, h3, h1, hnone, ?_, h5, _, CancelOrder_absent lob2 id h6 hnone⟩
  intro id2 hne
  rw [h4]
  exact mapGet_mapDelete_ne _ _ _ hne

/-- At the book with one bid (id 1) and the lock free: cancelling id 1. -/
theorem CancelOrder_present_example :
    ∃ (lob2 : LimitOrderBook) (out : List String) (o : Order),
      oneBidBook.orders[0]? = some o ∧ o.ID = 1 ∧
      CancelOrder oneBidBook 1
        = .ok (lob2, ("A, " ++ toString o.UID ++ ", " ++ toString o.ID) :: out, none) ∧
      mapGet lob2.OrdersByID 1 = none ∧
      (∀ id2, id2 ≠ 1 → mapGet lob2.OrdersByID id2 = mapGet oneBidBook.OrdersByID id2) ∧
      lob2.orders = oneBidBook.orders ∧
      ∃ lob3, CancelOrder lob2 1
        = .ok (lob3, [], some ("Order " ++ toString (1 : Int) ++ " doesnt exist")) :=
  CancelOrder_present_of_unlocked oneBidBook oneBidBook_reachable rfl 1 0 rfl

/-- C6 (the code at the failing input): after `buy 1@100 (id 1)`, `buy 2@100 (id 2)`,
`cancel 1`, `cancel 2`, the call `buy 5@100 (id 3)` returns the top-of-book line
`B, B, 100, 2`, while order 3 is the only resting order and the true top of the bid
side is price 100 with volume 5. -/
theorem C6_top_of_book_line_reports_a_stale_volume :
    run NewLimitOrderBook
        [.submit 7 100 1 false 1, .submit 7 100 2 false 2, .cancel 1, .cancel 2]
      = .ok staleBook ∧
    (NewOrder staleBook 7 100 5 false 3).map
        (fun r => (r.2.1, r.2.2, restingOrders r.1, trueTopOfBook r.1 false,
          tobLine false (trueTopOfBook r.1 false)))
      = .ok (["A, 7, 3", "B, B, 100, 2"], none,
          [⟨3, 7, 100, 5, false, none, none, some 1⟩], some (100, 5), "B, B, 100, 5") :=
  ⟨rfl, rfl⟩

/-- C7 (the code at the failing input): after `buy 3@100 (id 4)`, `buy 2@100 (id 5)`,
`cancel 4` the only level of the buy index has order 5 (address 1) as its head, and
the cached best bid still points at the cancelled order 4 (address 0). -/
theorem C7_cache_stays_on_the_cancelled_head :
    Reachable twoAtLevelBook ∧
    (CancelOrder twoAtLevelBook 4).map
        (fun r => (r.1.HighestBuy, r.1.BuyTree, r.1.limits[0]?.map (·.HeadOrder),
          r.1.OrdersByID))
      = .ok (some 0, [(⟨100⟩, 0)], some (some 1), [(5, 1)]) :=
  ⟨twoAtLevelBook_reachable, rfl⟩

/-- C8 (the code at the failing input): after `buy 3@100 (id 4)`, `buy 2@100 (id 5)`,
`cancel 5` the level at 100 records one order and volume 3 and has address 0 as its
head, while the walk from the head along `NextOrder` still meets two orders
(addresses 0 and 1, quantities 3 and 2) before it ends at nil. -/
theorem C8_count_and_volume_differ_from_the_chain :
    Reachable twoAtLevelBook ∧
    (CancelOrder twoAtLevelBook 5).map
        (fun r => (r.1.BuyTree,
          r.1.limits[0]?.map (fun l => (l.Size, l.TotalVolume, l.HeadOrder)),
          chainFrom r.1.orders r.1.orders.length (some 0),
          (chainFrom r.1.orders r.1.orders.length (some 0)).map
            (fun p => r.1.orders[p]?.map (fun o => (o.Quantity, o.NextOrder)))))
      = .ok ([(⟨100⟩, 0)], some (1, 3, some 0), [0, 1],
          [some (3, some 1), some (2, none)]) :=
  ⟨twoAtLevelBook_reachable, rfl⟩

/-- C9: in every reachable state, every entry of the ID table refers to an order whose
price is found as a key by the search in the index of the order's own side, and the
walk from the head of the level stored under that key along `NextOrder` meets the
order. -/
theorem C9_resting_order_is_indexed_and_on_its_chain (lob : LimitOrderBook)
    (h : Reachable lob) (id : Int) (p : Nat) (hget : mapGet lob.OrdersByID id = some p) :
    ∃ (o : Order) (n l : Nat) (L : Limit),
      lob.orders[p]? = some o ∧
      Tree.Search (getOrderTree lob o) ⟨o.Price⟩ = some n ∧
      Tree.Value (getOrderTree lob o) n = some l ∧
      lob.limits[l]? = some L ∧
      p ∈ chainFrom lob.orders lob.orders.length L.HeadOrder := by
  have hi := h.invariant
  have hmem := mapGet_some _ _ _ hget
  obtain ⟨o, ho, _⟩ := hi.heap.tableValid id p hmem
  obtain ⟨l, L, hd, _, hk, hL, hH, hc⟩ := hi.heap.resting id p o hmem ho
  obtain ⟨n, hn, hv⟩ := search_of_mem _ (hi.heap.treeSorted o.IsSell) _ _ hk
  refine ⟨o, n, l, L, ho, hn, hv, hL, ?_⟩
  rw [hH]
  exact mem_chainFrom hi.heap.ordNext hc _ (Nat.sub_le _ _)

/-- C9 at the book with the bids 4 and 5 at 100, for the order of id 5. -/
theorem C9_witness :
    ∃ (o : Order) (n l : Nat) (L : Limit),
      twoAtLevelBook.orders[1]? = some o ∧
      Tree.Search (getOrderTree twoAtLevelBook o) ⟨o.Price⟩ = some n ∧
      Tree.Value (getOrderTree twoAtLevelBook o) n = some l ∧
      twoAtLevelBook.limits[l]? = some L ∧
      1 ∈ chainFrom twoAtLevelBook.orders twoAtLevelBook.orders.length L.HeadOrder :=
  C9_resting_order_is_indexed_and_on_its_chain twoAtLevelBook twoAtLevelBook_reachable 5 1 rfl

/-- C10: in a run from the empty book whose submit calls use distinct IDs, let the
submit of `idA` come before the submit of `idB`, and let both rest at the end, on the
same side and at the same price; then the walk from the head of their level along
`NextOrder` meets the order of `idA` before the order of `idB`. -/
theorem C10_fifo_order_on_the_chain (c1 c2 c3 : List Cmd)
    (uA pA qA : Int) (sA : Bool) (idA : Int) (uB pB qB : Int) (sB : Bool) (idB : Int)
    (lob : LimitOrderBook) (a b : Nat) (oa ob : Order)
    (hnd : (submittedIDs
      (c1 ++ .submit uA pA qA sA idA :: (c2 ++ .submit uB pB qB sB idB :: c3))).Nodup)
    (hrun : run NewLimitOrderBook
      (c1 ++ .submit uA pA qA sA idA :: (c2 ++ .submit uB pB qB sB idB :: c3)) = .ok lob)
    (ha : mapGet lob.OrdersByID idA = some a) (hb : mapGet lob.OrdersByID idB = some b)
    (hoa : lob.orders[a]? = some oa) (hob : lob.orders[b]? = some ob)
    (hside : oa.IsSell = ob.IsSell) (hprice : oa.Price = ob.Price) :
    ∃ (n l : Nat) (L : Limit) (pre mid post : List Nat),
      Tree.Search (getOrderTree lob oa) ⟨oa.Price⟩ = some n ∧
      Tree.Value (getOrderTree lob oa) n = some l ∧
      lob.limits[l]? = some L ∧
      chainFrom lob.orders lob.orders.length L.HeadOrder = pre ++ a :: (mid ++ b :: post) := by
  have hlist : c1 ++ Cmd.submit uA pA qA sA idA :: (c2 ++ Cmd.submit uB pB qB sB idB :: c3)
      = (c1 ++ [Cmd.submit uA pA qA sA idA]) ++ (c2 ++ Cmd.submit uB pB qB sB idB :: c3) := by
    simp
  rw [hlist] at hnd hrun
  obtain ⟨lob1, hr1, hr2⟩ := run_append _ _ _ _ hrun
  rw [submittedIDs_append] at hnd
  have hnd1 := (List.nodup_append.1 hnd).1
  have hdisj := (List.nodup_append.1 hnd).2.2
  obtain ⟨hi1, _, hk1⟩ := run_spec _ NewLimitOrderBook lob1 [] Inv.empty
    (by simp [NewLimitOrderBook]) (by simpa using hnd1) hr1
  have hused : ∀ id p, (id, p) ∈ lob1.OrdersByID →
      id ∈ submittedIDs (c1 ++ [Cmd.submit uA pA qA sA idA]) := by
    intro id p hm
    rcases hk1 id p hm with hm | ⟨hm, _⟩
    · simp [NewLimitOrderBook] at hm
    · exact hm
  obtain ⟨hi, _, hk2⟩ := run_spec _ lob1 lob _ hi1 hused hnd hr2
  have hAin : idA ∈ submittedIDs (c1 ++ [Cmd.submit uA pA qA sA idA]) := by
    rw [submittedIDs_append]
    simp [submittedIDs]
  have hBin : idB ∈ submittedIDs (c2 ++ Cmd.submit uB pB qB sB idB :: c3) := by
    rw [submittedIDs_append]
    simp [submittedIDs]
  have hma := mapGet_some _ _ _ ha
  have hmb := mapGet_some _ _ _ hb
  have halt : a < lob1.orders.length := by
    rcases hk2 idA a hma with hm | ⟨hm, _⟩
    · obtain ⟨o, ho, _⟩ := hi1.heap.tableValid idA a hm
      exact (List.getElem?_eq_some.1 ho).1
    · exact absurd hm (fun hm => hdisj hAin hm)
  have hble : lob1.orders.length ≤ b := by
    rcases hk2 idB b hmb with hm | ⟨_, hle⟩
    · exact absurd hBin (fun hB => hdisj (hused idB b hm) hB)
    · exact hle
  obtain ⟨la, La, hda, _, hka, hLa, hHa, hca⟩ := hi.heap.resting idA a oa hma hoa
  obtain ⟨lb, Lb, hdb, _, hkb, hLb, hHb, hcb⟩ := hi.heap.resting idB b ob hmb hob
  rw [← hside, ← hprice] at hkb
  have hll := sorted_key_unique _ (hi.heap.treeSorted oa.IsSell) _ _ _ hka hkb
  subst hll
  rw [hLa] at hLb
  cases hLb
  rw [hHa] at hHb
  cases hHb
  obtain ⟨n, hn, hv⟩ := search_of_mem _ (hi.heap.treeSorted oa.IsSell) _ _ hka
  have h1 := mem_chainFrom hi.heap.ordNext hca lob.orders.length (Nat.sub_le _ _)
  have h2 := mem_chainFrom hi.heap.ordNext hcb lob.orders.length (Nat.sub_le _ _)
  obtain ⟨pre, mid, post, hsplit⟩ := pairwise_lt_split _
    (chainFrom_sorted hi.heap.ordNext lob.orders.length (some hda)) a b h1 h2 (by omega)
  exact ⟨n, la, La, pre, mid, post, hn, hv, hLa, by rw [hHa]; exact hsplit⟩

/-- C10 at the run `buy 3@100 (id 4)`, `buy 2@100 (id 5)`: order 4 comes before order 5
on the chain of the level at 100. -/
theorem C10_witness :
    ∃ (n l : Nat) (L : Limit) (pre mid post : List Nat),
      Tree.Search (getOrderTree twoAtLevelBook ⟨4, 7, 100, 3, false, some 1, none, some 0⟩)
        ⟨100⟩ = some n ∧
      Tree.Value (getOrderTree twoAtLevelBook ⟨4, 7, 100, 3, false, some 1, none, some 0⟩) n
        = some l ∧
      twoAtLevelBook.limits[l]? = some L ∧
      chainFrom twoAtLevelBook.orders twoAtLevelBook.orders.length L.HeadOrder
        = pre ++ 0 :: (mid ++ 1 :: post) :=
  C10_fifo_order_on_the_chain [] [] [] 7 100 3 false 4 7 100 2 false 5 twoAtLevelBook 0 1
    ⟨4, 7, 100, 3, false, some 1, none, some 0⟩ ⟨5, 7, 100, 2, false, none, none, some 0⟩
    (by decide) rfl rfl rfl rfl rfl rfl rfl

/-! ## Cancels and submits at the failing inputs, the uncrossed book, safe cancels -/

/-- The book `headCancelledBook` is reached by two submits and a cancel. -/
theorem headCancelledBook_reachable : Reachable headCancelledBook :=
  ⟨[.submit 7 100 3 false 4, .submit 7 100 2 false 5, .cancel 4], by decide, rfl⟩

/-- The book `tailLostBook` is reached by two submits and a cancel. -/
theorem tailLostBook_reachable : Reachable tailLostBook :=
  ⟨[.submit 7 100 3 false 4, .submit 7 100 2 false 5, .cancel 5], by decide, rfl⟩

/-- C14 (the code at the failing input): after `buy 3@100 (id 4)`, `buy 2@100 (id 5)`,
`cancel 4`, order 5 is the only resting order, so its price 100 is the best price of the
bid side; `cancel 5` returns the acceptance line alone, without a top-of-book line, and
leaves the bid side empty. -/
theorem C14_cancel_at_the_best_price_returns_no_tob_line :
    Reachable headCancelledBook ∧
    restingOrders headCancelledBook = [⟨5, 7, 100, 2, false, none, none, some 0⟩] ∧
    trueTopOfBook headCancelledBook false = some (100, 2) ∧
    (CancelOrder headCancelledBook 5).map
        (fun r => (r.2.1, r.2.2, restingOrders r.1, r.1.BuyTree))
      = .ok (["A, 7, 5"], none, [], []) :=
  ⟨headCancelledBook_reachable, rfl, rfl, rfl⟩

/-- C16 (the code at the failing input): after `buy 3@100 (id 4)`, `buy 2@100 (id 5)`,
`cancel 5` the level at 100 is in the buy index with order 4 resting and its
`TailOrder` is nil; the submit `buy 1@100 (id 6)` crosses nothing, finds that level, and
stops with a nil dereference instead of returning. -/
theorem C16_submit_at_a_level_without_tail_does_not_return :
    Reachable tailLostBook ∧
    wouldCross tailLostBook false 100 = false ∧
    Tree.Search tailLostBook.BuyTree ⟨100⟩ = some 0 ∧
    (tailLostBook.limits[0]?).map (fun l => (l.Size, l.TailOrder)) = some (1, none) ∧
    NewOrder tailLostBook 7 100 1 false 6 = .error Fault.nilDeref :=
  ⟨tailLostBook_reachable, rfl, rfl, rfl, rfl⟩

/-- C18 (the code at the failing input): on the new empty book, whose lock is free,
`cancel 9` returns the not-found error with the lock still held, and the next call on
that state, a submit, waits for the lock and never returns. -/
theorem C18_not_found_return_leaves_the_lock_held :
    NewLimitOrderBook.Lock = false ∧
    CancelOrder NewLimitOrderBook 9
      = .ok ({ NewLimitOrderBook with Lock := true }, [], some "Order 9 doesnt exist") ∧
    NewOrder { NewLimitOrderBook with Lock := true } 7 100 10 false 1
      = .error Fault.deadlock :=
  ⟨rfl, rfl, rfl⟩

/-- Under the invariant a side whose index holds a level has a cached best order, and
its price is no worse than any key of that index. -/
theorem Inv.cache_bounds {lob : LimitOrderBook} (h : Inv lob) :
    (lob.SellTree ≠ [] → ∃ (a : Nat) (oa : Order), lob.LowestSell = some a ∧
      lob.orders[a]? = some oa ∧ ∀ k l, (k, l) ∈ lob.SellTree → oa.Price ≤ k.val) ∧
    (lob.BuyTree ≠ [] → ∃ (b : Nat) (ob : Order), lob.HighestBuy = some b ∧
      lob.orders[b]? = some ob ∧ ∀ k l, (k, l) ∈ lob.BuyTree → k.val ≤ ob.Price) := by
  constructor
  · intro hne
    cases hLS : lob.LowestSell with
    | none => exact absurd hLS (h.best.sellSome hne)
    | some a =>
      obtain ⟨oa, hoa, _, hmin⟩ := h.best.bestSell a hLS
      exact ⟨a, oa, rfl, hoa, hmin⟩
  · intro hne
    cases hHB : lob.HighestBuy with
    | none => exact absurd hHB (h.best.buySome hne)
    | some b =>
      obtain ⟨ob, hob, _, hmax⟩ := h.best.bestBuy b hHB
      exact ⟨b, ob, rfl, hob, hmax⟩

/-- Under the invariant every key of the sell index is above every key of the buy
index. -/
theorem Inv.keys_apart {lob : LimitOrderBook} (h : Inv lob) (ks kb : treeKey) (ls lb : Nat)
    (hs : (ks, ls) ∈ lob.SellTree) (hb : (kb, lb) ∈ lob.BuyTree) : kb.val < ks.val := by
  obtain ⟨a, oa, hLS, hoa, hmin⟩ := h.cache_bounds.1 (List.ne_nil_of_mem hs)
  obtain ⟨b, ob, hHB, hob, hmax⟩ := h.cache_bounds.2 (List.ne_nil_of_mem hb)
  have h1 := h.best.uncrossed a b oa ob hLS hHB hoa hob
  have h2 := hmin ks ls hs
  have h3 := hmax kb lb hb
  omega

/-- C19: in every reachable state, every sell order of the ID table has a price
strictly above the price of every buy order of the ID table; every key of the sell
index is strictly above every key of the buy index; and a side whose index holds a
level has a cached best order whose price is no worse than any key of that index (not
above any ask key, not below any bid key). -/
theorem C19_resting_book_is_never_crossed (lob : LimitOrderBook) (h : Reachable lob) :
    (∀ (ids idb : Int) (ps pb : Nat) (os ob : Order),
      mapGet lob.OrdersByID ids = some ps → lob.orders[ps]? = some os → os.IsSell = true →
      mapGet lob.OrdersByID idb = some pb → lob.orders[pb]? = some ob → ob.IsSell = false →
      ob.Price < os.Price) ∧
    (∀ (ks kb : treeKey) (ls lb : Nat),
      (ks, ls) ∈ lob.SellTree → (kb, lb) ∈ lob.BuyTree → kb.val < ks.val) ∧
    (lob.SellTree ≠ [] → ∃ (a : Nat) (oa : Order), lob.LowestSell = some a ∧
      lob.orders[a]? = some oa ∧ ∀ k l, (k, l) ∈ lob.SellTree → oa.Price ≤ k.val) ∧
    (lob.BuyTree ≠ [] → ∃ (b : Nat) (ob : Order), lob.HighestBuy = some b ∧
      lob.orders[b]? = some ob ∧ ∀ k l, (k, l) ∈ lob.BuyTree → k.val ≤ ob.Price) := by
  have hi := h.invariant
  refine ⟨?_, fun ks kb ls lb hs hb => hi.keys_apart ks kb ls lb hs hb,
    hi.cache_bounds.1, hi.cache_bounds.2⟩
  intro ids idb ps pb os ob hgs hos hsell hgb hob hbuy
  obtain ⟨l1, _, _, _, hk1, _⟩ := hi.heap.resting ids ps os (mapGet_some _ _ _ hgs) hos
  obtain ⟨l2, _, _, _, hk2, _⟩ := hi.heap.resting idb pb ob (mapGet_some _ _ _ hgb) hob
  rw [hsell] at hk1
  rw [hbuy] at hk2
  simp only [sideTree, if_true] at hk1
  simp only [sideTree, if_false, Bool.false_eq_true] at hk2
  exact hi.keys_apart _ _ _ _ hk1 hk2

/-- C19 at the book with one bid at 100 (id 1) and one ask at 105 (id 3). -/
theorem C19_witness :
    Reachable twoSidedBook ∧ twoSidedBook.SellTree ≠ [] ∧ twoSidedBook.BuyTree ≠ [] ∧
    (100 : Int) < 105 :=
  ⟨twoSidedBook_reachable, by decide, by decide,
    (C19_resting_book_is_never_crossed twoSidedBook twoSidedBook_reachable).1 3 1 1 0
      ⟨3, 7, 105, 5, true, none, none, some 1⟩ ⟨1, 7, 100, 10, false, none, none, some 0⟩
      rfl rfl rfl rfl rfl rfl⟩

/-- The acceptance line, as one text with the two numbers in it. -/
theorem getOrderOutput_accept (o : Order) :
    getOrderOutput true o = "A, " ++ toString o.UID ++ ", " ++ toString o.ID := by
  simp [getOrderOutput]

/-- The rejection line, as one text with the two numbers in it. -/
theorem getOrderOutput_reject (o : Order) :
    getOrderOutput false o = "R, " ++ toString o.UID ++ ", " ++ toString o.ID := by
  simp [getOrderOutput]

/-- A trace is the trace of the first call followed by the trace of the rest. -/
theorem runTrace_cons (lob lob1 lob2 : LimitOrderBook) (c : Cmd) (cs : List Cmd)
    (out : List String) (err : Option String) (t : List (List String × Option String))
    (h1 : step lob c = .ok (lob1, out, err)) (h2 : runTrace lob1 cs = .ok (lob2, t)) :
    runTrace lob (c :: cs) = .ok (lob2, (out, err) :: t) := by
  simp [runTrace, h1, h2]

/-- C11: from the new empty book and for any owner ID `u`, the calls submit buy 10@100
id 1; submit sell 5@100 id 2; submit sell 5@105 id 3; cancel 1; submit buy 3@100 id 4;
submit buy 2@100 id 5; cancel 4 all return without error, with the outputs
`A, u, 1` `B, B, 100, 10`; `R, u, 2`; `A, u, 3` `B, S, 105, 5`; `A, u, 1` `B, B, -, -`;
`A, u, 4` `B, B, 100, 3`; `A, u, 5` `B, B, 100, 5`; `A, u, 4` `B, B, 100, 2`; in the
final state the search for price 100 in the buy index finds a level with count 1 and
volume 2, and the walk from its head meets one order, the order with ID 5. -/
theorem C11_scenario_outputs_and_final_level (u : Int) :
    runTrace NewLimitOrderBook (scenario u)
      = .ok (scenarioBook u,
          [(["A, " ++ toString u ++ ", " ++ toString (1 : Int), "B, B, 100, 10"], none),
           (["R, " ++ toString u ++ ", " ++ toString (2 : Int)], none),
           (["A, " ++ toString u ++ ", " ++ toString (3 : Int), "B, S, 105, 5"], none),
           (["A, " ++ toString u ++ ", " ++ toString (1 : Int), "B, B, -, -"], none),
           (["A, " ++ toString u ++ ", " ++ toString (4 : Int), "B, B, 100, 3"], none),
           (["A, " ++ toString u ++ ", " ++ toString (5 : Int), "B, B, 100, 5"], none),
           (["A, " ++ toString u ++ ", " ++ toString (4 : Int), "B, B, 100, 2"], none)]) ∧
    Tree.Search (scenarioBook u).BuyTree ⟨100⟩ = some 0 ∧
    Tree.Value (scenarioBook u).BuyTree 0 = some 2 ∧
    (scenarioBook u).limits[2]? = some ⟨100, 1, 2, some 3, some 3⟩ ∧
    chainFrom (scenarioBook u).orders (scenarioBook u).orders.length (some 3) = [3] ∧
    ((scenarioBook u).orders[3]?).map (·.ID) = some 5 := by
  refine ⟨?_, rfl, rfl, rfl, rfl, rfl⟩
  have e0 : runTrace (scenarioBook u) [] = .ok (scenarioBook u, []) := rfl
  have e7 := runTrace_cons
    { BuyTree := [(⟨100⟩, 2)], SellTree := [(⟨105⟩, 1)], LowestSell := some 1,
      HighestBuy := some 2, OrdersByID := [(5, 3), (4, 2), (3, 1)], Lock := false,
      orders := [⟨1, u, 100, 10, false, none, none, some 0⟩,
                 ⟨3, u, 105, 5, true, none, none, some 1⟩,
                 ⟨4, u, 100, 3, false, some 3, none, some 2⟩,
                 ⟨5, u, 100, 2, false, none, none, some 2⟩],
      limits := [⟨100, 1, 10, some 0, some 0⟩, ⟨105, 1, 5, some 1, some 1⟩,
                 ⟨100, 2, 5, some 2, some 3⟩] }
    (scenarioBook u) (scenarioBook u) (.cancel 4) []
    [getOrderOutput true ⟨4, u, 100, 3, false, some 3, none, some 2⟩, "B, B, 100, 2"] none []
    rfl e0
  have e6 := runTrace_cons
    { BuyTree := [(⟨100⟩, 2)], SellTree := [(⟨105⟩, 1)], LowestSell := some 1,
      HighestBuy := some 2, OrdersByID := [(4, 2), (3, 1)], Lock := false,
      orders := [⟨1, u, 100, 10, false, none, none, some 0⟩,
                 ⟨3, u, 105, 5, true, none, none, some 1⟩,
                 ⟨4, u, 100, 3, false, none, none, some 2⟩],
      limits := [⟨100, 1, 10, some 0, some 0⟩, ⟨105, 1, 5, some 1, some 1⟩,
                 ⟨100, 1, 3, some 2, some 2⟩] }
    _ (scenarioBook u) (.submit u 100 2 false 5) _
    [getOrderOutput true ⟨5, u, 100, 2, false, none, none, none⟩, "B, B, 100, 5"] none _
    rfl e7
  have e5 := runTrace_cons
    { BuyTree := [], SellTree := [(⟨105⟩, 1)], LowestSell := some 1,
      HighestBuy := none, OrdersByID := [(3, 1)], Lock := false,
      orders := [⟨1, u, 100, 10, false, none, none, some 0⟩,
                 ⟨3, u, 105, 5, true, none, none, some 1⟩],
      limits := [⟨100, 1, 10, some 0, some 0⟩, ⟨105, 1, 5, some 1, some 1⟩] }
    _ (scenarioBook u) (.submit u 100 3 false 4) _
    [getOrderOutput true ⟨4, u, 100, 3, false, none, none, none⟩, "B, B, 100, 3"] none _
    rfl e6
  have e4 := runTrace_cons
    { BuyTree := [(⟨100⟩, 0)], SellTree := [(⟨105⟩, 1)], LowestSell := some 1,
      HighestBuy := some 0, OrdersByID := [(3, 1), (1, 0)], Lock := false,
      orders := [⟨1, u, 100, 10, false, none, none, some 0⟩,
                 ⟨3, u, 105, 5, true, none, none, some 1⟩],
      limits := [⟨100, 1, 10, some 0, some 0⟩, ⟨105, 1, 5, some 1, some 1⟩] }
    _ (scenarioBook u) (.cancel 1) _
    [getOrderOutput true ⟨1, u, 100, 10, false, none, none, some 0⟩, "B, B, -, -"] none _
    rfl e5
  have e3 := runTrace_cons
    { BuyTree := [(⟨100⟩, 0)], SellTree := [], LowestSell := none,
      HighestBuy := some 0, OrdersByID := [(1, 0)], Lock := false,
      orders := [⟨1, u, 100, 10, false, none, none, some 0⟩],
      limits := [⟨100, 1, 10, some 0, some 0⟩] }
    _ (scenarioBook u) (.submit u 105 5 true 3) _
    [getOrderOutput true ⟨3, u, 105, 5, true, none, none, none⟩, "B, S, 105, 5"] none _
    rfl e4
  have e2 := runTrace_cons
    { BuyTree := [(⟨100⟩, 0)], SellTree := [], LowestSell := none,
      HighestBuy := some 0, OrdersByID := [(1, 0)], Lock := false,
      orders := [⟨1, u, 100, 10, false, none, none, some 0⟩],
      limits := [⟨100, 1, 10, some 0, some 0⟩] }
    _ (scenarioBook u) (.submit u 100 5 true 2) _
    [getOrderOutput false ⟨2, u, 100, 5, true, none, none, none⟩] none _
    rfl e3
  have e1 := runTrace_cons NewLimitOrderBook
    _ (scenarioBook u) (.submit u 100 10 false 1) _
    [getOrderOutput true ⟨1, u, 100, 10, false, none, none, none⟩, "B, B, 100, 10"] none _
    rfl e2
  simpa only [getOrderOutput_accept, getOrderOutput_reject] using e1

/-! ## What a call that returns has done, in any state -/

theorem derefOrder_inv (orders : List Order) (p : Option Nat) (o : Order)
    (h : derefOrder orders p = .ok o) : ∃ a, p = some a ∧ orders[a]? = some o := by
  cases p with
  | none => simp [derefOrder] at h
  | some a =>
    cases ha : orders[a]? with
    | none => simp [derefOrder, ha] at h
    | some x =>
      simp [derefOrder, ha] at h
      exact ⟨a, rfl, by rw [ha, h]⟩

theorem derefLimit_inv (limits : List Limit) (p : Option Nat) (l : Limit)
    (h : derefLimit limits p = .ok l) : ∃ a, p = some a ∧ limits[a]? = some l := by
  cases p with
  | none => simp [derefLimit] at h
  | some a =>
    cases ha : limits[a]? with
    | none => simp [derefLimit, ha] at h
    | some x =>
      simp [derefLimit, ha] at h
      exact ⟨a, rfl, by rw [ha, h]⟩

theorem updOrder_inv (lob lob2 : LimitOrderBook) (p : Option Nat) (f : Order → Order)
    (h : updOrder lob p f = .ok lob2) :
    ∃ a x, p = some a ∧ lob.orders[a]? = some x ∧
      lob2 = { lob with orders := lob.orders.set a (f x) } := by
  cases p with
  | none => simp [updOrder] at h
  | some a =>
    cases ha : lob.orders[a]? with
    | none => simp [updOrder, ha] at h
    | some x =>
      simp [updOrder, ha] at h
      exact ⟨a, x, rfl, ha, h.symm⟩

theorem updLimit_inv (lob lob2 : LimitOrderBook) (p : Option Nat) (f : Limit → Limit)
    (h : updLimit lob p f = .ok lob2) :
    ∃ a x, p = some a ∧ lob.limits[a]? = some x ∧
      lob2 = { lob with limits := lob.limits.set a (f x) } := by
  cases p with
  | none => simp [updLimit] at h
  | some a =>
    cases ha : lob.limits[a]? with
    | none => simp [updLimit, ha] at h
    | some x =>
      simp [updLimit, ha] at h
      exact ⟨a, x, rfl, ha, h.symm⟩

/-- The line `getTobOutput` returns is the top-of-book line of what it reads. -/
theorem getTobOutput_line (lob : LimitOrderBook) (s : Bool) (line : String)
    (h : getTobOutput lob s = .ok line) : line = tobLine s (cachedTop lob s) := by
  unfold getTobOutput at h
  cases s
  · cases hB : lob.HighestBuy with
    | none =>
      simp [hB, bind, Except.bind, pure, Except.pure] at h
      simp [cachedTop, bestOf, hB, tobLine, ← h, String.append_assoc]
    | some p =>
      cases ho : lob.orders[p]? with
      | none => simp [hB, bind, Except.bind, pure, Except.pure, derefOrder, ho] at h
      | some o =>
        cases hl : o.ParentLimit with
        | none =>
          simp [hB, bind, Except.bind, pure, Except.pure, derefOrder, ho, hl] at h
          simp [cachedTop, bestOf, hB, ho, hl, tobLine, ← h, String.append_assoc]
        | some l =>
          cases hL : lob.limits[l]? with
          | none =>
            simp [hB, bind, Except.bind, pure, Except.pure, derefOrder, ho, hl, derefLimit,
              hL] at h
          | some L =>
            simp [hB, bind, Except.bind, pure, Except.pure, derefOrder, ho, hl, derefLimit,
              hL] at h
            simp [cachedTop, bestOf, hB, ho, hl, hL, tobLine, ← h, String.append_assoc]
  · cases hB : lob.LowestSell with
    | none =>
      simp [hB, bind, Except.bind, pure, Except.pure] at h
      simp [cachedTop, bestOf, hB, tobLine, ← h, String.append_assoc]
    | some p =>
      cases ho : lob.orders[p]? with
      | none => simp [hB, bind, Except.bind, pure, Except.pure, derefOrder, ho] at h
      | some o =>
        cases hl : o.ParentLimit with
        | none =>
          simp [hB, bind, Except.bind, pure, Except.pure, derefOrder, ho, hl] at h
          simp [cachedTop, bestOf, hB, ho, hl, tobLine, ← h, String.append_assoc]
        | some l =>
          cases hL : lob.limits[l]? with
          | none =>
            simp [hB, bind, Except.bind, pure, Except.pure, derefOrder, ho, hl, derefLimit,
              hL] at h
          | some L =>
            simp [hB, bind, Except.bind, pure, Except.pure, derefOrder, ho, hl, derefLimit,
              hL] at h
            simp [cachedTop, bestOf, hB, ho, hl, hL, tobLine, ← h, String.append_assoc]

theorem newOrderIndexes_inv (lob : LimitOrderBook) (output : List String) (po : Nat)
    (r : LimitOrderBook × List String) (h : newOrderIndexes lob output po = .ok r) :
    ∃ o : Order, lob.orders[po]? = some o ∧ r.1 = improveBest lob po o.IsSell o.Price ∧
      (((improves lob o.IsSell o.Price = true ∨
          priceAt lob (bestOf lob o.IsSell) = some o.Price) ∧
        ∃ line, getTobOutput r.1 o.IsSell = .ok line ∧ r.2 = output ++ [line]) ∨
       (improves lob o.IsSell o.Price = false ∧
        priceAt lob (bestOf lob o.IsSell) ≠ some o.Price ∧ r.2 = output)) := by
  unfold newOrderIndexes at h
  cases ho : lob.orders[po]? with
  | none => simp [derefOrder, ho, bind, Except.bind] at h
  | some o =>
    refine ⟨o, rfl, ?_⟩
    cases hS : o.IsSell with
    | true =>
      cases hB : lob.LowestSell with
      | none =>
        simp [derefOrder, ho, bind, Except.bind, hS, hB, pure, Except.pure] at h
        cases hg : getTobOutput { lob with LowestSell := some po } true with
        | error e => simp [hg] at h
        | ok line =>
          simp [hg] at h
          subst h
          have hi : improves lob true o.Price = true := by simp [improves, bestOf, hB, priceAt]
          refine ⟨by simp [improveBest, hi, setBest], Or.inl ⟨Or.inl hi, line, hg, rfl⟩⟩
      | some b =>
        cases hb : lob.orders[b]? with
        | none => simp [derefOrder, ho, bind, Except.bind, hS, hB, pure, Except.pure, hb] at h
        | some ob =>
          by_cases hlt : o.Price < ob.Price
          · simp [derefOrder, ho, bind, Except.bind, hS, hB, pure, Except.pure, hb, hlt] at h
            cases hg : getTobOutput { lob with LowestSell := some po } true with
            | error e => simp [hg] at h
            | ok line =>
              simp [hg] at h
              subst h
              have hi : improves lob true o.Price = true := by
                simp [improves, bestOf, hB, priceAt, hb, hlt]
              refine ⟨by simp [improveBest, hi, setBest], Or.inl ⟨Or.inl hi, line, hg, rfl⟩⟩
          · have hi : improves lob true o.Price = false := by
              simp [improves, bestOf, hB, priceAt, hb, hlt]
            by_cases heq : o.Price = ob.Price
            · simp [derefOrder, ho, bind, Except.bind, hS, hB, pure, Except.pure, hb, hlt,
                heq] at h
              cases hg : getTobOutput lob true with
              | error e => simp [hg] at h
              | ok line =>
                simp [hg] at h
                subst h
                refine ⟨by simp [improveBest, hi], Or.inl ⟨Or.inr ?_, line, hg, rfl⟩⟩
                simp [bestOf, hB, priceAt, hb, heq]
            · simp [derefOrder, ho, bind, Except.bind, hS, hB, pure, Except.pure, hb, hlt,
                heq] at h
              subst h
              refine ⟨by simp [improveBest, hi], Or.inr ⟨hi, ?_, rfl⟩⟩
              simp [bestOf, hB, priceAt, hb]
              exact fun e => heq e.symm
    | false =>
      cases hB : lob.HighestBuy with
      | none =>
        simp [derefOrder, ho, bind, Except.bind, hS, hB, pure, Except.pure] at h
        cases hg : getTobOutput { lob with HighestBuy := some po } false with
        | error e => simp [hg] at h
        | ok line =>
          simp [hg] at h
          subst h
          have hi : improves lob false o.Price = true := by simp [improves, bestOf, hB, priceAt]
          refine ⟨by simp [improveBest, hi, setBest], Or.inl ⟨Or.inl hi, line, hg, rfl⟩⟩
      | some b =>
        cases hb : lob.orders[b]? with
        | none => simp [derefOrder, ho, bind, Except.bind, hS, hB, pure, Except.pure, hb] at h
        | some ob =>
          by_cases hlt : ob.Price < o.Price
          · simp [derefOrder, ho, bind, Except.bind, hS, hB, pure, Except.pure, hb, hlt] at h
            cases hg : getTobOutput { lob with HighestBuy := some po } false with
            | error e => simp [hg] at h
            | ok line =>
              simp [hg] at h
              subst h
              have hi : improves lob false o.Price = true := by
                simp [improves, bestOf, hB, priceAt, hb, hlt]
              refine ⟨by simp [improveBest, hi, setBest], Or.inl ⟨Or.inl hi, line, hg, rfl⟩⟩
          · have hi : improves lob false o.Price = false := by
              simp [improves, bestOf, hB, priceAt, hb, hlt]
            by_cases heq : o.Price = ob.Price
            · simp [derefOrder, ho, bind, Except.bind, hS, hB, pure, Except.pure, hb, hlt,
                heq] at h
              cases hg : getTobOutput lob false with
              | error e => simp [hg] at h
              | ok line =>
                simp [hg] at h
                subst h
                refine ⟨by simp [improveBest, hi], Or.inl ⟨Or.inr ?_, line, hg, rfl⟩⟩
                simp [bestOf, hB, priceAt, hb, heq]
            · simp [derefOrder, ho, bind, Except.bind, hS, hB, pure, Except.pure, hb, hlt,
                heq] at h
              subst h
              refine ⟨by simp [improveBest, hi], Or.inr ⟨hi, ?_, rfl⟩⟩
              simp [bestOf, hB, priceAt, hb]
              exact fun e => heq e.symm

theorem bind_ok {α β : Type} (x : Except Fault α) (f : α → Except Fault β) (r : β)
    (h : (x >>= f) = .ok r) : ∃ a, x = .ok a ∧ f a = .ok r := by
  cases x with
  | error e => simp [bind, Except.bind] at h
  | ok a => exact ⟨a, rfl, h⟩

theorem lockLock_inv (lob lob1 : LimitOrderBook) (h : lockLock lob = .ok lob1) :
    lob.Lock = false ∧ lob1 = { lob with Lock := true } := by
  unfold lockLock at h
  cases hl : lob.Lock with
  | true => simp [hl] at h
  | false =>
    simp [hl] at h
    exact ⟨rfl, h.symm⟩

theorem SameOrders.of_eq {a b : LimitOrderBook} (h1 : b.LowestSell = a.LowestSell)
    (h2 : b.HighestBuy = a.HighestBuy) (h3 : b.orders = a.orders) : SameOrders a b :=
  ⟨h1, h2, fun p x hx => ⟨x, by rw [h3]; exact hx, rfl, rfl, rfl, rfl, rfl⟩⟩

theorem SameOrders.trans {a b c : LimitOrderBook} (h1 : SameOrders a b) (h2 : SameOrders b c) :
    SameOrders a c := by
  refine ⟨h2.sell.trans h1.sell, h2.buy.trans h1.buy, ?_⟩
  intro p x hx
  obtain ⟨y, hy, e1, e2, e3, e4, e5⟩ := h1.keep p x hx
  obtain ⟨z, hz, f1, f2, f3, f4, f5⟩ := h2.keep p y hy
  exact ⟨z, hz, f1.trans e1, f2.trans e2, f3.trans e3, f4.trans e4, f5.trans e5⟩

theorem SameOrders.of_updLimit {a b : LimitOrderBook} {p : Option Nat} {f : Limit → Limit}
    (h : updLimit a p f = .ok b) : SameOrders a b := by
  obtain ⟨l, x, _, _, rfl⟩ := updLimit_inv _ _ _ _ h
  exact SameOrders.of_eq rfl rfl rfl

theorem SameOrders.of_updOrder {a b : LimitOrderBook} {p : Option Nat} {f : Order → Order}
    (h : updOrder a p f = .ok b)
    (hf : ∀ x : Order, (f x).ID = x.ID ∧ (f x).UID = x.UID ∧ (f x).Price = x.Price ∧
      (f x).Quantity = x.Quantity ∧ (f x).IsSell = x.IsSell) : SameOrders a b := by
  obtain ⟨q, x, _, hx, rfl⟩ := updOrder_inv _ _ _ _ h
  refine ⟨rfl, rfl, ?_⟩
  intro p2 x2 hx2
  by_cases e : q = p2
  · subst e
    rw [hx] at hx2
    cases hx2
    exact ⟨f x, by simp [List.getElem?_set, (List.getElem?_eq_some.1 hx).1], hf x⟩
  · exact ⟨x2, by simp [List.getElem?_set, e, hx2], rfl, rfl, rfl, rfl, rfl⟩

/-- What a submit that returns has done: it found the lock free, and either the
crossing check said yes and nothing changed, or the order was placed at the next
free address, with no other change to the cached pointers or to what the orders say,
and `newOrderIndexes` ran on that state. -/
theorem NewOrder_inv (lob : LimitOrderBook) (uid price qty : Int) (isSell : Bool) (id : Int)
    (r : Ret) (h : NewOrder lob uid price qty isSell id = .ok r) :
    lob.Lock = false ∧ r.2.2 = none ∧
    ((CheckBookCrossed { lob with Lock := true } ⟨id, uid, price, qty, isSell, none, none, none⟩
        = .ok true ∧ r.1 = lob ∧
      r.2.1 = [getOrderOutput false ⟨id, uid, price, qty, isSell, none, none, none⟩]) ∨
     (CheckBookCrossed { lob with Lock := true } ⟨id, uid, price, qty, isSell, none, none, none⟩
        = .ok false ∧
      ∃ (lobM : LimitOrderBook) (r2 : LimitOrderBook × List String),
        SameOrders
          { lob with orders := lob.orders ++ [⟨id, uid, price, qty, isSell, none, none, none⟩] }
          lobM ∧
        newOrderIndexes lobM
          [getOrderOutput true ⟨id, uid, price, qty, isSell, none, none, none⟩]
          lob.orders.length = .ok r2 ∧
        r.1 = lockUnlock r2.1 ∧ r.2.1 = r2.2)) := by
  unfold NewOrder at h
  obtain ⟨lob1, h1, h2⟩ := bind_ok _ _ _ h
  clear h
  obtain ⟨hlock, rfl⟩ := lockLock_inv _ _ h1
  clear h1
  obtain ⟨c, hc, h⟩ := bind_ok _ _ _ h2
  clear h2
  have hfP : ∀ (v : Option Nat) (x : Order),
      ({ x with ParentLimit := v } : Order).ID = x.ID ∧
      ({ x with ParentLimit := v } : Order).UID = x.UID ∧
      ({ x with ParentLimit := v } : Order).Price = x.Price ∧
      ({ x with ParentLimit := v } : Order).Quantity = x.Quantity ∧
      ({ x with ParentLimit := v } : Order).IsSell = x.IsSell :=
    fun _ _ => ⟨rfl, rfl, rfl, rfl, rfl⟩
  have hfN : ∀ (v : Option Nat) (x : Order),
      ({ x with NextOrder := v } : Order).ID = x.ID ∧
      ({ x with NextOrder := v } : Order).UID = x.UID ∧
      ({ x with NextOrder := v } : Order).Price = x.Price ∧
      ({ x with NextOrder := v } : Order).Quantity = x.Quantity ∧
      ({ x with NextOrder := v } : Order).IsSell = x.IsSell :=
    fun _ _ => ⟨rfl, rfl, rfl, rfl, rfl⟩
  refine ⟨hlock, ?_⟩
  cases c with
  | true =>
    simp only [if_true, pure, Except.pure, Except.ok.injEq] at h
    subst h
    exact ⟨rfl, Or.inl ⟨hc, unlock_relock lob hlock, rfl⟩⟩
  | false =>
    simp only [Bool.false_eq_true, if_false, pure, Except.pure, bind, Except.bind] at h
    split at h
    · split at h
      · cases h
      · rename_i lob2 h2
        split at h
        · cases h
        · rename_i r2 h3
          cases h
          refine ⟨rfl, Or.inr ⟨hc, _, r2, ?_, h3, rfl, rfl⟩⟩
          have s1 := SameOrders.of_updOrder h2 (hfP _)
          refine SameOrders.trans (SameOrders.trans ?_ s1) (SameOrders.of_eq rfl rfl rfl)
          cases isSell <;> exact SameOrders.of_eq rfl rfl rfl
    · rename_i n hn
      split at h
      · cases h
      · rename_i L hL
        split at h
        · cases h
        · rename_i lob2 h2
          split at h
          · cases h
          · rename_i lob3 h3
            split at h
            · cases h
            · rename_i lob4 h4
              split at h
              · cases h
              · rename_i lob5 h5
                split at h
                · cases h
                · rename_i lob6 h6
                  split at h
                  · cases h
                  · rename_i r2 h7
                    cases h
                    refine ⟨rfl, Or.inr ⟨hc, _, r2, ?_, h7, rfl, rfl⟩⟩
                    have s2 := SameOrders.of_updOrder h2 (hfN _)
                    have s3 := SameOrders.of_updLimit h3
                    have s4 := SameOrders.of_updLimit h4
                    have s5 := SameOrders.of_updLimit h5
                    have s6 := SameOrders.of_updOrder h6 (hfP _)
                    refine SameOrders.trans (SameOrders.trans (SameOrders.trans (SameOrders.trans
                      (SameOrders.trans (SameOrders.trans ?_ s2) s3) s4) s5) s6)
                      (SameOrders.of_eq rfl rfl rfl)
                    exact SameOrders.of_eq rfl rfl rfl

/-- What a cancel that returns has done: it found the lock free, and either the ID was
not in the table and it returned the error with the lock held, or it ran
`cancelOrderIndexes` on the order, removed the ID and returned the acceptance line,
followed by the top-of-book line exactly when `cancelOrderIndexes` said so. -/
theorem CancelOrder_inv (lob : LimitOrderBook) (id : Int) (r : Ret)
    (h : CancelOrder lob id = .ok r) :
    lob.Lock = false ∧
    ((mapGet lob.OrdersByID id = none ∧ r = ({ lob with Lock := true }, [], some (notFound id))) ∨
     (∃ (po : Nat) (o : Order) (lobC : LimitOrderBook) (tob : Bool),
        mapGet lob.OrdersByID id = some po ∧ lob.orders[po]? = some o ∧
        cancelOrderIndexes { lob with Lock := true } po = .ok (lobC, tob) ∧
        r.2.2 = none ∧
        r.1 = lockUnlock { lobC with OrdersByID := mapDelete lobC.OrdersByID id } ∧
        ((tob = false ∧ r.2.1 = [getOrderOutput true o]) ∨
         (tob = true ∧ ∃ line,
            getTobOutput { lobC with OrdersByID := mapDelete lobC.OrdersByID id } o.IsSell
              = .ok line ∧
            r.2.1 = [getOrderOutput true o, line])))) := by
  unfold CancelOrder at h
  obtain ⟨lob1, h1, h2⟩ := bind_ok _ _ _ h
  clear h
  obtain ⟨hlock, rfl⟩ := lockLock_inv _ _ h1
  clear h1
  refine ⟨hlock, ?_⟩
  cases hg : mapGet lob.OrdersByID id with
  | none =>
    simp only [hg, pure, Except.pure, Except.ok.injEq] at h2
    exact Or.inl ⟨rfl, h2.symm⟩
  | some po =>
    simp only [hg] at h2
    obtain ⟨o, ho, h3⟩ := bind_ok _ _ _ h2
    clear h2
    obtain ⟨a, ha, hoa⟩ := derefOrder_inv _ _ _ ho
    cases ha
    obtain ⟨⟨lobC, tob⟩, hci, h4⟩ := bind_ok _ _ _ h3
    clear h3
    refine Or.inr ⟨po, o, lobC, tob, rfl, hoa, hci, ?_⟩
    cases tob with
    | false =>
      simp only [Bool.false_eq_true, if_false, pure, Except.pure, bind, Except.bind,
        Except.ok.injEq] at h4
      subst h4
      exact ⟨rfl, rfl, Or.inl ⟨rfl, rfl⟩⟩
    | true =>
      simp only [if_true, pure, Except.pure, bind, Except.bind] at h4
      split at h4
      · cases h4
      · rename_i v hv
        cases h4
        exact ⟨rfl, rfl, Or.inr ⟨rfl, v, hv, rfl⟩⟩

/-- C12: for every book state, when a submit or a cancel returns without error, the
output has one or two lines.  For a submit the first line is `R, {ownerID}, {orderID}`
or `A, {ownerID}, {orderID}` of the submitted order, and a second line, present only
after an `A` line, is the top-of-book line of the submitted side: `B, S, p, v` or
`B, B, p, v` with two integers, or with `-` twice.  For a cancel the ID is in the
table, the first line is `A, {ownerID}, {orderID}` of the order stored under it, and a
second line, when present, is the top-of-book line of that order's side. -/
theorem C12_output_lines_have_the_documented_form (lob lob2 : LimitOrderBook) (c : Cmd)
    (out : List String) (h : step lob c = .ok (lob2, out, none)) :
    match c with
    | .submit uid _ _ isSell id =>
      out = ["R, " ++ toString uid ++ ", " ++ toString id] ∨
      out = ["A, " ++ toString uid ++ ", " ++ toString id] ∨
      ∃ tob : Option (Int × Int),
        out = ["A, " ++ toString uid ++ ", " ++ toString id, tobLine isSell tob]
    | .cancel id =>
      ∃ (po : Nat) (o : Order),
        mapGet lob.OrdersByID id = some po ∧ lob.orders[po]? = some o ∧
        (out = ["A, " ++ toString o.UID ++ ", " ++ toString o.ID] ∨
         ∃ tob : Option (Int × Int),
           out = ["A, " ++ toString o.UID ++ ", " ++ toString o.ID, tobLine o.IsSell tob]) := by
  cases c with
  | submit uid price qty isSell id =>
    simp only [step] at h
    obtain ⟨_, _, hr | ⟨_, lobM, r2, hsame, hni, _, hout⟩⟩ := NewOrder_inv _ _ _ _ _ _ _ h
    · left
      have hr2 : out = [getOrderOutput false ⟨id, uid, price, qty, isSell, none, none, none⟩] :=
        hr.2.2
      rw [hr2, getOrderOutput_reject]
    · right
      replace hout : out = r2.2 := hout
      obtain ⟨oM, hoM, _, hcase⟩ := newOrderIndexes_inv _ _ _ _ hni
      obtain ⟨y, hy, _, _, _, _, hside⟩ := hsame.keep lob.orders.length
        ⟨id, uid, price, qty, isSell, none, none, none⟩ (by simp)
      rw [hoM] at hy
      cases hy
      simp only at hside
      rcases hcase with ⟨_, line, hline, hr2⟩ | ⟨_, _, hr2⟩
      · right
        refine ⟨cachedTop r2.1 isSell, ?_⟩
        rw [hout, hr2, getTobOutput_line _ _ _ hline, hside, getOrderOutput_accept]
        rfl
      · left
        rw [hout, hr2, getOrderOutput_accept]
  | cancel id =>
    simp only [step] at h
    obtain ⟨_, hr | ⟨po, o, lobC, tob, hget, ho, _, _, _, hout⟩⟩ := CancelOrder_inv _ _ _ h
    · have := congrArg (fun x => x.2.2) hr.2
      simp at this
    · refine ⟨po, o, hget, ho, ?_⟩
      rcases hout with ⟨_, hout⟩ | ⟨_, line, hline, hout⟩
      · left
        replace hout : out = [getOrderOutput true o] := hout
        rw [hout, getOrderOutput_accept]
      · right
        replace hout : out = [getOrderOutput true o, line] := hout
        exact ⟨_, by rw [hout, getTobOutput_line _ _ _ hline, getOrderOutput_accept]⟩

/-- C12 at the book with one bid (id 1, owner 7): the cancel of id 1 returns the two
lines `A, 7, 1` and `B, B, -, -`. -/
theorem C12_witness :
    ∃ (po : Nat) (o : Order),
      mapGet oneBidBook.OrdersByID 1 = some po ∧ oneBidBook.orders[po]? = some o ∧
      (["A, 7, 1", "B, B, -, -"] = ["A, " ++ toString o.UID ++ ", " ++ toString o.ID] ∨
       ∃ tob : Option (Int × Int),
         ["A, 7, 1", "B, B, -, -"]
           = ["A, " ++ toString o.UID ++ ", " ++ toString o.ID, tobLine o.IsSell tob]) :=
  C12_output_lines_have_the_documented_form oneBidBook
    { oneBidBook with BuyTree := [], HighestBuy := none, OrdersByID := [] }
    (.cancel 1) ["A, 7, 1", "B, B, -, -"] rfl

theorem reject_line_ne (a b c d : String) :
    "R, " ++ a ++ ", " ++ b ≠ "A, " ++ c ++ ", " ++ d := by
  intro h
  have h2 := congrArg String.data h
  simp only [String.data_append] at h2
  have h3 := congrArg List.head? h2
  simp at h3

theorem lockUnlock_bestOf (lob : LimitOrderBook) (s : Bool) :
    bestOf (lockUnlock lob) s = bestOf lob s := by
  cases s <;> rfl

theorem improveBest_bestOf_other (lob : LimitOrderBook) (po : Nat) (s : Bool) (price : Int) :
    bestOf (improveBest lob po s price) (!s) = bestOf lob (!s) := by
  unfold improveBest setBest bestOf
  cases s <;> split_ifs <;> simp_all

theorem improveBest_bestOf_same (lob : LimitOrderBook) (po : Nat) (s : Bool) (price : Int) :
    bestOf (improveBest lob po s price) s
      = if improves lob s price then some po else bestOf lob s := by
  unfold improveBest setBest bestOf
  cases s <;> split_ifs <;> simp_all

theorem SameOrders.bestOf_eq {a b : LimitOrderBook} (h : SameOrders a b) (s : Bool) :
    bestOf b s = bestOf a s := by
  cases s
  · exact h.buy
  · exact h.sell

/-- C13: for every submit that returns with the acceptance line first, the new order is
at the next free address `lob.orders.length`, and with the cached best pointer of the
new order's side before the call: if it is nil, or leads to an order and the new price
is strictly better than that order's price (lower for a sell, higher for a buy), the
pointer becomes the new order and the output is the acceptance line and a top-of-book
line of the side; if the new price equals that order's price, the output is the same
two lines and the pointer is as before; if the new price is strictly worse, the output
is the acceptance line alone and the pointer is as before.  The cached pointer of the
other side is as before. -/
theorem C13_accepted_submit_moves_the_cache_only_on_a_better_price
    (lob lob2 : LimitOrderBook) (uid price qty : Int) (isSell : Bool) (id : Int)
    (out : List String) (err : Option String)
    (h : NewOrder lob uid price qty isSell id = .ok (lob2, out, err))
    (hacc : out.head? = some ("A, " ++ toString uid ++ ", " ++ toString id)) :
    bestOf lob2 (!isSell) = bestOf lob (!isSell) ∧
    (∃ x : Order, lob2.orders[lob.orders.length]? = some x ∧ x.ID = id ∧ x.UID = uid ∧
      x.Price = price ∧ x.Quantity = qty ∧ x.IsSell = isSell) ∧
    (bestOf lob isSell = none →
      bestOf lob2 isSell = some lob.orders.length ∧
      ∃ tob, out = ["A, " ++ toString uid ++ ", " ++ toString id, tobLine isSell tob]) ∧
    (∀ (b : Nat) (ob : Order), bestOf lob isSell = some b → lob.orders[b]? = some ob →
      ((if isSell then price < ob.Price else ob.Price < price) →
        bestOf lob2 isSell = some lob.orders.length ∧
        ∃ tob, out = ["A, " ++ toString uid ++ ", " ++ toString id, tobLine isSell tob]) ∧
      (price = ob.Price →
        bestOf lob2 isSell = some b ∧
        ∃ tob, out = ["A, " ++ toString uid ++ ", " ++ toString id, tobLine isSell tob]) ∧
      ((if isSell then ob.Price < price else price < ob.Price) →
        bestOf lob2 isSell = some b ∧
        out = ["A, " ++ toString uid ++ ", " ++ toString id])) := by
  obtain ⟨_, _, hr | ⟨_, lobM, r2, hsame, hni, hst, hout⟩⟩ := NewOrder_inv _ _ _ _ _ _ _ h
  · have hr2 : out = [getOrderOutput false ⟨id, uid, price, qty, isSell, none, none, none⟩] :=
      hr.2.2
    rw [hr2, getOrderOutput_reject] at hacc
    simp only [List.head?_cons, Option.some.injEq] at hacc
    exact absurd hacc (reject_line_ne _ _ _ _)
  · replace hout : out = r2.2 := hout
    replace hst : lob2 = lockUnlock r2.1 := hst
    obtain ⟨oM, hoM, hbest, hcase⟩ := newOrderIndexes_inv _ _ _ _ hni
    obtain ⟨y, hy, hyid, hyuid, hyprice, hyqty, hyside⟩ := hsame.keep lob.orders.length
      ⟨id, uid, price, qty, isSell, none, none, none⟩ (by simp)
    rw [hoM] at hy
    cases hy
    simp only at hyid hyuid hyprice hyqty hyside
    rw [hyside, hyprice] at hbest hcase
    have hbM : ∀ s, bestOf lobM s = bestOf lob s := fun s => by
      rw [hsame.bestOf_eq s]
      cases s <;> rfl
    have hother : bestOf lob2 (!isSell) = bestOf lob (!isSell) := by
      rw [hst, lockUnlock_bestOf, hbest, improveBest_bestOf_other, hbM]
    have hsameSide : bestOf lob2 isSell
        = if improves lobM isSell price then some lob.orders.length else bestOf lob isSell := by
      rw [hst, lockUnlock_bestOf, hbest, improveBest_bestOf_same, hbM]
    have hnew : ∃ x : Order, lob2.orders[lob.orders.length]? = some x ∧ x.ID = id ∧
        x.UID = uid ∧ x.Price = price ∧ x.Quantity = qty ∧ x.IsSell = isSell := by
      refine ⟨oM, ?_, hyid, hyuid, hyprice, hyqty, hyside⟩
      rw [hst, hbest]
      show (improveBest lobM lob.orders.length isSell price).orders[lob.orders.length]? = some oM
      rw [improveBest_orders]
      exact hoM
    have htwo : ∀ line, getTobOutput r2.1 isSell = .ok line →
        r2.2 = [getOrderOutput true ⟨id, uid, price, qty, isSell, none, none, none⟩] ++ [line] →
        ∃ tob, out = ["A, " ++ toString uid ++ ", " ++ toString id, tobLine isSell tob] := by
      intro line hline hr2
      exact ⟨_, by rw [hout, hr2, getTobOutput_line _ _ _ hline, getOrderOutput_accept]; rfl⟩
    have hone : r2.2 = [getOrderOutput true ⟨id, uid, price, qty, isSell, none, none, none⟩] →
        out = ["A, " ++ toString uid ++ ", " ++ toString id] := by
      intro hr2
      rw [hout, hr2, getOrderOutput_accept]
    refine ⟨hother, hnew, ?_, ?_⟩
    · intro hnone
      have hi : improves lobM isSell price = true := by
        simp [improves, hbM, hnone, priceAt]
      refine ⟨by rw [hsameSide, hi]; rfl, ?_⟩
      rcases hcase with ⟨_, line, hline, hr2⟩ | ⟨hf, _, _⟩
      · exact htwo line hline hr2
      · rw [hi] at hf
        cases hf
    · intro b ob hb hob
      obtain ⟨y, hy, _, _, hyp, _, _⟩ := hsame.keep b ob
        (by
          show (lob.orders ++ [_])[b]? = some ob
          rw [List.getElem?_append_left (List.getElem?_eq_some.1 hob).1]
          exact hob)
      have hpa : priceAt lobM (bestOf lobM isSell) = some ob.Price := by
        simp [priceAt, hbM, hb, hy, hyp]
      rw [hpa] at hcase
      have hi : improves lobM isSell price
          = if isSell then decide (price < ob.Price) else decide (price > ob.Price) := by
        simp only [improves, hpa]
      refine ⟨?_, ?_, ?_⟩
      · intro hlt
        have hi2 : improves lobM isSell price = true := by
          rw [hi]
          cases isSell <;> simpa using hlt
        refine ⟨by rw [hsameSide, hi2]; rfl, ?_⟩
        rcases hcase with ⟨_, line, hline, hr2⟩ | ⟨hf, _, _⟩
        · exact htwo line hline hr2
        · rw [hi2] at hf
          cases hf
      · intro heq
        have hi2 : improves lobM isSell price = false := by
          rw [hi]
          cases isSell <;> simp [heq]
        refine ⟨by rw [hsameSide, hi2]; simpa using hb, ?_⟩
        rcases hcase with ⟨_, line, hline, hr2⟩ | ⟨_, hne, _⟩
        · exact htwo line hline hr2
        · exact absurd (by rw [heq]) hne
      · intro hgt
        have hi2 : improves lobM isSell price = false := by
          rw [hi]
          cases isSell
          · simp only [Bool.false_eq_true, if_false] at hgt ⊢
            simp only [decide_eq_false_iff_not]
            omega
          · simp only [if_true] at hgt ⊢
            simp only [decide_eq_false_iff_not]
            omega
        have hne : price ≠ ob.Price := by
          cases isSell
          · simp only [Bool.false_eq_true, if_false] at hgt
            omega
          · simp only [if_true] at hgt
            omega
        refine ⟨by rw [hsameSide, hi2]; simpa using hb, ?_⟩
        rcases hcase with ⟨hor, _, _, _⟩ | ⟨_, _, hr2⟩
        · rcases hor with ht | he
          · rw [hi2] at ht
            cases ht
          · exact absurd (Option.some.inj he).symm hne
        · exact hone hr2

/-- C13 at the book with one bid of 10 at 100: the buy of 5 at the same price (id 2) is
accepted with the lines `A, 7, 2` and `B, B, 100, 15`, and the cached best bid stays on
order 1 (address 0). -/
theorem C13_witness :
    bestOf
      { BuyTree := [(⟨100⟩, 0)], SellTree := [], LowestSell := none, HighestBuy := some 0,
        OrdersByID := [(2, 1), (1, 0)], Lock := false,
        orders := [⟨1, 7, 100, 10, false, some 1, none, some 0⟩,
                   ⟨2, 7, 100, 5, false, none, none, some 0⟩],
        limits := [⟨100, 2, 15, some 0, some 1⟩] } false = some 0 ∧
    ∃ tob, ["A, 7, 2", "B, B, 100, 15"]
      = ["A, " ++ toString (7 : Int) ++ ", " ++ toString (2 : Int), tobLine false tob] :=
  ((C13_accepted_submit_moves_the_cache_only_on_a_better_price oneBidBook
    { BuyTree := [(⟨100⟩, 0)], SellTree := [], LowestSell := none, HighestBuy := some 0,
      OrdersByID := [(2, 1), (1, 0)], Lock := false,
      orders := [⟨1, 7, 100, 10, false, some 1, none, some 0⟩,
                 ⟨2, 7, 100, 5, false, none, none, some 0⟩],
      limits := [⟨100, 2, 15, some 0, some 1⟩] }
    7 100 5 false 2 ["A, 7, 2", "B, B, 100, 15"] none rfl rfl).2.2.2 0
    ⟨1, 7, 100, 10, false, none, none, some 0⟩ rfl rfl).2.1 rfl

/-! ## The cancel of a cached best order that is alone at its level -/

/-- The book `twoAsksBook` is reached by three submits. -/
theorem twoAsksBook_reachable : Reachable twoAsksBook :=
  ⟨[.submit 7 100 10 false 1, .submit 7 105 5 true 3, .submit 7 107 6 true 4], by decide, rfl⟩

theorem cachedTop_of_head (lob : LimitOrderBook) (s : Bool) (l2 h2 : Nat) (L2 : Limit)
    (oh : Order) (hb : bestOf lob s = some h2) (hoh : lob.orders[h2]? = some oh)
    (hp : oh.ParentLimit = some l2) (hL2 : lob.limits[l2]? = some L2) :
    cachedTop lob s = some (L2.Price, L2.TotalVolume) := by
  simp [cachedTop, hb, hoh, hp, hL2]

theorem cachedTop_of_none (lob : LimitOrderBook) (s : Bool) (hb : bestOf lob s = none) :
    cachedTop lob s = none := by
  simp [cachedTop, hb]

/-- In every reachable state, let the order under a present ID be the cached best
order of its side and the only order of its level (count 1).  Called with the lock
free, the cancel returns the acceptance line and one top-of-book line.  Afterwards the
index of the order's side holds the levels it held before except the one at the
order's price; the other side's index and cached pointer are as before; and either the
side's index is empty, its cached pointer is nil and the line shows `-` twice, or the
cached pointer is the head order of the remaining level with the nearest price (the
lowest remaining ask, which is above the cancelled price; the highest remaining bid,
which is below it) and the line shows that level's price and volume. -/
theorem CancelOrder_cached_best_alone_of_unlocked (lob : LimitOrderBook)
    (h : Reachable lob) (hlock : lob.Lock = false) (id : Int) (po : Nat) (o : Order)
    (l : Nat) (L : Limit)
    (hget : mapGet lob.OrdersByID id = some po) (ho : lob.orders[po]? = some o)
    (hcached : bestOf lob o.IsSell = some po)
    (hl : o.ParentLimit = some l) (hL : lob.limits[l]? = some L) (hsz : L.Size = 1) :
    ∃ (lob2 : LimitOrderBook) (line : String),
      CancelOrder lob id
        = .ok (lob2, ["A, " ++ toString o.UID ++ ", " ++ toString o.ID, line], none) ∧
      (∀ e, e ∈ sideTree lob2 o.IsSell ↔ e ∈ sideTree lob o.IsSell ∧ e.1.val ≠ o.Price) ∧
      sideTree lob2 (!o.IsSell) = sideTree lob (!o.IsSell) ∧
      bestOf lob2 (!o.IsSell) = bestOf lob (!o.IsSell) ∧
      ((sideTree lob2 o.IsSell = [] ∧ bestOf lob2 o.IsSell = none ∧
          line = tobLine o.IsSell none) ∨
       ∃ (k2 : treeKey) (l2 : Nat) (L2 : Limit) (h2 : Nat),
         (k2, l2) ∈ sideTree lob2 o.IsSell ∧
         (if o.IsSell then o.Price < k2.val else k2.val < o.Price) ∧
         (∀ e ∈ sideTree lob2 o.IsSell,
           if o.IsSell then k2.val ≤ e.1.val else e.1.val ≤ k2.val) ∧
         lob2.limits[l2]? = some L2 ∧ L2.Price = k2.val ∧ L2.HeadOrder = some h2 ∧
         bestOf lob2 o.IsSell = some h2 ∧
         line = tobLine o.IsSell (some (L2.Price, L2.TotalVolume))) := by
  have hi := h.invariant
  have hmem := mapGet_some _ _ _ hget
  obtain ⟨o1, l1, L1, _, _, ho1, _, hl1, hL1, hP, hk, _⟩ := hi.heap.cancel_facts id po hmem
  rw [ho] at ho1
  cases ho1
  rw [hl] at hl1
  cases hl1
  rw [hL] at hL1
  cases hL1
  obtain ⟨lob2, out, o2, hc, ho2, _, _, _, _, _⟩ := CancelOrder_found_spec lob id po hi hlock hget
  rw [ho] at ho2
  cases ho2
  obtain ⟨_, hr | ⟨po3, o3, lobC, tob, hget3, ho3, hci3, _, hst, hout⟩⟩ := CancelOrder_inv _ _ _ hc
  · rw [hget] at hr
    cases hr.1
  rw [hget] at hget3
  cases hget3
  rw [ho] at ho3
  cases ho3
  replace hst : lob2 = lockUnlock { lobC with OrdersByID := mapDelete lobC.OrdersByID id } := hst
  have hk2 : (({ val := L.Price } : treeKey), l) ∈ sideTree lob o.IsSell := by
    rw [hP]; exact hk
  cases hs : o.IsSell with
  | true =>
    rw [hs] at hcached hk2 hout
    simp only [bestOf, if_true] at hcached
    simp only [sideTree, if_true] at hk2
    obtain ⟨o4, ho4, _, hmin⟩ := hi.best.bestSell po hcached
    rw [ho] at ho4
    cases ho4
    have hsorted := hi.heap.treeSorted true
    simp only [sideTree, if_true] at hsorted
    obtain ⟨rest, hrest⟩ := sorted_head_of_min lob.SellTree ⟨L.Price⟩ l hsorted hk2
      (fun k w hkw => by rw [hP]; exact hmin k w hkw)
    have hrl : ∀ e, rest.head? = some e → ∃ L1, lob.limits[e.2]? = some L1 := by
      intro e he
      have hm : e ∈ sideTree lob true := by
        simp only [sideTree, if_true]
        rw [hrest]
        exact List.mem_cons_of_mem _ (List.mem_of_mem_head? he)
      obtain ⟨L1, _, _, hL1, _⟩ := hi.heap.treeLevel true e.1 e.2 hm
      exact ⟨L1, hL1⟩
    have hci := cancelOrderIndexes_one_sell { lob with Lock := true } po l o L rest ho hl hL
      hsz hcached hs hrest hrl
    rw [hci] at hci3
    cases hci3
    rcases hout with ⟨hf, _⟩ | ⟨_, line, hline, hout⟩
    · cases hf
    replace hout : getOrderOutput true o :: out = [getOrderOutput true o, line] := hout
    have hout2 : out = [line] := (List.cons.inj hout).2
    subst hout2
    have hline2 := getTobOutput_line _ _ _ hline
    rw [hrest] at hsorted
    have hgt : ∀ e ∈ rest, L.Price < e.1.val := (List.pairwise_cons.1 hsorted).1
    refine ⟨lob2, line, by rw [hc, getOrderOutput_accept], ?_, by rw [hst]; rfl,
      by rw [hst]; rfl, ?_⟩
    · intro e
      rw [hst]
      show e ∈ rest ↔ e ∈ lob.SellTree ∧ e.1.val ≠ o.Price
      rw [hrest, ← hP]
      constructor
      · intro he
        exact ⟨List.mem_cons_of_mem _ he, ne_of_gt (hgt e he)⟩
      · rintro ⟨he, hne⟩
        rcases List.mem_cons.1 he with rfl | he
        · exact absurd rfl hne
        · exact he
    · cases hr : rest with
      | nil =>
        left
        subst hr
        refine ⟨by rw [hst]; rfl, by rw [hst]; rfl, ?_⟩
        rw [hline2, cachedTop_of_none]
        rfl
      | cons e rest2 =>
        right
        subst hr
        obtain ⟨k2, l2⟩ := e
        have hm : (k2, l2) ∈ sideTree lob true := by
          simp only [sideTree, if_true]
          rw [hrest]
          exact List.mem_cons_of_mem _ (List.mem_cons_self _ _)
        obtain ⟨L2, h2, oh, hL2, hP2, hH2, hoh, hpl, _⟩ := hi.heap.treeLevel true k2 l2 hm
        have hb2 : bestOf lob2 true = some h2 := by
          rw [hst]
          show headOfLevel { lob with Lock := true } (some (k2, l2)) = some h2
          simp [headOfLevel, hL2, hH2]
        refine ⟨k2, l2, L2, h2, by rw [hst]; exact List.mem_cons_self _ _, ?_, ?_,
          by rw [hst]; exact hL2, hP2, hH2, hb2, ?_⟩
        · simp only [if_true]
          rw [← hP]
          exact hgt _ (List.mem_cons_self _ _)
        · intro e he
          simp only [if_true]
          rw [hst] at he
          replace he : e ∈ (k2, l2) :: rest2 := he
          rcases List.mem_cons.1 he with rfl | he
          · exact le_refl _
          · exact le_of_lt ((List.pairwise_cons.1 (List.pairwise_cons.1 hsorted).2).1 e he)
        · rw [hline2]
          rw [hst] at hb2
          exact congrArg (tobLine true) (cachedTop_of_head _ true l2 h2 L2 oh hb2 hoh hpl hL2)
  | false =>
    rw [hs] at hcached hk2 hout
    simp only [bestOf, if_false, Bool.false_eq_true] at hcached
    simp only [sideTree, if_false, Bool.false_eq_true] at hk2
    obtain ⟨o4, ho4, _, hmax⟩ := hi.best.bestBuy po hcached
    rw [ho] at ho4
    cases ho4
    have hnS : lob.LowestSell ≠ some po := by
      intro hS
      obtain ⟨o5, ho5, hsell, _⟩ := hi.best.bestSell po hS
      rw [ho] at ho5
      cases ho5
      rw [hs] at hsell
      cases hsell
    have hsorted := hi.heap.treeSorted false
    simp only [sideTree, if_false, Bool.false_eq_true] at hsorted
    obtain ⟨init, hinit⟩ := sorted_last_of_max lob.BuyTree ⟨L.Price⟩ l hsorted hk2
      (fun k w hkw => by rw [hP]; exact hmax k w hkw)
    have hsi : init.Pairwise (fun a b => a.1.val < b.1.val) := by
      rw [hinit, List.pairwise_append] at hsorted
      exact hsorted.1
    have hlt : ∀ e ∈ init, e.1.val < L.Price := by
      intro e he
      rw [hinit, List.pairwise_append] at hsorted
      exact hsorted.2.2 e he _ (List.mem_singleton_self _)
    have hil : ∀ e, init.getLast? = some e → ∃ L1, lob.limits[e.2]? = some L1 := by
      intro e he
      have hm : e ∈ sideTree lob false := by
        simp only [sideTree, if_false, Bool.false_eq_true]
        rw [hinit]
        exact List.mem_append_left _ (sorted_getLast_max init e hsi he).1
      obtain ⟨L1, _, _, hL1, _⟩ := hi.heap.treeLevel false e.1 e.2 hm
      exact ⟨L1, hL1⟩
    have hci := cancelOrderIndexes_one_buy { lob with Lock := true } po l o L init ho hl hL
      hsz hnS hcached hs hinit hsorted hil
    rw [hci] at hci3
    cases hci3
    rcases hout with ⟨hf, _⟩ | ⟨_, line, hline, hout⟩
    · cases hf
    replace hout : getOrderOutput true o :: out = [getOrderOutput true o, line] := hout
    have hout2 : out = [line] := (List.cons.inj hout).2
    subst hout2
    have hline2 := getTobOutput_line _ _ _ hline
    refine ⟨lob2, line, by rw [hc, getOrderOutput_accept], ?_, by rw [hst]; rfl,
      by rw [hst]; rfl, ?_⟩
    · intro e
      rw [hst]
      show e ∈ init ↔ e ∈ lob.BuyTree ∧ e.1.val ≠ o.Price
      rw [hinit, ← hP]
      constructor
      · intro he
        exact ⟨List.mem_append_left _ he, ne_of_lt (hlt e he)⟩
      · rintro ⟨he, hne⟩
        rcases List.mem_append.1 he with he | he
        · exact he
        · rw [List.mem_singleton] at he
          subst he
          exact absurd rfl hne
    · cases hr : init.getLast? with
      | none =>
        left
        have hnil : init = [] := List.getLast?_eq_none_iff.1 hr
        subst hnil
        refine ⟨by rw [hst]; rfl, by rw [hst]; rfl, ?_⟩
        rw [hline2, cachedTop_of_none]
        rfl
      | some e =>
        right
        obtain ⟨k2, l2⟩ := e
        obtain ⟨hmi, hmaxi⟩ := sorted_getLast_max init (k2, l2) hsi hr
        have hm : (k2, l2) ∈ sideTree lob false := by
          simp only [sideTree, if_false, Bool.false_eq_true]
          rw [hinit]
          exact List.mem_append_left _ hmi
        obtain ⟨L2, h2, oh, hL2, hP2, hH2, hoh, hpl, _⟩ := hi.heap.treeLevel false k2 l2 hm
        have hb2 : bestOf lob2 false = some h2 := by
          rw [hst]
          show headOfLevel { lob with Lock := true } init.getLast? = some h2
          rw [hr]
          simp [headOfLevel, hL2, hH2]
        refine ⟨k2, l2, L2, h2, by rw [hst]; exact hmi, ?_, ?_,
          by rw [hst]; exact hL2, hP2, hH2, hb2, ?_⟩
        · simp only [Bool.false_eq_true, if_false]
          rw [← hP]
          exact hlt _ hmi
        · intro e he
          simp only [Bool.false_eq_true, if_false]
          rw [hst] at he
          exact hmaxi e he
        · rw [hline2]
          rw [hst] at hb2
          exact congrArg (tobLine false) (cachedTop_of_head _ false l2 h2 L2 oh hb2 hoh hpl hL2)

/-- At the book with a bid at 100 and asks at 105 (id 3) and 107 (id 4), the lock free:
the cancel of id 3 returns `A, 7, 3` and `B, S, 107, 6`. -/
theorem CancelOrder_cached_best_alone_example :
    ∃ (lob2 : LimitOrderBook) (line : String),
      CancelOrder twoAsksBook 3
        = .ok (lob2, ["A, " ++ toString (7 : Int) ++ ", " ++ toString (3 : Int), line], none) ∧
      (∀ e, e ∈ sideTree lob2 true ↔ e ∈ sideTree twoAsksBook true ∧ e.1.val ≠ 105) ∧
      sideTree lob2 (!true) = sideTree twoAsksBook (!true) ∧
      bestOf lob2 (!true) = bestOf twoAsksBook (!true) ∧
      ((sideTree lob2 true = [] ∧ bestOf lob2 true = none ∧ line = tobLine true none) ∨
       ∃ (k2 : treeKey) (l2 : Nat) (L2 : Limit) (h2 : Nat),
         (k2, l2) ∈ sideTree lob2 true ∧
         (if true then (105 : Int) < k2.val else k2.val < 105) ∧
         (∀ e ∈ sideTree lob2 true, if true then k2.val ≤ e.1.val else e.1.val ≤ k2.val) ∧
         lob2.limits[l2]? = some L2 ∧ L2.Price = k2.val ∧ L2.HeadOrder = some h2 ∧
         bestOf lob2 true = some h2 ∧
         line = tobLine true (some (L2.Price, L2.TotalVolume))) :=
  CancelOrder_cached_best_alone_of_unlocked twoAsksBook twoAsksBook_reachable rfl 3 1
    ⟨3, 7, 105, 5, true, none, none, some 1⟩ 1 ⟨105, 1, 5, some 1, some 1⟩ rfl rfl rfl rfl rfl rfl

/-! ## Volumes -/

theorem wrapInt_of_isGoInt (x : Int) (h : isGoInt x = true) : wrapInt x = x := by
  simp only [isGoInt, Bool.and_eq_true, decide_eq_true_eq] at h
  unfold wrapInt
  omega

theorem wrapInt_add_wrap (a b : Int) : wrapInt (wrapInt a + b) = wrapInt (a + b) := by
  unfold wrapInt
  omega

theorem wrapInt_sub_wrap (a b : Int) : wrapInt (wrapInt a - b) = wrapInt (a - b) := by
  unfold wrapInt
  omega

theorem sum_filter_mapDelete (m : List (Int × Nat)) (hn : (m.map Prod.fst).Nodup) (id : Int)
    (p : Nat) (hp : (id, p) ∈ m) (q : Int × Nat → Bool) (f : Int × Nat → Int) :
    ((m.filter q).map f).sum
      = (((mapDelete m id).filter q).map f).sum + (if q (id, p) then f (id, p) else 0) := by
  induction m with
  | nil => cases hp
  | cons a t ih =>
    rw [List.map_cons, List.nodup_cons] at hn
    rcases List.mem_cons.1 hp with e1 | e1
    · have habs : ∀ r, (id, r) ∉ t := by
        intro r hr
        exact hn.1 (List.mem_map.2 ⟨(id, r), hr, by rw [← e1]⟩)
      have hdel : mapDelete (a :: t) id = t := by
        have : mapDelete (a :: t) id = mapDelete t id := by
          simp [mapDelete, ← e1]
        rw [this, mapDelete_of_absent t id habs]
      rw [hdel, ← e1]
      by_cases hq : q (id, p) = true
      · simp [List.filter_cons, hq, add_comm]
      · simp [List.filter_cons, hq]
    · have hne : a.1 ≠ id := by
        intro e
        exact hn.1 (List.mem_map.2 ⟨(id, p), e1, e.symm⟩)
      have hdel : mapDelete (a :: t) id = a :: mapDelete t id := by
        simp [mapDelete, hne]
      rw [hdel]
      have := ih hn.2 e1
      by_cases hq : q a = true
      · simp only [List.filter_cons, hq, if_true, List.map_cons, List.sum_cons, this]
        ring
      · simp only [List.filter_cons, hq, if_false, Bool.false_eq_true, this]

theorem quantityAt_eq (orders : List Order) (p : Nat) (o : Order) (h : orders[p]? = some o) :
    quantityAt orders p = o.Quantity := by
  simp [quantityAt, h]

theorem Grows.quantity_kept {a b : List Order} {o2 : Order} {t : Option Nat} (g : Grows a b o2 t)
    (p : Nat) (o : Order) (h : a[p]? = some o) : quantityAt b p = quantityAt a p := by
  rw [quantityAt_eq a p o h]
  by_cases hpt : some p = t
  · rw [quantityAt_eq b p _ (g.relink p o h hpt)]
  · rw [quantityAt_eq b p _ (g.keep p o h hpt)]

/-- The volume resting at a level after one order entered the ID table. -/
theorem volumeAt_grow (lob lob2 : LimitOrderBook) (o2 : Order) (t : Option Nat) (id : Int)
    (l : Nat) (g : Grows lob.orders lob2.orders o2 t) (hl : o2.ParentLimit = some l)
    (hv : ∀ id2 p2, (id2, p2) ∈ lob.OrdersByID → ∃ o : Order, lob.orders[p2]? = some o)
    (e : lob2.OrdersByID = (id, lob.orders.length) :: lob.OrdersByID) (l2 : Nat) :
    volumeAt lob2 l2 = volumeAt lob l2 + (if l2 = l then o2.Quantity else 0) := by
  unfold volumeAt
  rw [e]
  have h1 : ((lob.OrdersByID.filter (fun e => decide (levelOf lob2.orders e.2 = some l2))).map
        (fun e => quantityAt lob2.orders e.2)).sum
      = ((lob.OrdersByID.filter (fun e => decide (levelOf lob.orders e.2 = some l2))).map
        (fun e => quantityAt lob.orders e.2)).sum := by
    have hf : lob.OrdersByID.filter (fun e => decide (levelOf lob2.orders e.2 = some l2))
        = lob.OrdersByID.filter (fun e => decide (levelOf lob.orders e.2 = some l2)) := by
      apply List.filter_congr
      intro x hx
      obtain ⟨o, ho⟩ := hv x.1 x.2 hx
      rw [g.levelOf _ _ ho]
    rw [hf]
    congr 1
    apply List.map_congr_left
    intro x hx
    obtain ⟨o, ho⟩ := hv x.1 x.2 (List.mem_of_mem_filter hx)
    exact g.quantity_kept _ _ ho
  by_cases hll : l2 = l
  · subst hll
    have hq : levelOf lob2.orders lob.orders.length = some l2 := by
      rw [levelOf_eq _ _ _ g.new, hl]
    simp only [List.filter_cons, hq, decide_True, if_true, List.map_cons, List.sum_cons, h1,
      quantityAt_eq _ _ _ g.new]
    exact add_comm _ _
  · have hq : ¬ (levelOf lob2.orders lob.orders.length = some l2) := by
      rw [levelOf_eq _ _ _ g.new, hl]
      exact fun e => hll (Option.some.inj e).symm
    simp only [List.filter_cons, hq, decide_False, Bool.false_eq_true, if_false, h1, hll,
      add_zero]

/-- The volume resting at a level before one order left the ID table. -/
theorem volumeAt_delete (lob lob2 : LimitOrderBook) (hn : (lob.OrdersByID.map Prod.fst).Nodup)
    (id : Int) (po : Nat) (o : Order) (l : Nat)
    (hmem : (id, po) ∈ lob.OrdersByID) (ho : lob.orders[po]? = some o)
    (hl : o.ParentLimit = some l) (e1 : lob2.orders = lob.orders)
    (e3 : lob2.OrdersByID = mapDelete lob.OrdersByID id) (l2 : Nat) :
    volumeAt lob l2 = volumeAt lob2 l2 + (if l2 = l then o.Quantity else 0) := by
  unfold volumeAt
  rw [e1, e3, sum_filter_mapDelete lob.OrdersByID hn id po hmem]
  congr 1
  simp only [levelOf_eq _ _ _ ho, hl, quantityAt_eq _ _ _ ho, decide_eq_true_eq,
    Option.some.injEq]
  by_cases hll : l2 = l
  · subst hll
    simp
  · have : ¬ (l = l2) := fun e => hll e.symm
    simp [hll, this]

/-- A level is stored in one index only, and under one key. -/
theorem HeapInv.level_unique {lob : LimitOrderBook} (h : HeapInv lob) (s1 s2 : Bool)
    (k1 k2 : treeKey) (l : Nat) (h1 : (k1, l) ∈ sideTree lob s1)
    (h2 : (k2, l) ∈ sideTree lob s2) : s1 = s2 ∧ k1 = k2 := by
  obtain ⟨L1, hd1, oh1, hL1, hP1, hH1, hoh1, _, hs1, _⟩ := h.treeLevel s1 k1 l h1
  obtain ⟨L2, hd2, oh2, hL2, hP2, hH2, hoh2, _, hs2, _⟩ := h.treeLevel s2 k2 l h2
  rw [hL1] at hL2
  cases hL2
  rw [hH1] at hH2
  cases hH2
  rw [hoh1] at hoh2
  cases hoh2
  refine ⟨hs1.symm.trans hs2, ?_⟩
  cases k1
  cases k2
  simp only at hP1 hP2
  rw [← hP1, ← hP2]

theorem volumeAt_congr (a b : LimitOrderBook) (e1 : b.orders = a.orders)
    (e2 : b.OrdersByID = a.OrdersByID) (l : Nat) : volumeAt b l = volumeAt a l := by
  unfold volumeAt
  rw [e1, e2]

theorem VolInv.vol_congr {a b : LimitOrderBook} (h : VolInv a) (e1 : b.orders = a.orders)
    (e2 : b.OrdersByID = a.OrdersByID) (e3 : b.limits = a.limits)
    (e4 : ∀ s, sideTree b s = sideTree a s) : VolInv b := by
  intro s k l L hk hL
  rw [e4] at hk
  rw [e3] at hL
  rw [volumeAt_congr a b e1 e2]
  exact h s k l L hk hL

/-- No order rests at a level that is not in the arena of limits. -/
theorem HeapInv.volumeAt_fresh {lob : LimitOrderBook} (h : HeapInv lob) (l : Nat)
    (hl : lob.limits.length ≤ l) : volumeAt lob l = 0 := by
  unfold volumeAt
  have hf : lob.OrdersByID.filter (fun e => decide (levelOf lob.orders e.2 = some l)) = [] := by
    rw [List.filter_eq_nil_iff]
    intro x hx
    obtain ⟨o, ho, _⟩ := h.tableValid x.1 x.2 hx
    obtain ⟨l2, L2, hp, hL2, _⟩ := h.ordParent x.2 o ho
    have hlt : l2 < lob.limits.length := (List.getElem?_eq_some.1 hL2).1
    rw [levelOf_eq _ _ _ ho, hp]
    simp only [decide_eq_true_eq, Option.some.injEq]
    omega
  rw [hf]
  rfl

theorem VolInv.vol_place_new {lob lob2 : LimitOrderBook} (h : HeapInv lob) (hv : VolInv lob)
    (o2 : Order) (hq : isGoInt o2.Quantity = true)
    (hpl : o2.ParentLimit = some lob.limits.length)
    (g : Grows lob.orders lob2.orders o2 none)
    (eL : lob2.limits = lob.limits ++
      [{ Price := o2.Price, Size := 1, TotalVolume := o2.Quantity,
         HeadOrder := some lob.orders.length, TailOrder := some lob.orders.length }])
    (eT : lob2.OrdersByID = (o2.ID, lob.orders.length) :: lob.OrdersByID)
    (hnone : ∀ l, (({ val := o2.Price } : treeKey), l) ∉ sideTree lob o2.IsSell)
    (e4 : sideTree lob2 o2.IsSell
      = Tree.Insert (sideTree lob o2.IsSell) ⟨o2.Price⟩ lob.limits.length)
    (e5 : sideTree lob2 (!o2.IsSell) = sideTree lob (!o2.IsSell)) : VolInv lob2 := by
  intro s k l L hk hL
  have hvol := volumeAt_grow lob lob2 o2 none o2.ID lob.limits.length g hpl
    (fun id2 p2 hm => by
      obtain ⟨o, ho, _⟩ := h.tableValid id2 p2 hm
      exact ⟨o, ho⟩) eT l
  have hold : ∀ s2, (k, l) ∈ sideTree lob s2 → L.TotalVolume = wrapInt (volumeAt lob2 l) := by
    intro s2 hk2
    obtain ⟨L0, _, _, hL0, _⟩ := h.treeLevel s2 k l hk2
    have hlt : l < lob.limits.length := (List.getElem?_eq_some.1 hL0).1
    rw [eL, List.getElem?_append_left hlt] at hL
    have hne : ¬ (l = lob.limits.length) := by omega
    rw [hvol]
    simp only [hne, if_false, add_zero]
    exact hv s2 k l L hk2 hL
  rcases side_cases s o2.IsSell with e | e
  · subst e
    rw [e4, mem_insert _ _ _ hnone] at hk
    rcases hk with hk | hk
    · cases hk
      rw [eL] at hL
      simp at hL
      subst hL
      rw [hvol, h.volumeAt_fresh _ (le_refl _)]
      simp only [if_true, zero_add]
      exact (wrapInt_of_isGoInt _ hq).symm
    · exact hold _ hk
  · subst e
    rw [e5] at hk
    exact hold _ hk

theorem VolInv.vol_place_append {lob lob2 : LimitOrderBook} (h : HeapInv lob) (hv : VolInv lob)
    (o2 : Order) (l : Nat) (t : Option Nat) (L Ln : Limit) (hpl : o2.ParentLimit = some l)
    (hk : (({ val := o2.Price } : treeKey), l) ∈ sideTree lob o2.IsSell)
    (hL : lob.limits[l]? = some L)
    (g : Grows lob.orders lob2.orders o2 t)
    (eL : lob2.limits = lob.limits.set l Ln)
    (hLn : Ln.TotalVolume = wrapInt (L.TotalVolume + o2.Quantity))
    (eT : lob2.OrdersByID = (o2.ID, lob.orders.length) :: lob.OrdersByID)
    (e4 : ∀ s, sideTree lob2 s = sideTree lob s) : VolInv lob2 := by
  intro s k l2 L2 hk2 hL2
  have hvol := volumeAt_grow lob lob2 o2 t o2.ID l g hpl
    (fun id2 p2 hm => by
      obtain ⟨o, ho, _⟩ := h.tableValid id2 p2 hm
      exact ⟨o, ho⟩) eT l2
  rw [e4] at hk2
  have hlt : l < lob.limits.length := (List.getElem?_eq_some.1 hL).1
  by_cases hll : l2 = l
  · subst hll
    rw [eL, List.getElem?_set_self hlt] at hL2
    cases hL2
    rw [hvol, hLn, hv o2.IsSell _ l2 L hk hL]
    simp only [if_true]
    exact wrapInt_add_wrap _ _
  · rw [eL, List.getElem?_set_ne (fun e => hll e.symm)] at hL2
    rw [hvol]
    simp only [hll, if_false, add_zero]
    exact hv s k l2 L2 hk2 hL2

theorem VolInv.vol_cancel_one {lob lob2 : LimitOrderBook} (h : HeapInv lob) (hv : VolInv lob)
    (id : Int) (po : Nat) (o : Order) (l : Nat) (L : Limit)
    (hmem : (id, po) ∈ lob.OrdersByID) (ho : lob.orders[po]? = some o)
    (hl : o.ParentLimit = some l) (hL : lob.limits[l]? = some L)
    (e1 : lob2.orders = lob.orders) (e2 : lob2.limits = lob.limits)
    (e3 : lob2.OrdersByID = mapDelete lob.OrdersByID id)
    (e4 : sideTree lob2 o.IsSell = Tree.Delete (sideTree lob o.IsSell) ⟨L.Price⟩)
    (e5 : sideTree lob2 (!o.IsSell) = sideTree lob (!o.IsSell)) : VolInv lob2 := by
  intro s k l2 L2 hk2 hL2
  obtain ⟨l1, L1, _, hl1, hkk, hL1, _⟩ := h.resting id po o hmem ho
  rw [hl] at hl1
  cases hl1
  rw [hL] at hL1
  cases hL1
  obtain ⟨_, _, _, hLL, hP, _⟩ := h.treeLevel _ _ _ hkk
  rw [hL] at hLL
  cases hLL
  simp only at hP
  have hvol := volumeAt_delete lob lob2 h.keysNodup id po o l hmem ho hl e1 e3 l2
  rw [e2] at hL2
  have hfin : (k, l2) ∈ sideTree lob s → l2 ≠ l → L2.TotalVolume = wrapInt (volumeAt lob2 l2) := by
    intro hk hne
    have := hv s k l2 L2 hk hL2
    rw [hvol] at this
    simpa [hne] using this
  rcases side_cases s o.IsSell with e | e
  · subst e
    rw [e4, mem_delete _ _ (h.treeSorted _)] at hk2
    apply hfin hk2.1
    intro e
    subst e
    obtain ⟨_, hkeq⟩ := h.level_unique _ _ _ _ _ hk2.1 hkk
    apply hk2.2
    show k = ⟨L.Price⟩
    rw [hkeq, hP]
  · subst e
    rw [e5] at hk2
    apply hfin hk2
    intro e
    subst e
    obtain ⟨hs, _⟩ := h.level_unique _ _ _ _ _ hk2 hkk
    cases hb : o.IsSell <;> simp [hb] at hs

theorem VolInv.vol_cancel_many {lob lob2 : LimitOrderBook} (h : HeapInv lob) (hv : VolInv lob)
    (id : Int) (po : Nat) (o : Order) (l : Nat) (L Ln : Limit)
    (hmem : (id, po) ∈ lob.OrdersByID) (ho : lob.orders[po]? = some o)
    (hl : o.ParentLimit = some l) (hL : lob.limits[l]? = some L)
    (e1 : lob2.orders = lob.orders) (e2 : lob2.limits = lob.limits.set l Ln)
    (hLn : Ln.TotalVolume = wrapInt (L.TotalVolume - o.Quantity))
    (e3 : lob2.OrdersByID = mapDelete lob.OrdersByID id)
    (e4 : ∀ s, sideTree lob2 s = sideTree lob s) : VolInv lob2 := by
  intro s k l2 L2 hk2 hL2
  have hvol := volumeAt_delete lob lob2 h.keysNodup id po o l hmem ho hl e1 e3 l2
  rw [e4] at hk2
  have hlt : l < lob.limits.length := (List.getElem?_eq_some.1 hL).1
  by_cases hll : l2 = l
  · subst hll
    rw [e2, List.getElem?_set_self hlt] at hL2
    cases hL2
    rw [hLn, hv s k l2 L hk2 hL, hvol]
    simp only [if_true]
    rw [wrapInt_sub_wrap, add_sub_cancel_right]
  · rw [e2, List.getElem?_set_ne (fun e => hll e.symm)] at hL2
    have := hv s k l2 L2 hk2 hL2
    rw [hvol] at this
    simpa [hll] using this

/-- The state a cancel of a resting order leaves, under the invariant: the arena of
orders is as before, the ID is gone from the table, and either the level had one order
and has left its index, or it had more and has lost the order's quantity. -/
theorem CancelOrder_state (lob : LimitOrderBook) (id : Int) (po : Nat) (h : Inv lob)
    (hget : mapGet lob.OrdersByID id = some po) (r : Ret) (hr : CancelOrder lob id = .ok r) :
    ∃ (o : Order) (l : Nat) (L : Limit),
      lob.orders[po]? = some o ∧ o.ParentLimit = some l ∧ lob.limits[l]? = some L ∧
      r.1.orders = lob.orders ∧ r.1.OrdersByID = mapDelete lob.OrdersByID id ∧
      ((L.Size = 1 ∧ r.1.limits = lob.limits ∧
          sideTree r.1 o.IsSell = Tree.Delete (sideTree lob o.IsSell) ⟨L.Price⟩ ∧
          sideTree r.1 (!o.IsSell) = sideTree lob (!o.IsSell)) ∨
       (L.Size ≠ 1 ∧ (∀ s, sideTree r.1 s = sideTree lob s) ∧
          ∃ Ln : Limit, r.1.limits = lob.limits.set l Ln ∧
            Ln.TotalVolume = wrapInt (L.TotalVolume - o.Quantity))) := by
  have hmem := mapGet_some _ _ _ hget
  obtain ⟨o, l, L, hd, oh, ho, hid, hl, hL, hP, hk, hH, hoh, hpl, hs, hc, hsize, h1, _, _⟩ :=
    h.heap.cancel_facts id po hmem
  have hk2 : (({ val := L.Price } : treeKey), l) ∈ sideTree lob o.IsSell := by
    rw [hP]; exact hk
  obtain ⟨_, hr2 | ⟨po3, o3, lobC, tob, hget3, ho3, hci3, _, hst, _⟩⟩ := CancelOrder_inv _ _ _ hr
  · rw [hget] at hr2
    cases hr2.1
  rw [hget] at hget3
  cases hget3
  rw [ho] at ho3
  cases ho3
  refine ⟨o, l, L, ho, hl, hL, ?_⟩
  by_cases hsz : L.Size = 1
  · by_cases hLS : lob.LowestSell = some po
    · obtain ⟨o4, ho4, hsell, hmin⟩ := h.best.bestSell po hLS
      rw [ho] at ho4
      cases ho4
      rw [hsell] at hk2
      simp only [sideTree, if_true] at hk2
      have hsorted := h.heap.treeSorted true
      simp only [sideTree, if_true] at hsorted
      obtain ⟨rest, hrest⟩ := sorted_head_of_min lob.SellTree ⟨L.Price⟩ l hsorted hk2
        (fun k w hkw => by rw [hP]; exact hmin k w hkw)
      have hrl : ∀ e, rest.head? = some e → ∃ L1, lob.limits[e.2]? = some L1 := by
        intro e he
        have hm : e ∈ sideTree lob true := by
          simp only [sideTree, if_true]
          rw [hrest]
          exact List.mem_cons_of_mem _ (List.mem_of_mem_head? he)
        obtain ⟨L1, _, _, hL1, _⟩ := h.heap.treeLevel true e.1 e.2 hm
        exact ⟨L1, hL1⟩
      have hci := cancelOrderIndexes_one_sell { lob with Lock := true } po l o L rest ho hl hL
        hsz hLS hsell hrest hrl
      rw [hci] at hci3
      cases hci3
      rw [hst]
      refine ⟨rfl, rfl, Or.inl ⟨hsz, rfl, ?_, ?_⟩⟩
      · rw [hsell]
        show rest = Tree.Delete lob.SellTree _
        rw [hrest]
        simp [Tree.Delete, compare_eq_zero]
      · rw [hsell]
        rfl
    · by_cases hHB : lob.HighestBuy = some po
      · obtain ⟨o4, ho4, hsell, hmax⟩ := h.best.bestBuy po hHB
        rw [ho] at ho4
        cases ho4
        rw [hsell] at hk2
        simp only [sideTree, if_false, Bool.false_eq_true] at hk2
        have hsorted := h.heap.treeSorted false
        simp only [sideTree, if_false, Bool.false_eq_true] at hsorted
        obtain ⟨init, hinit⟩ := sorted_last_of_max lob.BuyTree ⟨L.Price⟩ l hsorted hk2
          (fun k w hkw => by rw [hP]; exact hmax k w hkw)
        have hil : ∀ e, init.getLast? = some e → ∃ L1, lob.limits[e.2]? = some L1 := by
          intro e he
          have hm : e ∈ sideTree lob false := by
            simp only [sideTree, if_false, Bool.false_eq_true]
            rw [hinit]
            have hsi : init.Pairwise (fun a b => a.1.val < b.1.val) := by
              rw [hinit, List.pairwise_append] at hsorted
              exact hsorted.1
            exact List.mem_append_left _ (sorted_getLast_max init e hsi he).1
          obtain ⟨L1, _, _, hL1, _⟩ := h.heap.treeLevel false e.1 e.2 hm
          exact ⟨L1, hL1⟩
        have hci := cancelOrderIndexes_one_buy { lob with Lock := true } po l o L init ho hl hL
          hsz hLS hHB hsell hinit hsorted hil
        rw [hci] at hci3
        cases hci3
        rw [hst]
        refine ⟨rfl, rfl, Or.inl ⟨hsz, rfl, ?_, ?_⟩⟩
        · rw [hsell]
          show init = Tree.Delete lob.BuyTree _
          rw [hinit]
          rw [hinit] at hsorted
          exact (delete_append_last init _ l hsorted).symm
        · rw [hsell]
          rfl
      · have hci := cancelOrderIndexes_one_other { lob with Lock := true } po l o L ho hl hL
          hsz hLS hHB
        rw [hci] at hci3
        cases hci3
        rw [hst]
        refine ⟨by unfold setOrderTree; split_ifs <;> rfl,
          by unfold setOrderTree; split_ifs <;> rfl,
          Or.inl ⟨hsz, by unfold setOrderTree; split_ifs <;> rfl, ?_, ?_⟩⟩
        · unfold setOrderTree getOrderTree
          cases o.IsSell <;> rfl
        · unfold setOrderTree getOrderTree
          cases o.IsSell <;> rfl
  · have hbest : ∃ b ob, bestOf lob o.IsSell = some b ∧ lob.orders[b]? = some ob := by
      cases hsS : o.IsSell with
      | true =>
        rw [hsS] at hk
        simp only [sideTree, if_true] at hk
        obtain ⟨a, oa, hLS, hoa, _⟩ := h.cache_bounds.1 (List.ne_nil_of_mem hk)
        exact ⟨a, oa, by simp [bestOf, hLS], hoa⟩
      | false =>
        rw [hsS] at hk
        simp only [sideTree, if_false, Bool.false_eq_true] at hk
        obtain ⟨b, ob, hHB, hob, _⟩ := h.cache_bounds.2 (List.ne_nil_of_mem hk)
        exact ⟨b, ob, by simp [bestOf, hHB], hob⟩
    obtain ⟨b, ob, hb, hob⟩ := hbest
    have hci := cancelOrderIndexes_many { lob with Lock := true } po l b o ob L ho hl hL hsz
      (h.heap.ordPrev po o ho)
      (by
        intro n hn
        obtain ⟨_, o2, h2, _⟩ := h.heap.ordNext po o n ho hn
        exact ⟨o2, h2, h.heap.ordPrev n o2 h2⟩)
      hb hob
    rw [hci] at hci3
    cases hci3
    rw [hst]
    exact ⟨rfl, rfl, Or.inr ⟨hsz, fun _ => rfl, _, rfl, rfl⟩⟩

/-- A submit of a Go `int` quantity keeps the volumes right. -/
theorem NewOrder_vol (lob : LimitOrderBook) (uid price qty : Int) (isSell : Bool) (id : Int)
    (h : Inv lob) (hv : VolInv lob) (hlock : lob.Lock = false)
    (habs : ∀ p, (id, p) ∉ lob.OrdersByID) (hq : isGoInt qty = true)
    (r : Ret) (hr : NewOrder lob uid price qty isSell id = .ok r) : VolInv r.1 := by
  have hread := h.readable
  cases hc : crosses lob isSell price with
  | true =>
    rw [NewOrder_reject lob uid price qty isSell id hlock hread hc] at hr
    cases hr
    exact hv
  | false =>
    have htab : mapSet lob.OrdersByID id lob.orders.length
        = (id, lob.orders.length) :: lob.OrdersByID := by
      unfold mapSet
      rw [mapDelete_of_absent _ _ habs]
    cases hsearch : Tree.Search (sideTree lob isSell) ⟨price⟩ with
    | none =>
      obtain ⟨out, hout⟩ := NewOrder_new lob uid price qty isSell id hlock hread hc hsearch
      rw [hout] at hr
      cases hr
      have hnone := (search_none _ _).1 hsearch
      apply VolInv.vol_place_new h.heap hv
        ⟨id, uid, price, qty, isSell, none, none, some lob.limits.length⟩ hq rfl
      · rw [improveBest_orders]
        exact placeNew_grows lob ⟨id, uid, price, qty, isSell, none, none, none⟩
      · rw [improveBest_limits, placeNew_limits]
      · rw [improveBest_table, placeNew_table]
        exact htab
      · exact hnone
      · rw [improveBest_tree]
        exact placeNew_tree_same lob ⟨id, uid, price, qty, isSell, none, none, none⟩
      · rw [improveBest_tree]
        exact placeNew_tree_other lob ⟨id, uid, price, qty, isSell, none, none, none⟩
    | some n =>
      obtain ⟨l, hl⟩ := search_some _ _ _ hsearch
      have hval : Tree.Value (sideTree lob isSell) n = some l := by
        simp [Tree.Value, hl]
      have hk : (({ val := price } : treeKey), l) ∈ sideTree lob isSell := List.getElem?_mem hl
      obtain ⟨L, hd, oh, hL, hP, hH, hoh, hpl, hs, hsz, h1, htl⟩ := h.heap.treeLevel _ _ _ hk
      cases hT : L.TailOrder with
      | none =>
        rw [NewOrder_tail_nil lob uid price qty isSell id n l L hlock hread hc hsearch hval hL hT]
          at hr
        cases hr
      | some t =>
        obtain ⟨_, ot, hot, _⟩ := htl t hT
        obtain ⟨out, hout⟩ := NewOrder_append lob uid price qty isSell id n l t L ot hlock hread
          hc hsearch hval hL hT hot
        rw [hout] at hr
        cases hr
        apply VolInv.vol_place_append h.heap hv
          ⟨id, uid, price, qty, isSell, none, none, some l⟩ l (some t) L
          { L with
            TailOrder := some lob.orders.length
            Size := L.Size + 1
            TotalVolume := wrapInt (L.TotalVolume + qty) } rfl hk hL
        · rw [improveBest_orders]
          exact placeAppend_grows lob ⟨id, uid, price, qty, isSell, none, none, none⟩ l t L ot
            hot
        · rw [improveBest_limits]
          rfl
        · rfl
        · rw [improveBest_table]
          exact htab
        · intro s
          rw [improveBest_tree]
          rfl

/-- A cancel keeps the volumes right. -/
theorem CancelOrder_vol (lob : LimitOrderBook) (id : Int) (h : Inv lob) (hv : VolInv lob)
    (r : Ret) (hr : CancelOrder lob id = .ok r) : VolInv r.1 := by
  cases hget : mapGet lob.OrdersByID id with
  | none =>
    obtain ⟨hlock, _⟩ := CancelOrder_inv _ _ _ hr
    rw [CancelOrder_absent lob id hlock hget] at hr
    cases hr
    exact hv.vol_congr rfl rfl rfl (fun _ => rfl)
  | some po =>
    have hmem := mapGet_some _ _ _ hget
    obtain ⟨o, l, L, ho, hl, hL, e1, e3, hcase⟩ := CancelOrder_state lob id po h hget r hr
    rcases hcase with ⟨_, e2, e4, e5⟩ | ⟨_, e4, Ln, e2, hLn⟩
    · exact VolInv.vol_cancel_one h.heap hv id po o l L hmem ho hl hL e1 e2 e3 e4 e5
    · exact VolInv.vol_cancel_many h.heap hv id po o l L Ln hmem ho hl hL e1 e2 hLn e3 e4

/-- A run with IDs that are not reused and with Go `int` quantities keeps the volumes
right. -/
theorem run_vol (cmds : List Cmd) : ∀ (lob lob2 : LimitOrderBook) (used : List Int),
    Inv lob → VolInv lob → (∀ id p, (id, p) ∈ lob.OrdersByID → id ∈ used) →
    (used ++ submittedIDs cmds).Nodup → quantitiesAreInts cmds = true →
    run lob cmds = .ok lob2 → VolInv lob2 := by
  induction cmds with
  | nil =>
    intro lob lob2 used _ hv _ _ _ hr
    simp only [run] at hr
    cases hr
    exact hv
  | cons c cs ih =>
    intro lob lob2 used h hv hused hnd hq hr
    simp only [run] at hr
    cases hs : step lob c with
    | error e =>
      rw [hs] at hr
      cases hr
    | ok r =>
      rw [hs] at hr
      simp only at hr
      have hsplit : submittedIDs (c :: cs) = submittedIDs [c] ++ submittedIDs cs :=
        submittedIDs_append [c] cs
      rw [hsplit, ← List.append_assoc] at hnd
      have hnd1 : (used ++ submittedIDs [c]).Nodup := (List.nodup_append.1 hnd).1
      have hfresh : ∀ p, ∀ id ∈ submittedIDs [c], (id, p) ∉ lob.OrdersByID := by
        intro p id hid hm
        exact (List.nodup_append.1 hnd1).2.2 (hused id p hm) hid
      obtain ⟨h1, _, h3, _⟩ := step_spec lob c h hfresh r hs
      have hused2 : ∀ id p, (id, p) ∈ r.1.OrdersByID → id ∈ used ++ submittedIDs [c] := by
        intro id p hm
        rcases h3 id p hm with hm | ⟨hm, _⟩
        · exact List.mem_append_left _ (hused id p hm)
        · exact List.mem_append_right _ hm
      have hlock : lob.Lock = false := by
        cases hl : lob.Lock with
        | false => rfl
        | true =>
          rw [step_locked lob c hl] at hs
          cases hs
      have hv1 : VolInv r.1 ∧ quantitiesAreInts cs = true := by
        cases c with
        | submit uid price qty isSell id =>
          simp only [quantitiesAreInts, Bool.and_eq_true] at hq
          exact ⟨NewOrder_vol lob uid price qty isSell id h hv hlock
            (fun p => hfresh p id (by simp [submittedIDs])) hq.1 r hs, hq.2⟩
        | cancel id =>
          exact ⟨CancelOrder_vol lob id h hv r hs, hq⟩
      exact ih r.1 lob2 (used ++ submittedIDs [c]) h1 hv1.1 hused2 hnd hv1.2 hr

theorem VolInv.vol_empty : VolInv NewLimitOrderBook := by
  intro s k l L hk _
  cases s <;> simp [NewLimitOrderBook, sideTree] at hk

theorem filterMap_filter_link (orders : List Order) (m : List (Int × Nat))
    (pred : Order → Bool) (q : Int × Nat → Bool)
    (hm : ∀ e ∈ m, ∃ o : Order, orders[e.2]? = some o ∧ pred o = q e) :
    ((m.filterMap (fun e => orders[e.2]?)).filter pred).length = m.countP q ∧
    (((m.filterMap (fun e => orders[e.2]?)).filter pred).map (·.Quantity)).sum
      = ((m.filter q).map (fun e => quantityAt orders e.2)).sum := by
  induction m with
  | nil => exact ⟨rfl, rfl⟩
  | cons a t ih =>
    obtain ⟨o, ho, hpq⟩ := hm a (List.mem_cons_self _ _)
    obtain ⟨i1, i2⟩ := ih (fun e he => hm e (List.mem_cons_of_mem _ he))
    have hfm : (a :: t).filterMap (fun e => orders[e.2]?)
        = o :: t.filterMap (fun e => orders[e.2]?) := by
      simp [List.filterMap_cons, ho]
    rw [hfm]
    cases hq : q a with
    | true =>
      rw [hq] at hpq
      simp only [List.filter_cons, hpq, hq, if_true, List.length_cons, List.countP_cons,
        List.map_cons, List.sum_cons, i1, i2, quantityAt_eq _ _ _ ho]
      exact ⟨trivial, trivial⟩
    | false =>
      rw [hq] at hpq
      simp only [List.filter_cons, hpq, hq, if_false, Bool.false_eq_true, List.countP_cons,
        i1, i2, add_zero]
      exact ⟨trivial, trivial⟩

/-- Under the invariant, the orders of the ID table with the side and price of an
indexed level are the entries that refer to that level. -/
theorem Inv.ordersAt_level {lob : LimitOrderBook} (h : Inv lob) (s : Bool) (price : Int)
    (l : Nat) (hk : (({ val := price } : treeKey), l) ∈ sideTree lob s) :
    (ordersAt lob s price).length = restingAt lob l ∧
    ((ordersAt lob s price).map (·.Quantity)).sum = volumeAt lob l := by
  unfold ordersAt restingOrders restingAt volumeAt
  apply filterMap_filter_link
  intro e he
  obtain ⟨o, ho, _⟩ := h.heap.tableValid e.1 e.2 he
  refine ⟨o, ho, ?_⟩
  obtain ⟨l1, L1, _, hl1, hk1, _⟩ := h.heap.resting e.1 e.2 o he ho
  rw [levelOf_eq _ _ _ ho, hl1]
  by_cases hsp : o.IsSell = s ∧ o.Price = price
  · obtain ⟨e1, e2⟩ := hsp
    rw [e1, e2] at hk1
    have := sorted_key_unique _ (h.heap.treeSorted s) _ _ _ hk1 hk
    subst this
    simp [e1, e2]
  · have hne : ¬ (l1 = l) := by
      intro e
      subst e
      obtain ⟨e1, e2⟩ := h.heap.level_unique _ _ _ _ _ hk1 hk
      exact hsp ⟨e1, congrArg treeKey.val e2⟩
    have hb : (o.IsSell == s && o.Price == price) = false := by
      rw [Bool.eq_false_iff]
      intro hb
      simp only [Bool.and_eq_true, beq_iff_eq] at hb
      exact hsp hb
    rw [hb]
    simp [hne]

/-- C17 (amended): in every state reached from the empty book by submit and cancel
calls with distinct order IDs and quantities that are Go `int` values, for each side
and each price: a level with that price is in the side's index if and only if at least
one order of the ID table has that side and price; and the indexed level has count at
least 1, its count is the number of such orders, and its volume is the sum of their
quantities reduced to a 64-bit two's-complement integer, which is the sum itself
whenever the sum is a Go `int`. -/
theorem C17_levels_mirror_the_id_table_with_wrapped_volume (cmds : List Cmd)
    (lob : LimitOrderBook) (hnd : (submittedIDs cmds).Nodup)
    (hq : quantitiesAreInts cmds = true) (hrun : run NewLimitOrderBook cmds = .ok lob)
    (s : Bool) (price : Int) :
    ((∃ l, (({ val := price } : treeKey), l) ∈ sideTree lob s) ↔ ordersAt lob s price ≠ []) ∧
    ∀ (l : Nat) (L : Limit), (({ val := price } : treeKey), l) ∈ sideTree lob s →
      lob.limits[l]? = some L →
      1 ≤ L.Size ∧ L.Size = ((ordersAt lob s price).length : Int) ∧
      L.TotalVolume = wrapInt ((ordersAt lob s price).map (·.Quantity)).sum ∧
      (isGoInt ((ordersAt lob s price).map (·.Quantity)).sum = true →
        L.TotalVolume = ((ordersAt lob s price).map (·.Quantity)).sum) := by
  have hi : Inv lob := (run_spec cmds NewLimitOrderBook lob [] Inv.empty
    (by simp [NewLimitOrderBook]) (by simpa using hnd) hrun).1
  have hv : VolInv lob := run_vol cmds NewLimitOrderBook lob [] Inv.empty VolInv.vol_empty
    (by simp [NewLimitOrderBook]) (by simpa using hnd) hq hrun
  have hlevel : ∀ (l : Nat) (L : Limit), (({ val := price } : treeKey), l) ∈ sideTree lob s →
      lob.limits[l]? = some L →
      1 ≤ L.Size ∧ L.Size = ((ordersAt lob s price).length : Int) ∧
      L.TotalVolume = wrapInt ((ordersAt lob s price).map (·.Quantity)).sum := by
    intro l L hk hL
    obtain ⟨L0, _, _, hL0, _, _, _, _, _, hsz, h1, _⟩ := hi.heap.treeLevel s _ l hk
    rw [hL] at hL0
    cases hL0
    obtain ⟨e1, e2⟩ := hi.ordersAt_level s price l hk
    refine ⟨h1, by rw [hsz, e1], ?_⟩
    rw [e2]
    exact hv s _ l L hk hL
  refine ⟨⟨?_, ?_⟩, ?_⟩
  · rintro ⟨l, hk⟩
    obtain ⟨L0, _, _, hL0, _⟩ := hi.heap.treeLevel s _ l hk
    obtain ⟨h1, h2, _⟩ := hlevel l L0 hk hL0
    intro hnil
    rw [hnil] at h2
    simp at h2
    omega
  · intro hne
    obtain ⟨o, hmem⟩ := List.exists_mem_of_ne_nil _ hne
    simp only [ordersAt, restingOrders, List.mem_filter, List.mem_filterMap, Bool.and_eq_true,
      beq_iff_eq] at hmem
    obtain ⟨⟨e, he, ho⟩, hs, hp⟩ := hmem
    obtain ⟨l, _, _, _, hk, _⟩ := hi.heap.resting e.1 e.2 o he ho
    rw [hs, hp] at hk
    exact ⟨l, hk⟩
  · intro l L hk hL
    obtain ⟨h1, h2, h3⟩ := hlevel l L hk hL
    exact ⟨h1, h2, h3, fun hg => by rw [h3, wrapInt_of_isGoInt _ hg]⟩

/-- C17, the counterexample to the volume being the plain sum: after the submits
`buy 4611686018427387904@100 (id 1)` and `buy 4611686018427387904@100 (id 2)`, both
quantities Go `int` values, the level at 100 of the buy index has count 2 and volume
`-9223372036854775808`, while the two orders of the ID table at that side and price
have quantities that add up to `9223372036854775808`. -/
theorem C17_counterexample :
    run NewLimitOrderBook
        [.submit 7 100 4611686018427387904 false 1, .submit 7 100 4611686018427387904 false 2]
      = .ok overflowBook ∧
    isGoInt 4611686018427387904 = true ∧
    (⟨100⟩, 0) ∈ sideTree overflowBook false ∧
    (overflowBook.limits[0]?).map (fun L => (L.Size, L.TotalVolume))
      = some (2, -9223372036854775808) ∧
    (ordersAt overflowBook false 100).length = 2 ∧
    ((ordersAt overflowBook false 100).map (·.Quantity)).sum = 9223372036854775808 ∧
    (-9223372036854775808 : Int) ≠ 9223372036854775808 :=
  ⟨rfl, by decide, by decide, rfl, rfl, rfl, by decide⟩

/-- C17 (amended) at the run `buy 3@100 (id 4)`, `buy 2@100 (id 5)`: the level at 100 of
the buy index has count 2 and volume 5. -/
theorem C17_witness :
    ((∃ l, (({ val := 100 } : treeKey), l) ∈ sideTree twoAtLevelBook false) ↔
      ordersAt twoAtLevelBook false 100 ≠ []) ∧
    ∀ (l : Nat) (L : Limit), (({ val := 100 } : treeKey), l) ∈ sideTree twoAtLevelBook false →
      twoAtLevelBook.limits[l]? = some L →
      1 ≤ L.Size ∧ L.Size = ((ordersAt twoAtLevelBook false 100).length : Int) ∧
      L.TotalVolume = wrapInt ((ordersAt twoAtLevelBook false 100).map (·.Quantity)).sum ∧
      (isGoInt ((ordersAt twoAtLevelBook false 100).map (·.Quantity)).sum = true →
        L.TotalVolume = ((ordersAt twoAtLevelBook false 100).map (·.Quantity)).sum) :=
  C17_levels_mirror_the_id_table_with_wrapped_volume
    [.submit 7 100 3 false 4, .submit 7 100 2 false 5] twoAtLevelBook (by decide) rfl rfl
    false 100

/-! ## Calls on the book whose lock the failed cancel left held -/

/-- The book `lockedBook` is reached by a submit and a cancel of an unknown ID. -/
theorem lockedBook_reachable : Reachable lockedBook :=
  ⟨[.submit 7 100 10 false 1, .cancel 9], by decide, rfl⟩

/-- The book `lockedBook` is the book with one bid in every part but the lock. -/
theorem lockedBook_parts : lockedBook = { oneBidBook with Lock := true } := rfl

/-- C1 (the code at the failing input): after `buy 10@100 (id 1)` and `cancel 9` (an ID
that was never submitted) the cached best bid is order 1 at price 100 and the lock is
held; the sell of 5 at 100 (id 2) is at the cached best bid's price, and the submit
never returns, where on the same book with the lock free it returns `R, 7, 2` and
leaves the book as it was. -/
theorem C1_crossing_submit_after_a_failed_cancel_never_returns :
    run NewLimitOrderBook [.submit 7 100 10 false 1, .cancel 9] = .ok lockedBook ∧
    lockedBook.HighestBuy = some 0 ∧
    (lockedBook.orders[0]?).map (·.Price) = some 100 ∧
    NewOrder lockedBook 7 100 5 true 2 = .error Fault.deadlock ∧
    NewOrder oneBidBook 7 100 5 true 2 = .ok (oneBidBook, ["R, 7, 2"], none) :=
  ⟨rfl, rfl, rfl, rfl, rfl⟩

/-- C4 (the code at the failing input): on the book with one bid (id 1), `cancel 9`
fails with not found, returns no line and leaves both indexes, the levels, the ID
table and both cached pointers as they were, but the lock held; ID 9 is still absent,
and the second `cancel 9` never returns instead of failing with not found. -/
theorem C4_second_cancel_of_an_absent_id_never_returns :
    CancelOrder oneBidBook 9 = .ok (lockedBook, [], some "Order 9 doesnt exist") ∧
    (lockedBook.BuyTree, lockedBook.SellTree, lockedBook.orders, lockedBook.limits,
        lockedBook.OrdersByID, lockedBook.LowestSell, lockedBook.HighestBuy)
      = (oneBidBook.BuyTree, oneBidBook.SellTree, oneBidBook.orders, oneBidBook.limits,
        oneBidBook.OrdersByID, oneBidBook.LowestSell, oneBidBook.HighestBuy) ∧
    mapGet lockedBook.OrdersByID 9 = none ∧
    CancelOrder lockedBook 9 = .error Fault.deadlock :=
  ⟨rfl, rfl, rfl, rfl⟩

/-- C5 (the code at the failing input): the book after `buy 10@100 (id 1)` and
`cancel 9` is reachable and has ID 1 in its table; `cancel 1` never returns, where on
the same book with the lock free it returns `A, 7, 1` first and leaves the table
without ID 1. -/
theorem C5_cancel_of_a_present_id_after_a_failed_cancel_never_returns :
    Reachable lockedBook ∧
    mapGet lockedBook.OrdersByID 1 = some 0 ∧
    CancelOrder lockedBook 1 = .error Fault.deadlock ∧
    (CancelOrder oneBidBook 1).map (fun r => (r.2.1, r.2.2, r.1.OrdersByID))
      = .ok (["A, 7, 1", "B, B, -, -"], none, []) :=
  ⟨lockedBook_reachable, rfl, rfl, rfl⟩

/-- C15 (the code at the failing input): in the reachable book after `buy 10@100 (id 1)`
and `cancel 9`, order 1 is the cached best bid and the only order of its level
(count 1); `cancel 1` never returns, so the level stays in the buy index and the
cache stays on order 1, where on the same book with the lock free the cancel empties
the buy index, sets the cached best bid to nil and returns `A, 7, 1` and `B, B, -, -`. -/
theorem C15_cancel_of_the_lone_best_after_a_failed_cancel_never_returns :
    Reachable lockedBook ∧
    mapGet lockedBook.OrdersByID 1 = some 0 ∧
    bestOf lockedBook false = some 0 ∧
    (lockedBook.limits[0]?).map (·.Size) = some 1 ∧
    CancelOrder lockedBook 1 = .error Fault.deadlock ∧
    (CancelOrder oneBidBook 1).map (fun r => (r.2.1, r.2.2, r.1.BuyTree, r.1.HighestBuy))
      = .ok (["A, 7, 1", "B, B, -, -"], none, [], none) :=
  ⟨lockedBook_reachable, rfl, rfl, rfl, rfl, rfl⟩

end lob
